import Mathlib

/-! The PGN transcript parser of shric/pgn (`pgn.go`).

A shallow embedding of `pgn.go`.  The parser drives Go's standard
`text/scanner` (Go 1.13 and later), so the first part of this file is a model
of that scanner: the character stream is a `List Char` (the stream already
decoded into runes), the look-ahead character is the head of the unread list,
and `scanner.EOF` is `none`.  A leading byte-order mark, which the scanner
drops on the first read, is dropped when the scanner is created.  Error
reporting, positions and token classes of the scanner are not observable by
`pgn.go` and are left out.

The board (`board.go`) is not part of the sources at hand: the parser is
embedded over an arbitrary board interface (`BoardAPI`), and what is proved of
the parser holds for every board.  A board written after the specification and
the tests of `board_test.go` serves the statements on the board itself and the
runs on concrete input.
-/

namespace PGN

/-! ## Characters -/

/-- The classification of the code points outside ASCII by the tables of Go's
`unicode.IsLetter` and `unicode.IsDigit`, which belong to Go's library and not
to the sources; they are taken as a parameter. -/
structure Unicode where
  letter : Char → Bool
  digit : Char → Bool

/-- The tables that classify no non-ASCII code point as a letter or digit. -/
def Unicode.ascii : Unicode := ⟨fun _ => false, fun _ => false⟩

def chLBrace : Char := Char.ofNat 123
def chRBrace : Char := Char.ofNat 125
def chDQuote : Char := Char.ofNat 34
def chSQuote : Char := Char.ofNat 39
def chBackslash : Char := Char.ofNat 92
def chBackquote : Char := Char.ofNat 96
def chNL : Char := Char.ofNat 10
def chCR : Char := Char.ofNat 13
def chTab : Char := Char.ofNat 9

/-- `unicode.IsLetter`. -/
def isLetter (U : Unicode) (c : Char) : Bool :=
  if c.toNat < 128 then
    (decide (65 ≤ c.toNat) && decide (c.toNat ≤ 90)) || (decide (97 ≤ c.toNat) && decide (c.toNat ≤ 122))
  else U.letter c

/-- `unicode.IsDigit`. -/
def isDigit (U : Unicode) (c : Char) : Bool :=
  if c.toNat < 128 then decide (48 ≤ c.toNat) && decide (c.toNat ≤ 57) else U.digit c

/-- `isDecimal`: `'0' <= ch && ch <= '9'`. -/
def isDecimal (c : Char) : Bool := decide (48 ≤ c.toNat) && decide (c.toNat ≤ 57)

/-- `lower(ch)`: `('a' - 'A') | ch`, as a code point. -/
def lower (c : Char) : Nat := c.toNat ||| 32

/-- `isHex`: `'0' <= ch && ch <= '9' || 'a' <= lower(ch) && lower(ch) <= 'f'`. -/
def isHex (c : Char) : Bool := isDecimal c || (decide (97 ≤ lower c) && decide (lower c ≤ 102))

/-- `digitVal(ch) < base` for the two bases the escapes use. -/
def isDigitOf (base : Nat) (c : Char) : Bool :=
  if isDecimal c then decide (c.toNat - 48 < base)
  else if decide (97 ≤ lower c) && decide (lower c ≤ 102) then decide (lower c - 97 + 10 < base)
  else false

/-- The default `Scanner.isIdentRune`: `ch == '_' || unicode.IsLetter(ch) ||
unicode.IsDigit(ch) && i > 0`. -/
def isIdentRune (U : Unicode) (c : Char) (i : Nat) : Bool :=
  c == '_' || isLetter U c || (isDigit U c && decide (i > 0))

/-- Membership in `GoWhitespace`: tab, newline, carriage return, space. -/
def isWhitespace (c : Char) : Bool :=
  c == chTab || c == chNL || c == chCR || c == ' '

/-! ## `text/scanner` -/

/-- The `Mode` bits of a scanner. -/
structure Mode where
  ScanIdents : Bool
  ScanInts : Bool
  ScanFloats : Bool
  ScanChars : Bool
  ScanStrings : Bool
  ScanRawStrings : Bool
  ScanComments : Bool
  SkipComments : Bool
deriving DecidableEq, Repr

/-- `scanner.GoTokens`, the mode `Init` sets. -/
def GoTokens : Mode := ⟨true, false, true, true, true, true, true, true⟩

/-- A `scanner.Scanner`: the unread characters (the head is the look-ahead
`s.ch`), the text of the last token (`TokenText()`), and the mode. -/
structure Scanner where
  rest : List Char
  tok : List Char
  mode : Mode
deriving DecidableEq, Repr

/-- `Scanner.Init` on a stream: a leading byte-order mark is ignored. -/
def Scanner.Init (src : List Char) : Scanner :=
  { rest := match src with
      | c :: cs => if c.toNat = 0xFEFF then cs else c :: cs
      | [] => [],
    tok := [], mode := GoTokens }

/-- `Scanner.Peek`: the look-ahead character, `none` for `scanner.EOF`. -/
def Scanner.Peek (s : Scanner) : Option Char := s.rest.head?

/-- `Scanner.Next`: returns the look-ahead character and advances; the token
text is invalidated. -/
def Scanner.Next (s : Scanner) : Option Char × Scanner :=
  (s.rest.head?, { s with rest := s.rest.tail, tok := [] })

/-- `Scanner.TokenText`. -/
def Scanner.TokenText (s : Scanner) : List Char := s.tok

/-- `Scanner.digits`: the run of digits and `_` separators (the digits of a
base up to ten are scanned as decimal digits, an invalid one only being
reported). -/
def digits (hex : Bool) (inp : List Char) : List Char × List Char :=
  (inp.takeWhile (fun c => (if hex then isHex c else isDecimal c) || c == '_'),
   inp.dropWhile (fun c => (if hex then isHex c else isDecimal c) || c == '_'))

/-- The exponent part of `scanNumber`. -/
def scanExponent (floats : Bool) (inp : List Char) : List Char × List Char :=
  match inp with
  | [] => ([], [])
  | e :: cs =>
    if (lower e == 101 || lower e == 112) && floats then
      let sg : List Char × List Char :=
        match cs with
        | c :: t => if c == '+' || c == '-' then ([c], t) else ([], cs)
        | [] => ([], [])
      let d := digits false sg.2
      (e :: sg.1 ++ d.1, d.2)
    else ([], e :: cs)

/-- `Scanner.scanNumber(ch, seenDot)`: `inp` starts with `ch`; returns the
characters taken into the token and the unread rest. -/
def scanNumber (floats seenDot : Bool) (inp : List Char) : List Char × List Char :=
  if seenDot then
    let d := digits false inp
    let e := scanExponent floats d.2
    (d.1 ++ e.1, e.2)
  else
    -- integer part: the prefix, whether the base is 16, and what follows
    let pre : List Char × Bool × List Char :=
      match inp with
      | c :: cs =>
        if c == '0' then
          match cs with
          | x :: xs =>
            if lower x == 120 then ([c, x], true, xs)
            else if lower x == 111 || lower x == 98 then ([c, x], false, xs)
            else ([c], false, cs)
          | [] => ([c], false, [])
        else ([], false, inp)
      | [] => ([], false, [])
    let d := digits pre.2.1 pre.2.2
    let fr : List Char × List Char :=
      match d.2 with
      | c :: cs =>
        if c == '.' && floats then
          let d2 := digits pre.2.1 cs
          (c :: d2.1, d2.2)
        else ([], d.2)
      | [] => ([], [])
    let e := scanExponent floats fr.2
    (pre.1 ++ d.1 ++ fr.1 ++ e.1, e.2)

/-- `Scanner.scanDigits(ch, base, n)`: at most `n` digits of the base. -/
def scanDigits (base : Nat) : Nat → List Char → List Char × List Char
  | 0, inp => ([], inp)
  | _ + 1, [] => ([], [])
  | n + 1, c :: cs =>
    if isDigitOf base c then
      let r := scanDigits base n cs
      (c :: r.1, r.2)
    else ([], c :: cs)

/-- `Scanner.scanEscape(quote)`: `inp` is what follows the backslash. -/
def scanEscape (quote : Char) (inp : List Char) : List Char × List Char :=
  match inp with
  | [] => ([], [])
  | c :: cs =>
    if c == 'a' || c == 'b' || c == 'f' || c == 'n' || c == 'r' || c == 't' || c == 'v'
        || c == chBackslash || c == quote then ([c], cs)
    else if decide (48 ≤ c.toNat) && decide (c.toNat ≤ 55) then scanDigits 8 3 (c :: cs)
    else if c == 'x' then let r := scanDigits 16 2 cs; (c :: r.1, r.2)
    else if c == 'u' then let r := scanDigits 16 4 cs; (c :: r.1, r.2)
    else if c == 'U' then let r := scanDigits 16 8 cs; (c :: r.1, r.2)
    else ([], c :: cs)

/-- `Scanner.scanString(quote)` followed by the `s.next()` of `Scan`: `inp` is
what follows the opening quote; the closing quote, or the newline that ends an
unterminated literal, is taken into the token. -/
def scanString (quote : Char) : Nat → List Char → List Char × List Char
  | 0, inp => ([], inp)
  | _ + 1, [] => ([], [])
  | f + 1, c :: cs =>
    if c == quote || c == chNL then ([c], cs)
    else if c == chBackslash then
      let e := scanEscape quote cs
      let r := scanString quote f e.2
      (c :: e.1 ++ r.1, r.2)
    else
      let r := scanString quote f cs
      (c :: r.1, r.2)

/-- `Scanner.scanRawString` followed by the `s.next()` of `Scan`. -/
def scanRawString : List Char → List Char × List Char
  | [] => ([], [])
  | c :: cs =>
    if c == chBackquote then ([c], cs)
    else let r := scanRawString cs; (c :: r.1, r.2)

/-- The line-comment branch of `Scanner.scanComment`: up to, not including,
the newline. -/
def scanLineComment (inp : List Char) : List Char × List Char :=
  (inp.takeWhile (fun c => c != chNL), inp.dropWhile (fun c => c != chNL))

/-- The general-comment branch of `Scanner.scanComment`: `inp` is what follows
the opening slash and star. -/
def scanGeneralComment : List Char → List Char × List Char
  | [] => ([], [])
  | c0 :: cs =>
    match cs with
    | [] => ([c0], [])
    | c1 :: cs1 =>
      if c0 == '*' && c1 == '/' then ([c0, c1], cs1)
      else let r := scanGeneralComment cs; (c0 :: r.1, r.2)

/-- `Scanner.scanComment(ch)`: `ch` is the second character of the opener. -/
def scanComment (ch : Char) (inp : List Char) : List Char × List Char :=
  if ch == '/' then scanLineComment inp else scanGeneralComment inp

/-- The body of `Scanner.Scan` over the unread characters: white space is
skipped, then one token is taken; returns the token text and the unread rest.
The fuel bounds the `goto redo` after a skipped comment. -/
def scanToken (U : Unicode) (m : Mode) : Nat → List Char → List Char × List Char
  | 0, inp => ([], inp)
  | f + 1, inp =>
    match inp.dropWhile isWhitespace with
    | [] => ([], [])
    | c :: cs =>
      if isIdentRune U c 0 then
        if m.ScanIdents then
          (c :: cs.takeWhile (fun x => isIdentRune U x 1), cs.dropWhile (fun x => isIdentRune U x 1))
        else ([c], cs)
      else if isDecimal c then
        if m.ScanInts || m.ScanFloats then scanNumber m.ScanFloats false (c :: cs)
        else ([c], cs)
      else if c == chDQuote then
        if m.ScanStrings then
          let r := scanString chDQuote (cs.length + 1) cs
          (c :: r.1, r.2)
        else ([c], cs)
      else if c == chSQuote then
        if m.ScanChars then
          let r := scanString chSQuote (cs.length + 1) cs
          (c :: r.1, r.2)
        else ([c], cs)
      else if c == '.' then
        match cs with
        | d :: _ =>
          if isDecimal d && m.ScanFloats then
            let r := scanNumber m.ScanFloats true cs
            (c :: r.1, r.2)
          else ([c], cs)
        | [] => ([c], [])
      else if c == '/' then
        match cs with
        | d :: ds =>
          if (d == '/' || d == '*') && m.ScanComments then
            if m.SkipComments then scanToken U m f (scanComment d ds).2
            else
              let r := scanComment d ds
              (c :: d :: r.1, r.2)
          else ([c], cs)
        | [] => ([c], [])
      else if c == chBackquote then
        if m.ScanRawStrings then
          let r := scanRawString cs
          (c :: r.1, r.2)
        else ([c], cs)
      else ([c], cs)

/-- `Scanner.Scan`: the next token becomes the token text. -/
def Scanner.Scan (U : Unicode) (s : Scanner) : Scanner :=
  let r := scanToken U s.mode (s.rest.length + 1) s.rest
  { s with rest := r.2, tok := r.1 }

/-! ## Data model of `pgn.go` -/

/-- A Go `string`, as the list of its characters. -/
abbrev Str := List Char

/-- Modelled from the spec: the type `Color` of `board.go`, an enumeration of
the two sides. -/
inductive Color
  | White
  | Black
deriving DecidableEq, Repr

/-- Modelled from the spec: the type `Piece` of `board.go`, the six piece kinds
of either colour and `NoPiece`. -/
inductive Piece
  | NoPiece
  | WhitePawn | WhiteKnight | WhiteBishop | WhiteRook | WhiteQueen | WhiteKing
  | BlackPawn | BlackKnight | BlackBishop | BlackRook | BlackQueen | BlackKing
deriving DecidableEq, Repr

/-- Modelled from the spec: the type `Position` of `board.go`, a square given by
its linear index `rank * 8 + file` (a1 is 0, h8 is 63), or the sentinel
`NoPosition`. -/
inductive Position
  | NoPosition
  | sq (i : Fin 64)
deriving DecidableEq, Repr

/-- The struct `Move`. -/
structure Move where
  From : Position
  To : Position
  Promote : Piece
deriving DecidableEq, Repr

/-- The variable `NilMove`: `Move{From: NoPosition, To: NoPosition}`; the
`Promote` field is the zero value of `Piece`, taken to be `NoPiece`. -/
def NilMove : Move := { From := .NoPosition, To := .NoPosition, Promote := .NoPiece }

/-- A Go `map[string]string`, as an association list with unique keys. -/
abbrev Tags := List (Str × Str)

/-- The map read `m[k]`: the zero value, the empty string, when `k` is absent. -/
def Tags.index (m : Tags) (k : Str) : Str :=
  match m.lookup k with
  | some v => v
  | none => []

/-- The map write `m[k] = v`. -/
def Tags.set (m : Tags) (k v : Str) : Tags :=
  (k, v) :: m.filter (fun kv => kv.1 != k)

/-- The struct `Game`. -/
structure Game where
  Moves : List Move
  Tags : Tags
deriving DecidableEq, Repr

/-- The functions of `board.go` that `pgn.go` calls, over a board type `B` and
an error type `E` (`none` is the `nil` error).  `MakeMove`, which updates the
board in place, returns the updated board. -/
structure BoardAPI (B E : Type) where
  NewBoard : B
  NewBoardFEN : Str → Except E B
  MoveFromAlgebraic : B → Str → Color → Move × Option E
  MakeMove : B → Move → B

/-- `isEnd`. -/
def isEnd (str : Str) : Bool :=
  if str = "1/2-1/2".toList then true
  else if str = "0-1".toList then true
  else if str = "1-0".toList then true
  else if str = "*".toList then true
  else false

/-! ## `ParseMoveOrResult` -/

/-- The loop `for s.Peek() == '-'` of `ParseMoveOrResult` and `ParseMoves`: two
tokens are scanned and added to the text on every round. -/
def dashLoop (U : Unicode) : Nat → Scanner → Str → Scanner × Str
  | 0, s, r => (s, r)
  | f + 1, s, r =>
    if s.Peek = some '-' then
      let s1 := s.Scan U
      let r1 := r ++ s1.TokenText
      let s2 := s1.Scan U
      let r2 := r1 ++ s2.TokenText
      dashLoop U f s2 r2
    else (s, r)

/-- The loop `for s.Peek() == '/'`: six tokens are scanned and added to the
text on every round. -/
def slashLoop (U : Unicode) : Nat → Scanner → Str → Scanner × Str
  | 0, s, r => (s, r)
  | f + 1, s, r =>
    if s.Peek = some '/' then
      let s1 := s.Scan U
      let r1 := r ++ s1.TokenText
      let s2 := s1.Scan U
      let r2 := r1 ++ s2.TokenText
      let s3 := s2.Scan U
      let r3 := r2 ++ s3.TokenText
      let s4 := s3.Scan U
      let r4 := r3 ++ s4.TokenText
      let s5 := s4.Scan U
      let r5 := r4 ++ s5.TokenText
      let s6 := s5.Scan U
      let r6 := r5 ++ s6.TokenText
      slashLoop U f s6 r6
    else (s, r)

/-- The characters of the case `'#', '.', '+', '!', '?', '\n', '\r'`. -/
def isGlyph (c : Char) : Bool :=
  c == '#' || c == '.' || c == '+' || c == '!' || c == '?' || c == chNL || c == chCR

/-- The final loop of `ParseMoveOrResult`: glyph characters are read with
`Next` until the look-ahead is something else. -/
def glyphLoop : Nat → Scanner → Scanner
  | 0, s => s
  | f + 1, s =>
    match s.Peek with
    | some c => if isGlyph c then glyphLoop f s.Next.2 else s
    | none => s

/-- `ParseMoveOrResult`: the text it returns and the scanner it leaves. -/
def ParseMoveOrResult (U : Unicode) (s : Scanner) : Str × Scanner :=
  let result := s.TokenText
  let a := dashLoop U s.rest.length s result
  let b := slashLoop U a.1.rest.length a.1 a.2
  let c : Scanner × Str :=
    if b.1.Peek = some '=' then
      let s1 := b.1.Scan U
      let r1 := b.2 ++ s1.TokenText
      let s2 := s1.Scan U
      (s2, r1 ++ s2.TokenText)
    else b
  (c.2, glyphLoop c.1.rest.length c.1)

/-! ## `ParseMoves` -/

/-- What `ParseMoves` does to the board interface and to the standard output,
in the order it does it: a call of `MoveFromAlgebraic` with its receiver,
arguments and results, a call of `MakeMove`, a `fmt.Println(board)`. -/
inductive Event (B E : Type)
  | resolve (b : B) (text : Str) (c : Color) (m : Move) (err : Option E)
  | make (b : B) (m : Move)
  | print (b : B)

/-- The variables of `ParseMoves` while its main loop runs: the scanner `s`,
the game `g`, the running `board`, the slots `num`, `white`, `black`, the
variable `run` (`none` is `scanner.EOF`), and the events so far. -/
structure MovesState (B E : Type) where
  s : Scanner
  g : Game
  board : B
  num : Str
  white : Str
  black : Str
  run : Option Char
  log : List (Event B E)

/-- How `ParseMoves` ends: it returns `err`, or it never returns (the loop
that looks for the closing brace of a comment spins at the end of input). -/
inductive Outcome (B E : Type)
  | returned (err : Option E) (st : MovesState B E)
  | hangs (st : MovesState B E)

/-- One round of the main loop: go round again, return, or never return. -/
inductive Step (B E : Type)
  | next (st : MovesState B E)
  | ret (err : Option E) (st : MovesState B E)
  | hang (st : MovesState B E)

/-- The loops `for run != ')' && run != scanner.EOF { run = s.Next() }` and
its twin for the closing brace, over the unread characters: the last
character read and what is left. -/
def nextUntil (close : Char) : List Char → Option Char × List Char
  | [] => (none, [])
  | c :: cs => if c = close then (some c, cs) else nextUntil close cs

/-- The same loops on the scanner, from the current `run`. -/
def runUntil (close : Char) (run : Option Char) (s : Scanner) : Option Char × Scanner :=
  if run = some close ∨ run = none then (run, s)
  else
    let r := nextUntil close s.rest
    (r.1, { s with rest := r.2, tok := [] })

/-- The loop `for s.Peek() == ' ' { s.Next() }`. -/
def spaceLoop : Nat → Scanner → Scanner
  | 0, s => s
  | f + 1, s => if s.Peek = some ' ' then spaceLoop f s.Next.2 else s

/-- The loop `for s.Peek() != '}' { s.Next() }`; `none` when it never ends,
which is when the end of input comes before a closing brace. -/
def braceLoop : Nat → Scanner → Option Scanner
  | 0, _ => none
  | f + 1, s =>
    match s.Peek with
    | none => none
    | some c => if c = chRBrace then some s else braceLoop f s.Next.2

/-- The `if s.Peek() == '{'` block after White's move: the comment is read up
to and including its closing brace. -/
def skipComment (s : Scanner) : Option Scanner :=
  if s.Peek = some chLBrace then
    match braceLoop s.rest.length s with
    | none => none
    | some s1 => some s1.Next.2
  else some s

/-- The `if s.Peek() >= '0' && s.Peek() <= '9'` test. -/
def peekIsDigit (s : Scanner) : Bool :=
  match s.Peek with
  | some c => isDecimal c
  | none => false

/-- The `num == ""` branch of the default case; `s1` is the scanner after the
`s.Scan()` that opens the case. -/
def numSlot {B E : Type} (U : Unicode) (st : MovesState B E) (s1 : Scanner) : Step B E :=
  let num := s1.TokenText
  let a := dashLoop U s1.rest.length s1 num
  let b := slashLoop U a.1.rest.length a.1 a.2
  if isEnd b.2 then .ret none { st with s := b.1, num := b.2 }
  else .next { st with s := b.1, num := b.2, run := b.1.Peek }

/-- The `white == ""` branch of the default case. -/
def whiteSlot {B E : Type} (U : Unicode) (api : BoardAPI B E) (st : MovesState B E)
    (s1 : Scanner) : Step B E :=
  let pw := ParseMoveOrResult U s1
  let white := pw.1
  if isEnd white then .ret none { st with s := pw.2, white := white }
  else
    let s2 := spaceLoop pw.2.rest.length pw.2
    match skipComment s2 with
    | none => .hang { st with s := s2, white := white }
    | some s3 =>
      let r := api.MoveFromAlgebraic st.board white .White
      let ev := Event.resolve st.board white .White r.1 r.2
      match r.2 with
      | some err =>
        .ret (some err) { st with s := s3, white := white, log := st.log ++ [ev, .print st.board] }
      | none =>
        let g1 : Game := { st.g with Moves := st.g.Moves ++ [r.1] }
        let board1 := api.MakeMove st.board r.1
        let log1 := st.log ++ [ev, .make st.board r.1]
        let s4 := spaceLoop s3.rest.length s3
        if peekIsDigit s4 then
          let s5 := s4.Scan U
          let pn := ParseMoveOrResult U s5
          if isEnd pn.1 then
            .ret none { st with s := pn.2, g := g1, board := board1, white := white, log := log1 }
          else
            .next { st with s := pn.2, g := g1, board := board1, white := white, log := log1,
                            run := pn.2.Peek }
        else
          .next { st with s := s4, g := g1, board := board1, white := white, log := log1,
                          run := s4.Peek }

/-- The `black == ""` branch of the default case. -/
def blackSlot {B E : Type} (U : Unicode) (api : BoardAPI B E) (st : MovesState B E)
    (s1 : Scanner) : Step B E :=
  let pb := ParseMoveOrResult U s1
  let black := pb.1
  if isEnd black then .ret none { st with s := pb.2, black := black }
  else
    let r := api.MoveFromAlgebraic st.board black .Black
    let ev := Event.resolve st.board black .Black r.1 r.2
    match r.2 with
    | some err =>
      .ret (some err) { st with s := pb.2, black := black, log := st.log ++ [ev, .print st.board] }
    | none =>
      .next { st with s := pb.2, g := { st.g with Moves := st.g.Moves ++ [r.1] },
                      board := api.MakeMove st.board r.1,
                      log := st.log ++ [ev, .make st.board r.1],
                      num := [], white := [], black := [], run := pb.2.Peek }

/-- The body of `for run != scanner.EOF { switch run { ... } }`, with the loop
test: when `run` is `scanner.EOF` the loop is left and `nil` returned. -/
def movesStep {B E : Type} (U : Unicode) (api : BoardAPI B E) (st : MovesState B E) : Step B E :=
  match st.run with
  | none => .ret none st
  | some run =>
    if run = '(' then
      let r := runUntil ')' st.run st.s
      .next { st with s := r.2, run := r.1 }
    else if run = chLBrace then
      let r := runUntil chRBrace st.run st.s
      .next { st with s := r.2, run := r.1 }
    else if isGlyph run then
      let s1 := st.s.Next.2
      .next { st with s := s1, run := s1.Peek }
    else
      let s1 := st.s.Scan U
      if s1.TokenText = [chLBrace] then .next { st with s := s1, run := some chLBrace }
      else if st.num = [] then numSlot U st s1
      else if st.white = [] then whiteSlot U api st s1
      else if st.black = [] then blackSlot U api st s1
      else .next { st with s := s1, run := s1.Peek }

/-- The main loop of `ParseMoves`, run for at most `fuel` rounds. -/
def movesLoop {B E : Type} (U : Unicode) (api : BoardAPI B E) :
    Nat → MovesState B E → Option (Outcome B E)
  | 0, _ => none
  | f + 1, st =>
    match movesStep U api st with
    | .next st1 => movesLoop U api f st1
    | .ret err st1 => some (.returned err st1)
    | .hang st1 => some (.hangs st1)

/-- The mode `ParseMoves` sets:
`scanner.ScanIdents | scanner.ScanChars | scanner.ScanInts | scanner.ScanStrings`. -/
def movesMode : Mode := ⟨true, true, false, true, true, false, false, false⟩

/-- The key `"FEN"`. -/
def fenKey : Str := "FEN".toList

/-- The state in which the main loop of `ParseMoves` starts on board `b`. -/
def movesInit {B E : Type} (s : Scanner) (g : Game) (b : B) : MovesState B E :=
  let s0 : Scanner := { s with mode := movesMode }
  { s := s0, g := g, board := b, num := [], white := [], black := [], run := s0.Peek, log := [] }

/-- The number of rounds after which the main loop has ended on the unread
input of `s`: a round that goes on reads a character or sets `run` to the end
of input. -/
def movesFuel (s : Scanner) : Nat := s.rest.length + 2

/-- `ParseMoves(s, g)`. -/
def ParseMoves {B E : Type} (U : Unicode) (api : BoardAPI B E) (s : Scanner) (g : Game) :
    Option (Outcome B E) :=
  if (g.Tags.index fenKey).length > 0 then
    match api.NewBoardFEN (g.Tags.index fenKey) with
    | .error err => some (.returned (some err) (movesInit s g api.NewBoard))
    | .ok board => movesLoop U api (movesFuel s) (movesInit s g board)
  else movesLoop U api (movesFuel s) (movesInit s g api.NewBoard)

/-! ## `ParseTags` and `ParseGame` -/

/-- `strings.Trim(val, "\"")`: the double quotes at both ends are removed. -/
def trimQuotes (val : Str) : Str :=
  ((val.dropWhile (fun c => c == chDQuote)).reverse.dropWhile (fun c => c == chDQuote)).reverse

/-- The loop of `ParseTags`, run for at most `fuel` rounds; `run` is always the
look-ahead of the scanner when the loop test is made.  The result is the error
returned (always `nil`), the scanner and the game. -/
def tagsLoop (E : Type) (U : Unicode) : Nat → Scanner → Game → Option (Option E × Scanner × Game)
  | 0, _, _ => none
  | f + 1, s, g =>
    match s.Peek with
    | none => some (none, s, g)
    | some run =>
      if run = '[' ∨ run = ']' ∨ run = chNL ∨ run = chCR ∨ run = ' ' then
        tagsLoop E U f s.Next.2 g
      else if run = '0' then some (none, s, g)
      else if run = '1' then some (none, s, g)
      else
        let s1 := s.Scan U
        let tag := s1.TokenText
        let s2 := s1.Scan U
        let val := s2.TokenText
        tagsLoop E U f s2 { g with Tags := g.Tags.set tag (trimQuotes val) }

/-- `ParseTags(s, g)`; every round of its loop reads a character, so the
rounds allowed are enough. -/
def ParseTags (E : Type) (U : Unicode) (s : Scanner) (g : Game) :
    Option (Option E × Scanner × Game) :=
  tagsLoop E U (s.rest.length + 1) s g

/-- How `ParseGame` ends: it returns a game (`none` is the `nil` pointer) and
an error, leaving the scanner, or it never returns. -/
inductive GameOutcome (E : Type)
  | returned (game : Option Game) (err : Option E) (s : Scanner)
  | hangs

/-- `ParseGame(s)`. -/
def ParseGame {B E : Type} (U : Unicode) (api : BoardAPI B E) (s : Scanner) :
    Option (GameOutcome E) :=
  let g : Game := { Tags := [], Moves := [] }
  match ParseTags E U s g with
  | none => none
  | some (some err, s1, _) => some (.returned none (some err) s1)
  | some (none, s1, g1) =>
    match ParseMoves U api s1 g1 with
    | none => none
    | some (.hangs _) => some .hangs
    | some (.returned (some err) st) => some (.returned none (some err) st.s)
    | some (.returned none st) => some (.returned (some st.g) none st.s)

/-- `NewPGNScanner(r)`, on the characters the reader yields. -/
def NewPGNScanner (r : List Char) : Scanner := Scanner.Init r

/-- `PGNScanner.Next`. -/
def PGNScanner.Next (ps : Scanner) : Bool :=
  if ps.Peek = none then false else true

/-- `PGNScanner.Scan`. -/
def PGNScanner.Scan {B E : Type} (U : Unicode) (api : BoardAPI B E) (ps : Scanner) :
    Option (GameOutcome E) :=
  ParseGame U api ps

/-! ## The board (`board.go`)

`board.go` is not among the sources; only its tests (`board_test.go`) are.
What follows is the board as the specification describes it, in agreement with
those tests. -/

/-- Modelled from the spec: the six piece kinds. -/
inductive Kind
  | Pawn | Knight | Bishop | Rook | Queen | King
deriving DecidableEq, Repr

/-- Modelled from the spec: `Piece.Color`, the colour of a piece; `NoPiece` has
none. -/
def Piece.Color : Piece → Option PGN.Color
  | .NoPiece => none
  | .WhitePawn | .WhiteKnight | .WhiteBishop | .WhiteRook | .WhiteQueen | .WhiteKing => some .White
  | .BlackPawn | .BlackKnight | .BlackBishop | .BlackRook | .BlackQueen | .BlackKing => some .Black

/-- Modelled from the spec: the kind of a piece. -/
def Piece.kind : Piece → Option Kind
  | .NoPiece => none
  | .WhitePawn | .BlackPawn => some .Pawn
  | .WhiteKnight | .BlackKnight => some .Knight
  | .WhiteBishop | .BlackBishop => some .Bishop
  | .WhiteRook | .BlackRook => some .Rook
  | .WhiteQueen | .BlackQueen => some .Queen
  | .WhiteKing | .BlackKing => some .King

/-- Modelled from the spec: the piece of a kind and colour. -/
def pieceOf (k : Kind) (c : Color) : Piece :=
  match c, k with
  | .White, .Pawn => .WhitePawn | .White, .Knight => .WhiteKnight
  | .White, .Bishop => .WhiteBishop | .White, .Rook => .WhiteRook
  | .White, .Queen => .WhiteQueen | .White, .King => .WhiteKing
  | .Black, .Pawn => .BlackPawn | .Black, .Knight => .BlackKnight
  | .Black, .Bishop => .BlackBishop | .Black, .Rook => .BlackRook
  | .Black, .Queen => .BlackQueen | .Black, .King => .BlackKing

/-- Modelled from the spec: the letter of a piece in FEN text, upper case for
White. -/
def Piece.letter : Piece → Option Char
  | .NoPiece => none
  | .WhitePawn => some 'P' | .WhiteKnight => some 'N' | .WhiteBishop => some 'B'
  | .WhiteRook => some 'R' | .WhiteQueen => some 'Q' | .WhiteKing => some 'K'
  | .BlackPawn => some 'p' | .BlackKnight => some 'n' | .BlackBishop => some 'b'
  | .BlackRook => some 'r' | .BlackQueen => some 'q' | .BlackKing => some 'k'

/-- Modelled from the spec: the piece a FEN letter stands for. -/
def pieceOfLetter (c : Char) : Option Piece :=
  if c = 'P' then some .WhitePawn else if c = 'N' then some .WhiteKnight
  else if c = 'B' then some .WhiteBishop else if c = 'R' then some .WhiteRook
  else if c = 'Q' then some .WhiteQueen else if c = 'K' then some .WhiteKing
  else if c = 'p' then some .BlackPawn else if c = 'n' then some .BlackKnight
  else if c = 'b' then some .BlackBishop else if c = 'r' then some .BlackRook
  else if c = 'q' then some .BlackQueen else if c = 'k' then some .BlackKing
  else none

/-- Modelled from the spec: the square of a file and a rank, both counted from
0; the index is `rank * 8 + file`. -/
def squareAt (file rank : Nat) : Position :=
  if h : rank * 8 + file < 64 then .sq ⟨rank * 8 + file, h⟩ else .NoPosition

/-- Modelled from the spec: the text of a square, as in `e4`; the sentinel has
the text `-`, which is how FEN writes an absent square. -/
def Position.text : Position → Str
  | .NoPosition => ['-']
  | .sq i => [Char.ofNat (97 + i.val % 8), Char.ofNat (49 + i.val / 8)]

/-- Modelled from the spec: the square a text of two characters names. -/
def squareOfText (t : Str) : Option (Fin 64) :=
  match t with
  | [f, r] =>
    if 97 ≤ f.toNat ∧ f.toNat ≤ 104 ∧ 49 ≤ r.toNat ∧ r.toNat ≤ 56 then
      if h : (r.toNat - 49) * 8 + (f.toNat - 97) < 64 then
        some ⟨(r.toNat - 49) * 8 + (f.toNat - 97), h⟩
      else none
    else none
  | _ => none

/-- Modelled from the spec: the three error values of the board. -/
inductive BoardError
  | ErrFENFormat
  | ErrAttackerNotFound
  | ErrAmbiguousMove
deriving DecidableEq, Repr

/-- Modelled from the spec: the struct `Board` of `board.go`: the 64 squares
(index `rank * 8 + file`), the side to move, the four castling rights, the
en-passant target (`NoPosition` for none), and the two counters. -/
structure Board where
  squares : List Piece
  side : Color
  whiteKingside : Bool
  whiteQueenside : Bool
  blackKingside : Bool
  blackQueenside : Bool
  enPassant : Position
  halfmove : Nat
  fullmove : Nat
deriving DecidableEq, Repr

/-- Modelled from the spec: the piece on the square of index `i`. -/
def Board.at (b : Board) (i : Nat) : Piece := b.squares.getD i .NoPiece

/-- Modelled from the spec: `Board.containsPieceAt`. -/
def Board.containsPieceAt (b : Board) (p : Position) : Bool :=
  match p with
  | .NoPosition => false
  | .sq i => b.at i.val != .NoPiece

/-- Modelled from the spec: `NewBoard`, the standard starting position. -/
def NewBoard : Board :=
  { squares :=
      [.WhiteRook, .WhiteKnight, .WhiteBishop, .WhiteQueen, .WhiteKing, .WhiteBishop,
        .WhiteKnight, .WhiteRook]
      ++ List.replicate 8 .WhitePawn ++ List.replicate 32 .NoPiece
      ++ List.replicate 8 .BlackPawn
      ++ [.BlackRook, .BlackKnight, .BlackBishop, .BlackQueen, .BlackKing, .BlackBishop,
        .BlackKnight, .BlackRook],
    side := .White,
    whiteKingside := true, whiteQueenside := true, blackKingside := true, blackQueenside := true,
    enPassant := .NoPosition, halfmove := 0, fullmove := 1 }

/-! ### FEN text -/

/-- The decimal digit of a number below ten. -/
def digitChar (n : Nat) : Char := Char.ofNat (48 + n % 10)

/-- The decimal text of a number, most significant digit first. -/
def itoaAux : Nat → Nat → List Char → List Char
  | 0, _, acc => acc
  | f + 1, n, acc =>
    if n / 10 = 0 then digitChar n :: acc
    else itoaAux f (n / 10) (digitChar n :: acc)

/-- Modelled from the spec: the decimal text of a counter. -/
def itoa (n : Nat) : Str := itoaAux (n + 1) n []

/-- Modelled from the spec: the number a decimal text stands for; `none` when
the text is empty or has a character that is not a digit. -/
def atoi (t : Str) : Option Nat :=
  if t = [] then none
  else if t.all isDecimal then some (t.foldl (fun a c => a * 10 + (c.toNat - 48)) 0)
  else none

/-- The text of a run of `n` empty squares: nothing for none, else the count. -/
def gapText (n : Nat) : List Char := if n = 0 then [] else [digitChar n]

/-- Modelled from the spec: the FEN text of a rank, runs of empty squares
collapsed to their count; `n` empty squares are pending. -/
def rankText : Nat → List Piece → List Char
  | n, [] => gapText n
  | n, p :: ps =>
    match p.letter with
    | none => rankText (n + 1) ps
    | some c => gapText n ++ c :: rankText 0 ps

/-- The squares of rank `r` (counted from 0), files a to h. -/
def Board.rank (b : Board) (r : Nat) : List Piece :=
  (List.range 8).map (fun f => b.at (r * 8 + f))

/-- Modelled from the spec: the castling field of the FEN text. -/
def Board.castlingText (b : Board) : Str :=
  let t := (if b.whiteKingside then ['K'] else []) ++ (if b.whiteQueenside then ['Q'] else [])
    ++ (if b.blackKingside then ['k'] else []) ++ (if b.blackQueenside then ['q'] else [])
  if t = [] then ['-'] else t

/-- The six fields of the FEN text of a board. -/
def Board.fields (b : Board) : List Str :=
  [ ['/'].intercalate ([7, 6, 5, 4, 3, 2, 1, 0].map (fun r => rankText 0 (b.rank r))),
    (match b.side with | .White => ['w'] | .Black => ['b']),
    b.castlingText,
    b.enPassant.text,
    itoa b.halfmove,
    itoa b.fullmove ]

/-- Modelled from the spec: `Board.String`, the canonical FEN text: ranks 8
down to 1, then side, castling letters, en-passant square, halfmove clock and
fullmove number, separated by spaces. -/
def Board.String (b : Board) : Str := [' '].intercalate b.fields

/-- Modelled from the spec: the squares a rank text stands for. -/
def parseRank : List Char → Option (List Piece)
  | [] => some []
  | c :: cs =>
    if 49 ≤ c.toNat ∧ c.toNat ≤ 56 then
      (parseRank cs).map (fun r => List.replicate (c.toNat - 48) Piece.NoPiece ++ r)
    else
      match pieceOfLetter c with
      | some p => (parseRank cs).map (fun r => p :: r)
      | none => none

/-- A rank text that stands for exactly eight squares. -/
def parseRank8 (t : List Char) : Option (List Piece) :=
  match parseRank t with
  | some r => if r.length = 8 then some r else none
  | none => none

/-- The ranks of a placement field, rank 8 first: the 64 squares from a1. -/
def parsePlacement (t : Str) : Option (List Piece) :=
  match (t.splitOn '/').map parseRank8 with
  | [some r8, some r7, some r6, some r5, some r4, some r3, some r2, some r1] =>
    some (r1 ++ r2 ++ r3 ++ r4 ++ r5 ++ r6 ++ r7 ++ r8)
  | _ => none

/-- The rights a castling field stands for, in the order K, Q, k, q. -/
def parseCastling (t : Str) : Option (Bool × Bool × Bool × Bool) :=
  if t.all (fun c => c == 'K' || c == 'Q' || c == 'k' || c == 'q' || c == '-') then
    some (t.contains 'K', t.contains 'Q', t.contains 'k', t.contains 'q')
  else none

/-- The square an en-passant field stands for. -/
def parseEnPassant (t : Str) : Option Position :=
  if t = ['-'] then some .NoPosition
  else (squareOfText t).map Position.sq

/-- Modelled from the spec: `NewBoardFEN` (the spec's `NewBoardFromFEN`): the
board of a FEN text, or the format error when the text does not have six
fields, the placement is not eight ranks of eight files, the side is not `w` or
`b`, a castling letter is outside `KQkq-`, or the en-passant field is not a
square or `-`.  A counter that is not a decimal number, which the spec leaves
open, is a format error too. -/
def NewBoardFEN (fen : Str) : Except BoardError Board :=
  match fen.splitOn ' ' with
  | [pl, sd, ca, ep, hm, fm] =>
    match parsePlacement pl, parseCastling ca, parseEnPassant ep, atoi hm, atoi fm with
    | some sq, some (wk, wq, bk, bq), some e, some h, some f =>
      if sd = ['w'] then
        .ok ⟨sq, .White, wk, wq, bk, bq, e, h, f⟩
      else if sd = ['b'] then
        .ok ⟨sq, .Black, wk, wq, bk, bq, e, h, f⟩
      else .error .ErrFENFormat
    | _, _, _, _, _ => .error .ErrFENFormat
  | _ => .error .ErrFENFormat

/-! ### Applying a move -/

/-- The colour that is not `c`. -/
def Color.other : Color → Color
  | .White => .Black
  | .Black => .White

/-- Modelled from the spec: `Board.MakeMove`.  The piece on the origin is put on
the destination, whatever stood there being removed; a king that moves two files
along its rank takes the rook of that side with it; a pawn that reaches a back
rank with `Promote` set becomes a piece of that kind and of its own colour; a
right to castle is lost when the king or the rook of that side moves or that
rook is captured on its home square; the en-passant target is the square a
pawn's double advance passes over; the fullmove number goes up after a black
piece moves; the halfmove clock is reset by a pawn move or a capture; the side
to move flips.  A move without an origin or a destination square, for which the
spec leaves the board undefined, leaves it as it is. -/
def Board.MakeMove (b : Board) (m : Move) : Board :=
  match m.From, m.To with
  | .sq f, .sq t =>
    let p := b.at f.val
    let captured := b.at t.val
    let isPawn : Bool := p.kind == some .Pawn
    let placed : Piece :=
      if isPawn && (t.val / 8 == 7 || t.val / 8 == 0) && m.Promote != .NoPiece then
        match m.Promote.kind, p.Color with
        | some k, some c => pieceOf k c
        | _, _ => p
      else p
    let sq1 := (b.squares.set f.val .NoPiece).set t.val placed
    let isKing : Bool := p.kind == some .King
    let sameRank : Bool := f.val / 8 == t.val / 8
    let sq2 :=
      if isKing && sameRank && t.val % 8 == f.val % 8 + 2 then
        ((sq1.set (f.val / 8 * 8 + 7) .NoPiece).set (f.val / 8 * 8 + 5)
          (sq1.getD (f.val / 8 * 8 + 7) .NoPiece))
      else if isKing && sameRank && t.val % 8 + 2 == f.val % 8 then
        ((sq1.set (f.val / 8 * 8) .NoPiece).set (f.val / 8 * 8 + 3)
          (sq1.getD (f.val / 8 * 8) .NoPiece))
      else sq1
    let lost (king rook : Piece) (home : Nat) : Bool :=
      p == king || (p == rook && f.val == home) || (captured == rook && t.val == home)
    { squares := sq2,
      side := b.side.other,
      whiteKingside := b.whiteKingside && !lost .WhiteKing .WhiteRook 7,
      whiteQueenside := b.whiteQueenside && !lost .WhiteKing .WhiteRook 0,
      blackKingside := b.blackKingside && !lost .BlackKing .BlackRook 63,
      blackQueenside := b.blackQueenside && !lost .BlackKing .BlackRook 56,
      enPassant :=
        if isPawn && f.val % 8 == t.val % 8 && (t.val / 8 == f.val / 8 + 2 || f.val / 8 == t.val / 8 + 2)
        then squareAt (f.val % 8) ((f.val / 8 + t.val / 8) / 2)
        else .NoPosition,
      halfmove := if isPawn || captured != .NoPiece then 0 else b.halfmove + 1,
      fullmove := if p.Color == some .Black then b.fullmove + 1 else b.fullmove }
  | _, _ => b

/-! ### Resolving algebraic move text -/

/-- The squares from `(f, r)` on, in steps of `(df, dr)`, are empty up to the
square `(tf, tr)`, which is reached within `n` steps. -/
def clearTo (b : Board) (df dr tf tr : Int) : Nat → Int → Int → Bool
  | 0, _, _ => false
  | n + 1, f, r =>
    if f = tf ∧ r = tr then true
    else if b.at (r * 8 + f).toNat != .NoPiece then false
    else clearTo b df dr tf tr n (f + df) (r + dr)

/-- Modelled from the spec: a piece of kind `k` and colour `c` on the square of
index `i` reaches the square of index `d` under the occupancy of the board:
along an empty path for the sliding pieces, by its jump for the knight, by one
step for the king; a pawn by a diagonal step forward onto an occupied square, by
one step forward onto an empty square, or by two steps forward from its home
rank over an empty square onto an empty square. -/
def reaches (b : Board) (k : Kind) (c : Color) (i d : Nat) : Bool :=
  let ff : Int := i % 8
  let fr : Int := i / 8
  let tf : Int := d % 8
  let tr : Int := d / 8
  let dx := tf - ff
  let dy := tr - fr
  let line : Bool := (dx == 0 || dy == 0) && i != d
  let diag : Bool := dx.natAbs == dy.natAbs && i != d
  let clear : Bool := clearTo b dx.sign dy.sign tf tr 8 (ff + dx.sign) (fr + dy.sign)
  match k with
  | .Knight => (dx.natAbs == 1 && dy.natAbs == 2) || (dx.natAbs == 2 && dy.natAbs == 1)
  | .King => dx.natAbs ≤ 1 && dy.natAbs ≤ 1 && i != d
  | .Rook => line && clear
  | .Bishop => diag && clear
  | .Queen => (line || diag) && clear
  | .Pawn =>
    let dir : Int := match c with | .White => 1 | .Black => -1
    let home : Int := match c with | .White => 1 | .Black => 6
    let occupied : Bool := b.at d != .NoPiece
    (dx.natAbs == 1 && dy == dir && occupied)
    || (dx == 0 && dy == dir && !occupied)
    || (dx == 0 && dy == 2 * dir && fr == home && !occupied
        && b.at ((fr + dir) * 8 + ff).toNat == .NoPiece)

/-- The kind an upper-case piece letter of move text stands for. -/
def kindOfLetter (c : Char) : Option Kind :=
  if c = 'N' then some .Knight else if c = 'B' then some .Bishop
  else if c = 'R' then some .Rook else if c = 'Q' then some .Queen
  else if c = 'K' then some .King else if c = 'P' then some .Pawn
  else none

/-- The parts of a move text that is not castling. -/
structure MoveText where
  kind : Kind
  hintFile : Option Nat
  hintRank : Option Nat
  dest : Fin 64
  promo : Option Kind
deriving DecidableEq, Repr

/-- The disambiguation hint of a move text: nothing, a file, a rank, or both. -/
def parseHint (t : Str) : Option (Option Nat × Option Nat) :=
  match t with
  | [] => some (none, none)
  | [c] =>
    if 97 ≤ c.toNat ∧ c.toNat ≤ 104 then some (some (c.toNat - 97), none)
    else if 49 ≤ c.toNat ∧ c.toNat ≤ 56 then some (none, some (c.toNat - 49))
    else none
  | [f, r] => (squareOfText [f, r]).map (fun i => (some (i.val % 8), some (i.val / 8)))
  | _ => none

/-- Modelled from the spec: the parts of a move text: the piece letter (a pawn
when there is none), the optional hint, the optional capture marker, the
destination square and the optional `=` with the promotion letter. -/
def parseMoveText (t : Str) : Option MoveText :=
  let parts := t.splitOn '='
  let body : Str := parts.headD []
  let promo : Option (Option Kind) :=
    match parts.tail with
    | [] => some none
    | [[c]] => (kindOfLetter c).map some
    | _ => none
  let kb : Kind × Str :=
    match body with
    | c :: cs =>
      match kindOfLetter c with
      | some k => (k, cs)
      | none => (.Pawn, body)
    | [] => (.Pawn, [])
  let sq := kb.2.filter (fun c => c != 'x')
  match promo, squareOfText (sq.drop (sq.length - 2)), parseHint (sq.take (sq.length - 2)) with
  | some pr, some d, some h => some ⟨kb.1, h.1, h.2, d, pr⟩
  | _, _, _ => none

/-- The squares from which a piece of the kind and colour, matching the hint,
reaches the destination. -/
def candidates (b : Board) (c : Color) (mt : MoveText) : List Nat :=
  (List.range 64).filter (fun i =>
    b.at i == pieceOf mt.kind c
    && (match mt.hintFile with | some f => i % 8 == f | none => true)
    && (match mt.hintRank with | some r => i / 8 == r | none => true)
    && reaches b mt.kind c i mt.dest.val)

/-- The castling move of a colour to a side: the king's home square and its
destination, the g file on the king's side and the b file on the queen's side
(the destinations the tests of `board_test.go` expect). -/
def castleMove (c : Color) (kingside : Bool) : Move :=
  let r := match c with | .White => 0 | .Black => 7
  { From := squareAt 4 r, To := squareAt (if kingside then 6 else 1) r, Promote := .NoPiece }

/-- The right of a colour to castle to a side. -/
def Board.mayCastle (b : Board) (c : Color) (kingside : Bool) : Bool :=
  match c, kingside with
  | .White, true => b.whiteKingside
  | .White, false => b.whiteQueenside
  | .Black, true => b.blackKingside
  | .Black, false => b.blackQueenside

/-- Modelled from the spec: `Board.MoveFromAlgebraic`.  Castling text gives the
king's move when the board has the right (the tests resolve it on the starting
position, where the squares between king and rook are occupied, so the path is
no gate).  Any other text is parsed, the candidate origins are collected, and
the move is resolved when exactly one is left: none is `ErrAttackerNotFound`,
more than one `ErrAmbiguousMove`, both with `NilMove`.  A text that is no move
text names no destination, so no piece reaches it. -/
def Board.MoveFromAlgebraic (b : Board) (t : Str) (c : Color) : Move × Option BoardError :=
  if t = ['O', '-', 'O'] then
    if b.mayCastle c true then (castleMove c true, none)
    else (NilMove, some .ErrAttackerNotFound)
  else if t = ['O', '-', 'O', '-', 'O'] then
    if b.mayCastle c false then (castleMove c false, none)
    else (NilMove, some .ErrAttackerNotFound)
  else
    match parseMoveText t with
    | none => (NilMove, some .ErrAttackerNotFound)
    | some mt =>
      match candidates b c mt with
      | [] => (NilMove, some .ErrAttackerNotFound)
      | [i] =>
        ({ From := squareAt (i % 8) (i / 8), To := .sq mt.dest,
           Promote := match mt.promo with | some k => pieceOf k c | none => .NoPiece }, none)
      | _ => (NilMove, some .ErrAmbiguousMove)

/-- The board of `board.go`, as the interface `pgn.go` calls. -/
def boardAPI : BoardAPI Board BoardError where
  NewBoard := NewBoard
  NewBoardFEN := NewBoardFEN
  MoveFromAlgebraic := Board.MoveFromAlgebraic
  MakeMove := Board.MakeMove

/-! ## Running the main loop -/

/-- The measure that every round of the main loop decreases. -/
def MovesState.measure {B E : Type} (st : MovesState B E) : Nat :=
  st.s.rest.length + (if st.run.isSome then 1 else 0)

/-- The main loop, started in `st`, ends with outcome `out`. -/
def Runs {B E : Type} (U : Unicode) (api : BoardAPI B E) (st : MovesState B E)
    (out : Outcome B E) : Prop :=
  ∃ f, movesLoop U api f st = some out

/-! ## The board and the move list -/

/-- The board the main loop of `ParseMoves` starts from: the board of the
`"FEN"` entry when that entry is a non-empty string, else `NewBoard()`. -/
def seedBoard {B E : Type} (api : BoardAPI B E) (g : Game) : Except E B :=
  if (g.Tags.index fenKey).length > 0 then api.NewBoardFEN (g.Tags.index fenKey)
  else .ok api.NewBoard

/-- The text and colour passed to `MoveFromAlgebraic`, for a call event. -/
def Event.call {B E : Type} : Event B E → Option (Str × Color)
  | .resolve _ t c _ _ => some (t, c)
  | _ => none

/-- The move tokens passed to `MoveFromAlgebraic`, in order. -/
def calls {B E : Type} (log : List (Event B E)) : List (Str × Color) :=
  log.filterMap Event.call

/-- Resolving the tokens one after the other from board `b`, each on the board
the moves before it lead to: the moves and the last board, or `none` when a
token is rejected. -/
def replay {B E : Type} (api : BoardAPI B E) : B → List (Str × Color) → Option (List Move × B)
  | b, [] => some ([], b)
  | b, (t, c) :: rest =>
    match (api.MoveFromAlgebraic b t c).2 with
    | none =>
      let m := (api.MoveFromAlgebraic b t c).1
      (replay api (api.MakeMove b m) rest).map (fun r => (m :: r.1, r.2))
    | some _ => none

/-- A log made of accepted calls only, each followed by its `MakeMove`: the
moves it yields from board `b0` and the board it leads to. -/
inductive Trace {B E : Type} (api : BoardAPI B E) (b0 : B) :
    List (Event B E) → List Move → B → Prop
  | nil : Trace api b0 [] [] b0
  | step {log : List (Event B E)} {ms : List Move} {b : B} (t : Str) (c : Color) :
      Trace api b0 log ms b → (api.MoveFromAlgebraic b t c).2 = none →
      Trace api b0
        (log ++ [.resolve b t c (api.MoveFromAlgebraic b t c).1 none,
                 .make b (api.MoveFromAlgebraic b t c).1])
        (ms ++ [(api.MoveFromAlgebraic b t c).1])
        (api.MakeMove b (api.MoveFromAlgebraic b t c).1)

/-- The main loop keeps the board, the log and the move list in step. -/
def Inv {B E : Type} (api : BoardAPI B E) (b0 : B) (g0 : Game) (st : MovesState B E) : Prop :=
  ∃ ms, Trace api b0 st.log ms st.board ∧ st.g.Moves = g0.Moves ++ ms ∧ st.g.Tags = g0.Tags

/-- The state in which the loop returns the error `e` of a rejected token. -/
def Failed {B E : Type} (api : BoardAPI B E) (b0 : B) (g0 : Game) (e : E)
    (st : MovesState B E) : Prop :=
  ∃ pre ms t c,
    Trace api b0 pre ms st.board ∧
    (api.MoveFromAlgebraic st.board t c).2 = some e ∧
    st.log = pre ++ [.resolve st.board t c (api.MoveFromAlgebraic st.board t c).1 (some e),
                     .print st.board] ∧
    st.g.Moves = g0.Moves ++ ms ∧ st.g.Tags = g0.Tags

/-- What holds of an outcome of the main loop. -/
def Post {B E : Type} (api : BoardAPI B E) (b0 : B) (g0 : Game) : Outcome B E → Prop
  | .returned none st => Inv api b0 g0 st
  | .returned (some e) st => Failed api b0 g0 e st
  | .hangs st => Inv api b0 g0 st

/-- What holds after one round of the main loop. -/
def StepPost {B E : Type} (api : BoardAPI B E) (b0 : B) (g0 : Game) : Step B E → Prop
  | .next st => Inv api b0 g0 st
  | .ret none st => Inv api b0 g0 st
  | .ret (some e) st => Failed api b0 g0 e st
  | .hang st => Inv api b0 g0 st

/-- A call of `MoveFromAlgebraic` that returned an error. -/
def Event.rejected {B E : Type} : Event B E → Bool
  | .resolve _ _ _ _ (some _) => true
  | _ => false

/-- The number of `MakeMove` calls in a log. -/
def makeCount {B E : Type} (log : List (Event B E)) : Nat :=
  (log.filter (fun ev => match ev with | .make _ _ => true | _ => false)).length

/-- The board of the first call of `MoveFromAlgebraic` in a log. -/
def firstBoard {B E : Type} : List (Event B E) → Option B
  | [] => none
  | .resolve b _ _ _ _ :: _ => some b
  | _ :: rest => firstBoard rest

/-- The state an outcome ends in. -/
def Outcome.state {B E : Type} : Outcome B E → MovesState B E
  | .returned _ st => st
  | .hangs st => st

/-- The error an outcome returns, when it returns. -/
def Outcome.err {B E : Type} : Outcome B E → Option (Option E)
  | .returned e _ => some e
  | .hangs _ => none

/-! ## Shapes of text -/

/-- Identifier-shaped text: a letter or `_`, then letters, digits and `_`. -/
def isIdentText (U : Unicode) : Str → Bool
  | [] => false
  | c :: cs => isIdentRune U c 0 && cs.all (fun x => isIdentRune U x 1)

/-- A piece letter of move text, in either case. -/
def isPieceLetter (c : Char) : Bool :=
  c == 'P' || c == 'N' || c == 'B' || c == 'R' || c == 'Q' || c == 'K'
  || c == 'p' || c == 'n' || c == 'b' || c == 'r' || c == 'q' || c == 'k'

/-- A non-empty run of decimal digits. -/
def isNumberText : Str → Bool
  | [] => false
  | c :: cs => isDecimal c && cs.all isDecimal

/-- White space only. -/
def isBlank (t : Str) : Bool := t.all isWhitespace

/-- Text that is empty or starts with white space. -/
def startsBlank (t : Str) : Bool :=
  match t with
  | [] => true
  | c :: _ => isWhitespace c

/-- The four result markers. -/
def resultMarkers : List Str :=
  ["1-0".toList, "0-1".toList, "1/2-1/2".toList, "*".toList]

/-- A move token: identifier-shaped text (`e4`, `Nf3`, `exd5`), such text with
a promotion suffix (`e8=Q`), or castling text. -/
inductive MoveToken (U : Unicode) : Str → Prop
  | ident (t : Str) : isIdentText U t = true → MoveToken U t
  | promo (t : Str) (p : Char) : isIdentText U t = true → isPieceLetter p = true →
      MoveToken U (t ++ ['=', p])
  | castleShort : MoveToken U ['O', '-', 'O']
  | castleLong : MoveToken U ['O', '-', 'O', '-', 'O']

/-- What may follow a number for `Scan` to stop there. -/
def numberStop (tail : Str) : Prop :=
  ∀ c, tail.head? = some c →
    isDecimal c = false ∧ c ≠ '_' ∧ lower c ≠ 120 ∧ lower c ≠ 111 ∧ lower c ≠ 98

/-- A character that `Scan` reads as a token of its own in the mode of
`ParseMoves`. -/
def isSingle (U : Unicode) (c : Char) : Prop :=
  isWhitespace c = false ∧ isIdentRune U c 0 = false ∧ isDecimal c = false ∧
    c ≠ chDQuote ∧ c ≠ chSQuote


/-- Text that is empty or starts with a space. -/
def spaceOrEnd (tail : Str) : Prop := tail = [] ∨ ∃ t, tail = ' ' :: t

/-- The annotation glyphs `+`, `#`, `!`, `?`. -/
def isAnnotGlyph (c : Char) : Bool := c == '+' || c == '#' || c == '!' || c == '?'

/-- The text of an optional promotion suffix `=P`. -/
def promoText : Option Char → Str
  | some p => ['=', p]
  | none => []

/-- A value of `run` that takes the default case of the main loop. -/
def defaultRun (r : Char) : Prop := r ≠ '(' ∧ r ≠ chLBrace ∧ isGlyph r = false

/-- The `white == ""` branch from the comment test on: `white` is the move
text, `s2` the scanner after the spaces that follow it. -/
def whiteAfter {B E : Type} (U : Unicode) (api : BoardAPI B E) (st : MovesState B E)
    (white : Str) (s2 : Scanner) : Step B E :=
  match skipComment s2 with
  | none => .hang { st with s := s2, white := white }
  | some s3 =>
    let r := api.MoveFromAlgebraic st.board white .White
    let ev := Event.resolve st.board white .White r.1 r.2
    match r.2 with
    | some err =>
      .ret (some err) { st with s := s3, white := white, log := st.log ++ [ev, .print st.board] }
    | none =>
      let g1 : Game := { st.g with Moves := st.g.Moves ++ [r.1] }
      let board1 := api.MakeMove st.board r.1
      let log1 := st.log ++ [ev, .make st.board r.1]
      let s4 := spaceLoop s3.rest.length s3
      if peekIsDigit s4 then
        let s5 := s4.Scan U
        let pn := ParseMoveOrResult U s5
        if isEnd pn.1 then
          .ret none { st with s := pn.2, g := g1, board := board1, white := white, log := log1 }
        else
          .next { st with s := pn.2, g := g1, board := board1, white := white, log := log1,
                          run := pn.2.Peek }
      else
        .next { st with s := s4, g := g1, board := board1, white := white, log := log1,
                        run := s4.Peek }

/-- What a run of `ParseMoves` is compared by: the error returned (`none` when
it never returns) and the move list. -/
def Outcome.summary {B E : Type} (out : Outcome B E) : Option (Option E) × List Move :=
  (out.err, out.state.g.Moves)

/-- Two rounds of the main loop that go on from the same state, or end the
same way with the same game. -/
def Step.alike {B E : Type} : Step B E → Step B E → Prop
  | .next x, .next y => x = y
  | .ret e x, .ret e1 y => e = e1 ∧ x.g = y.g
  | .hang x, .hang y => x.g = y.g
  | _, _ => False

/-- The `black == ""` branch from the call of `MoveFromAlgebraic` on: `black`
is the move text, `s2` the scanner `ParseMoveOrResult` leaves. -/
def blackAfter {B E : Type} (api : BoardAPI B E) (st : MovesState B E)
    (black : Str) (s2 : Scanner) : Step B E :=
  let r := api.MoveFromAlgebraic st.board black .Black
  let ev := Event.resolve st.board black .Black r.1 r.2
  match r.2 with
  | some err =>
    .ret (some err) { st with s := s2, black := black, log := st.log ++ [ev, .print st.board] }
  | none =>
    .next { st with s := s2, g := { st.g with Moves := st.g.Moves ++ [r.1] },
                    board := api.MakeMove st.board r.1,
                    log := st.log ++ [ev, .make st.board r.1],
                    num := [], white := [], black := [], run := s2.Peek }

/-! ## Movetext in the usual layout -/

/-- A full move `n. W B ` in the usual layout: number, period, space, White's
move, space, Black's move, space. -/
def fullMoveText (m : Str × Str × Str) : Str :=
  m.1 ++ ['.', ' '] ++ m.2.1 ++ [' '] ++ m.2.2 ++ [' ']

/-- A last move by White alone, `n. W `. -/
def halfMoveText : Option (Str × Str) → Str
  | some h => h.1 ++ ['.', ' '] ++ h.2 ++ [' ']
  | none => []

/-- Movetext in the usual layout: full moves, an optional last move by White,
then the result marker `r` and what follows it. -/
def movetext (pairs : List (Str × Str × Str)) (last : Option (Str × Str)) (r tail : Str) : Str :=
  match pairs with
  | [] => halfMoveText last ++ (r ++ tail)
  | m :: rest => fullMoveText m ++ movetext rest last r tail

/-- The move tokens of a movetext with their colours, in order. -/
def layoutTokens (pairs : List (Str × Str × Str)) (last : Option (Str × Str)) :
    List (Str × Color) :=
  match pairs with
  | [] => (match last with | some h => [(h.2, Color.White)] | none => [])
  | m :: rest => (m.2.1, Color.White) :: (m.2.2, Color.Black) :: layoutTokens rest last

/-! ## Concrete runs -/

/-- The state `ParseMoves` ends in. -/
def endState {B E : Type} (U : Unicode) (api : BoardAPI B E) (s : Scanner) (g : Game) :
    MovesState B E :=
  match ParseMoves U api s g with
  | some out => out.state
  | none => movesInit s g api.NewBoard

/-- What a run of `ParseMoves` shows: the error, the moves, the tokens passed
to the resolver and the input left unread. -/
def report {B E : Type} (o : Option (Outcome B E)) :
    Option (Option (Option E) × List Move × List (Str × Color) × Str) :=
  o.map (fun out => (out.err, out.state.g.Moves, calls out.state.log, out.state.s.rest))

/-- The game with no tags and no moves. -/
def emptyGame : Game := { Moves := [], Tags := [] }

/-- The board of a position text, the standard start when the text is not a
position. -/
def seedOf (fen : Str) : Board :=
  match NewBoardFEN fen with
  | .ok b => b
  | .error _ => NewBoard

/-! ## Boards and their texts -/

/-- The board with its 64 squares listed and nothing else. -/
def Board.normal (b : Board) : Board := { b with squares := (List.range 64).map b.at }

/-- The boards reached from the standard start by moves that
`MoveFromAlgebraic` returned without error, each applied with `MakeMove`. -/
inductive Reachable : Board → Prop
  | start : Reachable NewBoard
  | move (b : Board) (t : Str) (c : Color) : Reachable b → (b.MoveFromAlgebraic t c).2 = none →
      Reachable (b.MakeMove (b.MoveFromAlgebraic t c).1)

/-- The board after the tokens of `ts` are resolved and applied in turn. -/
def playAll (b : Board) : List (Str × Color) → Board
  | [] => b
  | (t, c) :: rest => playAll (b.MakeMove (b.MoveFromAlgebraic t c).1) rest


/-! ## Streams of tag pairs -/

/-- A tag pair as it is written: the key, the value between the quotes, and
the text between the closing bracket and the next pair. -/
structure TagPair where
  key : Str
  val : Str
  sep : Str

/-- The text `[K "V"]` of a tag pair, with what follows it. -/
def TagPair.text (p : TagPair) : Str :=
  '[' :: p.key ++ ' ' :: chDQuote :: p.val ++ chDQuote :: ']' :: p.sep

/-- The text of a stream of tag pairs. -/
def tagsText : List TagPair → Str
  | [] => []
  | p :: ps => p.text ++ tagsText ps

/-- A character of the first case of the `switch` in `ParseTags`. -/
def isTagSkip (c : Char) : Bool :=
  c == '[' || c == ']' || c == chNL || c == chCR || c == ' '

/-- A well-formed tag pair: the key is an identifier, the value has no quote,
backslash or newline, and only newlines, carriage returns and spaces follow the
closing bracket. -/
def TagPair.wellFormed (U : Unicode) (p : TagPair) : Prop :=
  isIdentText U p.key = true ∧
  (∀ c ∈ p.val, c ≠ chDQuote ∧ c ≠ chBackslash ∧ c ≠ chNL) ∧
  (∀ c ∈ p.sep, c = chNL ∨ c = chCR ∨ c = ' ')

/-- Where `ParseTags` stops: the end of input, or the character `0` or `1`. -/
def tagsStop (tail : Str) : Prop :=
  tail = [] ∨ tail.head? = some '0' ∨ tail.head? = some '1'

/-- The value of the last pair whose key is `k`. -/
def lastValue : List TagPair → Str → Option Str
  | [], _ => none
  | p :: ps, k =>
    match lastValue ps k with
    | some v => some v
    | none => if p.key = k then some p.val else none

/-- The tag mapping after the pairs are stored in turn. -/
def storeAll (t : Tags) : List TagPair → Tags
  | [] => t
  | p :: ps => storeAll (t.set p.key p.val) ps

/-- What a run of `ParseTags` shows: the tag mapping it leaves and the input
left unread. -/
def tagsReport {E : Type} (r : Option (Option E × Scanner × Game)) : Option (Tags × Str) :=
  r.map (fun x => (x.2.2.Tags, x.2.1.rest))

/-! ## The text of a move -/

/-- `Move.String`.  The verb `%v` of `fmt.Sprintf` prints a `Position` and a
`Piece` the way `board.go`, which is not among the sources, has them printed:
`fp` and `fq` are those texts. -/
def Move.String (fp : Position → Str) (fq : Piece → Str) (m : Move) : Str :=
  if m.Promote = .NoPiece then fp m.From ++ fp m.To
  else fp m.From ++ fp m.To ++ fq m.Promote

/-- Modelled from the spec: the text of a piece, its letter; `NoPiece` has
none. -/
def Piece.text (p : Piece) : Str :=
  match p.letter with
  | some c => [c]
  | none => []

/-! ## The colours of the calls -/

/-- Reading a log with the flag "a call for White has succeeded since the last
call for Black": a call for White that succeeds sets it, a call for Black
needs it and clears it.  The result is the flag at the end, or `none` when a
call for Black came without it. -/
def slotOrder {B E : Type} : Bool → List (Event B E) → Option Bool
  | a, [] => some a
  | a, .resolve _ _ .White _ err :: rest => slotOrder (a || err.isNone) rest
  | a, .resolve _ _ .Black _ _ :: rest => if a then slotOrder false rest else none
  | a, .make _ _ :: rest => slotOrder a rest
  | a, .print _ :: rest => slotOrder a rest

/-- An event that is a call of `MoveFromAlgebraic` for Black. -/
def Event.isBlackCall {B E : Type} : Event B E → Bool
  | .resolve _ _ .Black _ _ => true
  | _ => false

/-- The colours of the calls are in order, and White's slot is filled only
when a call for White has succeeded since the last call for Black. -/
def SlotInv {B E : Type} (st : MovesState B E) : Prop :=
  ∃ a, slotOrder false st.log = some a ∧ (st.white ≠ [] → a = true)

/-- What holds of the colours after one round of the main loop. -/
def SlotPost {B E : Type} : Step B E → Prop
  | .next st => SlotInv st
  | .ret _ st => ∃ a, slotOrder false st.log = some a
  | .hang st => ∃ a, slotOrder false st.log = some a

/-! ## The scanner before its first read -/

/-- The fields of a `scanner.Scanner` that `Peek` touches: `src` is what the
reader has not yet given, and `ch` the look-ahead `s.ch`, where `none` is the
value `-2` that `Init` sets (nothing read yet), `some none` is `scanner.EOF`,
and `some (some c)` a character. -/
structure RawScanner where
  src : List Char
  ch : Option (Option Char)
  tok : List Char
  mode : Mode

/-- `Scanner.Init`, leaving the first read to `Peek`. -/
def RawScanner.Init (src : List Char) : RawScanner :=
  { src := src, ch := none, tok := [], mode := GoTokens }

/-- The unexported `Scanner.next`: the next character of the source, or the
end of input. -/
def RawScanner.next (src : List Char) : Option Char × List Char :=
  match src with
  | [] => (none, [])
  | c :: cs => (some c, cs)

/-- `Scanner.Peek` with its effect on the scanner: when nothing has been read
yet it reads the first character, and the one after it when the first is a
byte-order mark; it returns `s.ch`. -/
def RawScanner.Peek (s : RawScanner) : Option Char × RawScanner :=
  match s.ch with
  | some c => (c, s)
  | none =>
    let r1 := RawScanner.next s.src
    match r1.1 with
    | some c =>
      if c.toNat = 0xFEFF then
        let r2 := RawScanner.next r1.2
        (r2.1, { s with ch := some r2.1, src := r2.2 })
      else (some c, { s with ch := some (some c), src := r1.2 })
    | none => (none, { s with ch := some none, src := r1.2 })

/-- The scanner as the rest of this file sees it: the unread characters, the
look-ahead first. -/
def RawScanner.view (s : RawScanner) : Scanner :=
  { rest := match s.ch with
      | none => (Scanner.Init s.src).rest
      | some none => []
      | some (some c) => c :: s.src,
    tok := s.tok, mode := s.mode }

/-- `PGNScanner.Next` with its effect on the scanner. -/
def PGNScanner.NextRaw (ps : RawScanner) : Bool × RawScanner :=
  let r := ps.Peek
  (if r.1 = none then false else true, r.2)


/-! ## The scanner only moves forward -/

theorem digits_suffix (hex : Bool) (inp : List Char) : (digits hex inp).2 <:+ inp :=
  List.dropWhile_suffix _

theorem scanExponent_suffix (fl : Bool) (inp : List Char) : (scanExponent fl inp).2 <:+ inp := by
  unfold scanExponent
  split
  · exact List.suffix_refl _
  · rename_i e cs
    split
    · refine (digits_suffix _ _).trans ?_
      refine List.IsSuffix.trans ?_ (List.suffix_cons e cs)
      split
      · split
        · exact List.suffix_cons _ _
        · exact List.suffix_refl _
      · exact List.suffix_refl _
    · exact List.suffix_refl _

theorem scanNumber_suffix (fl sd : Bool) (inp : List Char) : (scanNumber fl sd inp).2 <:+ inp := by
  unfold scanNumber
  split
  · exact (scanExponent_suffix _ _).trans (digits_suffix _ _)
  · refine (scanExponent_suffix _ _).trans ?_
    have hpre : ∀ (pre : List Char × Bool × List Char), pre.2.2 <:+ inp →
        (match (digits pre.2.1 pre.2.2).2 with
          | c :: cs => if (c == '.' && fl) = true then
              (c :: (digits pre.2.1 cs).1, (digits pre.2.1 cs).2) else ([], (digits pre.2.1 pre.2.2).2)
          | [] => (([], []) : List Char × List Char)).2 <:+ inp := by
      intro pre hp
      have hd := (digits_suffix pre.2.1 pre.2.2).trans hp
      split
      · rename_i c cs heq
        split
        · rw [heq] at hd
          exact (digits_suffix _ _).trans ((List.suffix_cons c cs).trans hd)
        · exact hd
      · exact List.nil_suffix
    apply hpre
    split
    · rename_i c cs
      split
      · split
        · rename_i x xs
          split
          · exact (List.suffix_cons x xs).trans (List.suffix_cons c _)
          · split
            · exact (List.suffix_cons x xs).trans (List.suffix_cons c _)
            · exact List.suffix_cons c _
        · exact List.nil_suffix
      · exact List.suffix_refl _
    · exact List.nil_suffix


theorem scanDigits_suffix (base n : Nat) (inp : List Char) : (scanDigits base n inp).2 <:+ inp := by
  induction n generalizing inp with
  | zero => simp [scanDigits]
  | succ n ih =>
    cases inp with
    | nil => simp [scanDigits]
    | cons c cs =>
      simp only [scanDigits]
      split
      · exact (ih cs).trans (List.suffix_cons c cs)
      · exact List.suffix_refl _

theorem scanEscape_suffix (q : Char) (inp : List Char) : (scanEscape q inp).2 <:+ inp := by
  unfold scanEscape
  split
  · exact List.suffix_refl _
  · rename_i c cs
    split
    · exact List.suffix_cons c cs
    · split
      · exact scanDigits_suffix _ _ _
      · split
        · exact (scanDigits_suffix _ _ _).trans (List.suffix_cons c cs)
        · split
          · exact (scanDigits_suffix _ _ _).trans (List.suffix_cons c cs)
          · split
            · exact (scanDigits_suffix _ _ _).trans (List.suffix_cons c cs)
            · exact List.suffix_refl _

theorem scanString_suffix (q : Char) (f : Nat) (inp : List Char) :
    (scanString q f inp).2 <:+ inp := by
  induction f generalizing inp with
  | zero => simp [scanString]
  | succ f ih =>
    cases inp with
    | nil => simp [scanString]
    | cons c cs =>
      simp only [scanString]
      split
      · exact List.suffix_cons c cs
      · split
        · exact (ih _).trans ((scanEscape_suffix q cs).trans (List.suffix_cons c cs))
        · exact (ih _).trans (List.suffix_cons c cs)

theorem scanRawString_suffix (inp : List Char) : (scanRawString inp).2 <:+ inp := by
  induction inp with
  | nil => simp [scanRawString]
  | cons c cs ih =>
    simp only [scanRawString]
    split
    · exact List.suffix_cons c cs
    · exact ih.trans (List.suffix_cons c cs)

theorem scanGeneralComment_suffix (inp : List Char) : (scanGeneralComment inp).2 <:+ inp := by
  induction inp with
  | nil => simp [scanGeneralComment]
  | cons c cs ih =>
    unfold scanGeneralComment
    split
    · exact List.nil_suffix
    · rename_i c1 cs1
      split
      · exact (List.suffix_cons c1 cs1).trans (List.suffix_cons c _)
      · exact ih.trans (List.suffix_cons c _)

theorem scanComment_suffix (ch : Char) (inp : List Char) : (scanComment ch inp).2 <:+ inp := by
  unfold scanComment
  split
  · exact List.dropWhile_suffix _
  · exact scanGeneralComment_suffix inp

theorem scanNumber_suffix_tail (fl : Bool) (c : Char) (cs : List Char) (hc : isDecimal c = true) :
    (scanNumber fl false (c :: cs)).2 <:+ cs := by
  unfold scanNumber
  simp only [Bool.false_eq_true, if_false]
  refine (scanExponent_suffix _ _).trans ?_
  have hpre : ∀ (hex : Bool) (r : List Char), (digits hex r).2 <:+ cs →
        (match (digits hex r).2 with
          | c :: cs => if (c == '.' && fl) = true then
              (c :: (digits hex cs).1, (digits hex cs).2) else ([], (digits hex r).2)
          | [] => (([], []) : List Char × List Char)).2 <:+ cs := by
    intro hex r hd
    split
    · rename_i c cs heq
      split
      · rw [heq] at hd
        exact (digits_suffix _ _).trans ((List.suffix_cons c cs).trans hd)
      · exact hd
    · exact List.nil_suffix
  apply hpre
  split
  · split
    · rename_i x xs
      split
      · exact (digits_suffix _ _).trans (List.suffix_cons x xs)
      · split
        · exact (digits_suffix _ _).trans (List.suffix_cons x xs)
        · exact digits_suffix _ _
    · exact digits_suffix _ _
  · have : (digits false (c :: cs)).2 = (digits false cs).2 := by
      simp [digits, List.dropWhile_cons, hc]
    show (digits false (c :: cs)).2 <:+ cs
    rw [this]
    exact digits_suffix _ _

/-- What `Scan` leaves unread is a suffix of the input it starts from. -/
theorem scanToken_suffix (U : Unicode) (m : Mode) (f : Nat) (inp : List Char) :
    (scanToken U m f inp).2 <:+ inp := by
  induction f generalizing inp with
  | zero => simp [scanToken]
  | succ f ih =>
    unfold scanToken
    have hws : inp.dropWhile isWhitespace <:+ inp := List.dropWhile_suffix _
    split
    · exact List.nil_suffix
    · rename_i c cs heq
      rw [heq] at hws
      have hcs : cs <:+ inp := (List.suffix_cons c cs).trans hws
      repeat' split
      all_goals first
        | exact hcs
        | exact hws
        | exact List.nil_suffix
        | exact (List.dropWhile_suffix _).trans hcs
        | exact (scanNumber_suffix _ _ _).trans hws
        | exact (scanNumber_suffix _ _ _).trans hcs
        | exact (scanString_suffix _ _ _).trans hcs
        | exact (scanRawString_suffix _).trans hcs
        | exact (ih _).trans ((scanComment_suffix _ _).trans ((List.suffix_cons _ _).trans hcs))
        | exact (scanComment_suffix _ _).trans ((List.suffix_cons _ _).trans hcs)

/-- Past the white space, `Scan` reads at least the first character. -/
theorem scanToken_suffix_tail (U : Unicode) (m : Mode) (f : Nat) (inp : List Char) (c : Char)
    (cs : List Char) (heq : inp.dropWhile isWhitespace = c :: cs) :
    (scanToken U m (f + 1) inp).2 <:+ cs := by
  unfold scanToken
  rw [heq]
  simp only
  repeat' split
  all_goals first
    | exact List.suffix_refl _
    | exact List.nil_suffix
    | exact List.suffix_cons _ _
    | exact List.dropWhile_suffix _
    | exact scanNumber_suffix_tail _ _ _ (by assumption)
    | exact scanNumber_suffix _ _ _
    | exact scanString_suffix _ _ _
    | exact scanRawString_suffix _
    | exact (scanComment_suffix _ _).trans (List.suffix_cons _ _)
    | exact (scanToken_suffix _ _ _ _).trans ((scanComment_suffix _ _).trans (List.suffix_cons _ _))

theorem Scan_rest_suffix (U : Unicode) (s : Scanner) : (s.Scan U).rest <:+ s.rest :=
  scanToken_suffix U s.mode _ s.rest

theorem Scan_rest_le (U : Unicode) (s : Scanner) : (s.Scan U).rest.length ≤ s.rest.length :=
  (Scan_rest_suffix U s).length_le

/-- On unread input that is not empty `Scan` reads at least one character. -/
theorem Scan_rest_lt (U : Unicode) (s : Scanner) (h : s.rest ≠ []) :
    (s.Scan U).rest.length < s.rest.length := by
  show (scanToken U s.mode (s.rest.length + 1) s.rest).2.length < s.rest.length
  cases hd : s.rest.dropWhile isWhitespace with
  | nil =>
    have : scanToken U s.mode (s.rest.length + 1) s.rest = ([], []) := by
      unfold scanToken; rw [hd]
    rw [this]
    exact List.length_pos.mpr h
  | cons c cs =>
    have h1 := (scanToken_suffix_tail U s.mode s.rest.length s.rest c cs hd).length_le
    have h2 : (c :: cs).length ≤ s.rest.length := by
      rw [← hd]; exact (List.dropWhile_suffix _).length_le
    simp only [List.length_cons] at h2
    omega

@[simp] theorem Scan_mode (U : Unicode) (s : Scanner) : (s.Scan U).mode = s.mode := rfl

/-! ## The loops of the parser only move forward -/

theorem Next_rest_le (s : Scanner) : s.Next.2.rest.length ≤ s.rest.length := by
  simp [Scanner.Next]

theorem Scan_nil (U : Unicode) (s : Scanner) (h : s.rest = []) :
    (s.Scan U).rest = [] ∧ (s.Scan U).tok = [] := by
  simp [Scanner.Scan, h, scanToken]

theorem dashLoop_rest_le (U : Unicode) (f : Nat) (s : Scanner) (r : Str) :
    (dashLoop U f s r).1.rest.length ≤ s.rest.length := by
  induction f generalizing s r with
  | zero => simp [dashLoop]
  | succ f ih =>
    simp only [dashLoop]
    split
    · exact (ih _ _).trans ((Scan_rest_le U _).trans (Scan_rest_le U _))
    · exact le_refl _

theorem slashLoop_rest_le (U : Unicode) (f : Nat) (s : Scanner) (r : Str) :
    (slashLoop U f s r).1.rest.length ≤ s.rest.length := by
  induction f generalizing s r with
  | zero => simp [slashLoop]
  | succ f ih =>
    simp only [slashLoop]
    split
    · refine (ih _ _).trans ?_
      have h1 := Scan_rest_le U s
      have h2 := Scan_rest_le U (s.Scan U)
      have h3 := Scan_rest_le U ((s.Scan U).Scan U)
      have h4 := Scan_rest_le U (((s.Scan U).Scan U).Scan U)
      have h5 := Scan_rest_le U ((((s.Scan U).Scan U).Scan U).Scan U)
      have h6 := Scan_rest_le U (((((s.Scan U).Scan U).Scan U).Scan U).Scan U)
      omega
    · exact le_refl _

theorem glyphLoop_rest_le (f : Nat) (s : Scanner) : (glyphLoop f s).rest.length ≤ s.rest.length := by
  induction f generalizing s with
  | zero => simp [glyphLoop]
  | succ f ih =>
    simp only [glyphLoop]
    split
    · split
      · exact (ih _).trans (Next_rest_le s)
      · exact le_refl _
    · exact le_refl _

theorem spaceLoop_rest_le (f : Nat) (s : Scanner) : (spaceLoop f s).rest.length ≤ s.rest.length := by
  induction f generalizing s with
  | zero => simp [spaceLoop]
  | succ f ih =>
    simp only [spaceLoop]
    split
    · exact (ih _).trans (Next_rest_le s)
    · exact le_refl _

theorem braceLoop_rest_le (f : Nat) (s s1 : Scanner) (h : braceLoop f s = some s1) :
    s1.rest.length ≤ s.rest.length := by
  induction f generalizing s with
  | zero => simp [braceLoop] at h
  | succ f ih =>
    simp only [braceLoop] at h
    split at h
    · simp at h
    · split at h
      · simp at h; subst h; exact le_refl _
      · exact (ih _ h).trans (Next_rest_le s)

theorem skipComment_rest_le (s s1 : Scanner) (h : skipComment s = some s1) :
    s1.rest.length ≤ s.rest.length := by
  unfold skipComment at h
  split at h
  · split at h
    · simp at h
    · rename_i s2 hb
      simp at h; subst h
      exact (Next_rest_le s2).trans (braceLoop_rest_le _ _ _ hb)
  · simp at h; subst h; exact le_refl _

theorem ParseMoveOrResult_rest_le (U : Unicode) (s : Scanner) :
    (ParseMoveOrResult U s).2.rest.length ≤ s.rest.length := by
  unfold ParseMoveOrResult
  simp only
  refine (glyphLoop_rest_le _ _).trans ?_
  have ha := dashLoop_rest_le U s.rest.length s s.TokenText
  have hb := slashLoop_rest_le U (dashLoop U s.rest.length s s.TokenText).1.rest.length
    (dashLoop U s.rest.length s s.TokenText).1 (dashLoop U s.rest.length s s.TokenText).2
  split
  · refine ((Scan_rest_le U _).trans (Scan_rest_le U _)).trans ?_
    omega
  · omega

theorem measure_peek_le {B E : Type} (st : MovesState B E) (h : st.run = st.s.Peek) :
    st.measure ≤ st.s.rest.length + 1 ∧ (st.s.rest = [] → st.measure = 0) := by
  unfold MovesState.measure
  constructor
  · split <;> omega
  · intro h0
    simp [h, Scanner.Peek, h0]

theorem numSlot_next {B E : Type} (U : Unicode) (st st1 : MovesState B E) (s1 : Scanner)
    (h : numSlot U st s1 = .next st1) :
    st1.run = st1.s.Peek ∧ st1.s.rest.length ≤ s1.rest.length := by
  unfold numSlot at h
  simp only at h
  split at h
  · simp at h
  · simp only [Step.next.injEq] at h
    subst h
    refine ⟨rfl, ?_⟩
    exact (slashLoop_rest_le _ _ _ _).trans (dashLoop_rest_le _ _ _ _)

theorem whiteSlot_next {B E : Type} (U : Unicode) (api : BoardAPI B E) (st st1 : MovesState B E)
    (s1 : Scanner) (h : whiteSlot U api st s1 = .next st1) :
    st1.run = st1.s.Peek ∧ st1.s.rest.length ≤ s1.rest.length := by
  unfold whiteSlot at h
  simp only at h
  split at h
  · simp at h
  · split at h
    · simp at h
    · rename_i s3 hs3
      have h3 : s3.rest.length ≤ s1.rest.length :=
        (skipComment_rest_le _ _ hs3).trans
          ((spaceLoop_rest_le _ _).trans (ParseMoveOrResult_rest_le U s1))
      split at h
      · simp at h
      · split at h
        · split at h
          · simp at h
          · simp only [Step.next.injEq] at h
            subst h
            refine ⟨rfl, ?_⟩
            exact (ParseMoveOrResult_rest_le U _).trans
              ((Scan_rest_le U _).trans ((spaceLoop_rest_le _ _).trans h3))
        · simp only [Step.next.injEq] at h
          subst h
          exact ⟨rfl, (spaceLoop_rest_le _ _).trans h3⟩

theorem blackSlot_next {B E : Type} (U : Unicode) (api : BoardAPI B E) (st st1 : MovesState B E)
    (s1 : Scanner) (h : blackSlot U api st s1 = .next st1) :
    st1.run = st1.s.Peek ∧ st1.s.rest.length ≤ s1.rest.length := by
  unfold blackSlot at h
  simp only at h
  split at h
  · simp at h
  · split at h
    · simp at h
    · simp only [Step.next.injEq] at h
      subst h
      exact ⟨rfl, ParseMoveOrResult_rest_le U s1⟩

theorem nextUntil_length (close : Char) (l : List Char) :
    (nextUntil close l).2.length ≤ l.length - 1 ∧ ((nextUntil close l).1 = none → (nextUntil close l).2 = []) := by
  induction l with
  | nil => simp [nextUntil]
  | cons c cs ih =>
    simp only [nextUntil]
    split
    · simp
    · constructor
      · have := ih.1; simp only [List.length_cons]; omega
      · exact ih.2

theorem runUntil_measure (close : Char) (run : Char) (s : Scanner) (h : run ≠ close) :
    (runUntil close (some run) s).2.rest.length +
      (if (runUntil close (some run) s).1.isSome then 1 else 0) < s.rest.length + 1 := by
  unfold runUntil
  have hne : ¬ (some run = some close ∨ some run = none) := by simp [h]
  rw [if_neg hne]
  simp only
  have h1 := nextUntil_length close s.rest
  cases hr : (nextUntil close s.rest).1 with
  | none =>
    have := h1.2 hr
    simp [this]
  | some c =>
    simp only [Option.isSome_some, if_true]
    cases hs : s.rest with
    | nil => simp [hs, nextUntil] at hr
    | cons a as =>
      have := h1.1
      rw [hs] at this
      simp only [List.length_cons] at this ⊢
      omega

theorem tail_measure (l : List Char) :
    (l.tail.length + if l.tail.head?.isSome = true then 1 else 0) < l.length + 1 := by
  cases l with
  | nil => simp
  | cons a as => simp only [List.tail_cons, List.length_cons]; split <;> omega

/-- Every round of the main loop that goes on decreases the measure. -/
theorem movesStep_measure {B E : Type} (U : Unicode) (api : BoardAPI B E) (st st1 : MovesState B E)
    (h : movesStep U api st = .next st1) : st1.measure < st.measure := by
  unfold movesStep at h
  split at h
  · simp at h
  · rename_i run hrun
    have hm : st.measure = st.s.rest.length + 1 := by simp [MovesState.measure, hrun]
    have key : ∀ s1 : Scanner, s1 = st.s.Scan U → st1.run = st1.s.Peek →
        st1.s.rest.length ≤ s1.rest.length → st1.measure < st.measure := by
      intro s1 hs1 hp hl
      have := measure_peek_le st1 hp
      by_cases h0 : st.s.rest = []
      · have h1 : s1.rest = [] := by rw [hs1]; exact (Scan_nil U st.s h0).1
        have h2 : st1.s.rest = [] := by
          apply List.eq_nil_of_length_eq_zero; rw [h1] at hl; simpa using hl
        rw [this.2 h2, hm]; omega
      · have := Scan_rest_lt U st.s h0
        rw [← hs1] at this
        omega
    by_cases hp1 : run = '('
    · rw [if_pos hp1] at h
      simp only [Step.next.injEq] at h
      subst h
      rw [hm, hrun]
      exact runUntil_measure ')' run st.s (by rw [hp1]; decide)
    rw [if_neg hp1] at h
    by_cases hp2 : run = chLBrace
    · rw [if_pos hp2] at h
      simp only [Step.next.injEq] at h
      subst h
      rw [hm, hrun]
      exact runUntil_measure chRBrace run st.s (by rw [hp2]; decide)
    rw [if_neg hp2] at h
    by_cases hp3 : isGlyph run = true
    · rw [if_pos hp3] at h
      simp only [Step.next.injEq] at h
      subst h
      rw [hm]
      simp only [MovesState.measure, Scanner.Next, Scanner.Peek]
      exact tail_measure _
    rw [if_neg hp3] at h
    simp only at h
    by_cases hp4 : (st.s.Scan U).TokenText = [chLBrace]
    · rw [if_pos hp4] at h
      simp only [Step.next.injEq] at h
      subst h
      rw [hm]
      simp only [MovesState.measure, Option.isSome_some, if_true]
      have h0 : st.s.rest ≠ [] := by
        intro h0
        have := (Scan_nil U st.s h0).2
        simp [Scanner.TokenText, this] at hp4
      have := Scan_rest_lt U st.s h0
      omega
    rw [if_neg hp4] at h
    by_cases hp5 : st.num = []
    · rw [if_pos hp5] at h
      have := numSlot_next U st st1 _ h
      exact key _ rfl this.1 this.2
    rw [if_neg hp5] at h
    by_cases hp6 : st.white = []
    · rw [if_pos hp6] at h
      have := whiteSlot_next U api st st1 _ h
      exact key _ rfl this.1 this.2
    rw [if_neg hp6] at h
    by_cases hp7 : st.black = []
    · rw [if_pos hp7] at h
      have := blackSlot_next U api st st1 _ h
      exact key _ rfl this.1 this.2
    rw [if_neg hp7] at h
    simp only [Step.next.injEq] at h
    subst h
    exact key _ rfl rfl (le_refl _)

/-! ## The main loop ends -/

/-- With more rounds allowed than the measure, the main loop ends. -/
theorem movesLoop_total {B E : Type} (U : Unicode) (api : BoardAPI B E) (f : Nat)
    (st : MovesState B E) (h : st.measure < f) : ∃ out, movesLoop U api f st = some out := by
  induction f generalizing st with
  | zero => omega
  | succ f ih =>
    simp only [movesLoop]
    cases hs : movesStep U api st with
    | next st1 =>
      have := movesStep_measure U api st st1 hs
      exact ih st1 (by omega)
    | ret err st1 => exact ⟨_, rfl⟩
    | hang st1 => exact ⟨_, rfl⟩

/-- Allowing more rounds does not change an outcome. -/
theorem movesLoop_mono {B E : Type} (U : Unicode) (api : BoardAPI B E) (f f1 : Nat)
    (st : MovesState B E) (out : Outcome B E) (h : movesLoop U api f st = some out)
    (hf : f ≤ f1) : movesLoop U api f1 st = some out := by
  induction f generalizing st f1 with
  | zero => simp [movesLoop] at h
  | succ f ih =>
    cases f1 with
    | zero => omega
    | succ f1 =>
      simp only [movesLoop] at h ⊢
      cases hs : movesStep U api st with
      | next st1 => rw [hs] at h; exact ih f1 st1 h (by omega)
      | ret err st1 => rw [hs] at h; exact h
      | hang st1 => rw [hs] at h; exact h

theorem Runs_det {B E : Type} {U : Unicode} {api : BoardAPI B E} {st : MovesState B E}
    {o1 o2 : Outcome B E} (h1 : Runs U api st o1) (h2 : Runs U api st o2) : o1 = o2 := by
  obtain ⟨f1, h1⟩ := h1
  obtain ⟨f2, h2⟩ := h2
  have a := movesLoop_mono U api f1 (max f1 f2) st o1 h1 (le_max_left _ _)
  have b := movesLoop_mono U api f2 (max f1 f2) st o2 h2 (le_max_right _ _)
  rw [a] at b
  exact Option.some.inj b

theorem Runs_next {B E : Type} {U : Unicode} {api : BoardAPI B E} {st st1 : MovesState B E}
    (hs : movesStep U api st = .next st1) (out : Outcome B E) :
    Runs U api st out ↔ Runs U api st1 out := by
  constructor
  · rintro ⟨f, hf⟩
    cases f with
    | zero => simp [movesLoop] at hf
    | succ f =>
      simp only [movesLoop, hs] at hf
      exact ⟨f, hf⟩
  · rintro ⟨f, hf⟩
    exact ⟨f + 1, by simp only [movesLoop, hs]; exact hf⟩

theorem Runs_ret {B E : Type} {U : Unicode} {api : BoardAPI B E} {st st1 : MovesState B E}
    {err : Option E} (hs : movesStep U api st = .ret err st1) :
    Runs U api st (.returned err st1) :=
  ⟨1, by simp only [movesLoop, hs]⟩

theorem Runs_hang {B E : Type} {U : Unicode} {api : BoardAPI B E} {st st1 : MovesState B E}
    (hs : movesStep U api st = .hang st1) :
    Runs U api st (.hangs st1) :=
  ⟨1, by simp only [movesLoop, hs]⟩

/-- The rounds `ParseMoves` allows are enough: its main loop has an outcome
exactly when the loop, run for any number of rounds, reaches that outcome. -/
theorem movesLoop_fuel_iff {B E : Type} (U : Unicode) (api : BoardAPI B E) (s : Scanner)
    (g : Game) (b : B) (out : Outcome B E) :
    movesLoop U api (movesFuel s) (movesInit s g b) = some out ↔
      Runs U api (movesInit s g b) out := by
  constructor
  · intro h; exact ⟨_, h⟩
  · intro h
    have hm : (movesInit (E := E) s g b).measure < movesFuel s := by
      have := (measure_peek_le (movesInit (E := E) s g b) rfl).1
      simp only [movesInit, movesFuel] at this ⊢
      omega
    obtain ⟨o, ho⟩ := movesLoop_total U api (movesFuel s) (movesInit s g b) hm
    rw [ho, Runs_det ⟨_, ho⟩ h]

/-- `ParseMoves` has an outcome on every input: it returns or it spins in the
comment loop. -/
theorem ParseMoves_total {B E : Type} (U : Unicode) (api : BoardAPI B E) (s : Scanner) (g : Game) :
    ∃ out, ParseMoves U api s g = some out := by
  have hm : ∀ b : B, (movesInit (E := E) s g b).measure < movesFuel s := by
    intro b
    have := (measure_peek_le (movesInit (E := E) s g b) rfl).1
    simp only [movesInit, movesFuel] at this ⊢
    omega
  unfold ParseMoves
  split
  · split
    · exact ⟨_, rfl⟩
    · exact movesLoop_total U api _ _ (hm _)
  · exact movesLoop_total U api _ _ (hm _)

/-! ## The board stays in step with the move list -/

theorem replay_snoc {B E : Type} (api : BoardAPI B E) (b0 b : B) (cs : List (Str × Color))
    (ms : List Move) (t : Str) (c : Color) (h : replay api b0 cs = some (ms, b))
    (hr : (api.MoveFromAlgebraic b t c).2 = none) :
    replay api b0 (cs ++ [(t, c)]) =
      some (ms ++ [(api.MoveFromAlgebraic b t c).1], api.MakeMove b (api.MoveFromAlgebraic b t c).1) := by
  induction cs generalizing b0 ms with
  | nil =>
    simp only [replay, Option.some.injEq, Prod.mk.injEq] at h
    obtain ⟨rfl, rfl⟩ := h
    simp [replay, hr]
  | cons x xs ih =>
    obtain ⟨t1, c1⟩ := x
    simp only [replay, List.cons_append] at h ⊢
    cases h1 : (api.MoveFromAlgebraic b0 t1 c1).2 with
    | some e => rw [h1] at h; simp at h
    | none =>
      rw [h1] at h
      simp only at h ⊢
      cases h2 : replay api (api.MakeMove b0 (api.MoveFromAlgebraic b0 t1 c1).1) xs with
      | none => rw [h2] at h; simp at h
      | some r =>
        rw [h2] at h
        simp only [Option.map_some', Option.some.injEq, Prod.mk.injEq] at h
        obtain ⟨rfl, rfl⟩ := h
        have := ih _ r.1 (by rw [h2])
        show Option.map _ (replay api _ (xs ++ [(t, c)])) = _
        rw [this]
        simp

theorem calls_append {B E : Type} (l1 l2 : List (Event B E)) :
    calls (l1 ++ l2) = calls l1 ++ calls l2 := by
  simp [calls, List.filterMap_append]

theorem Trace.replay {B E : Type} {api : BoardAPI B E} {b0 b : B} {log : List (Event B E)}
    {ms : List Move} (h : Trace api b0 log ms b) : PGN.replay api b0 (calls log) = some (ms, b) := by
  induction h with
  | nil => rfl
  | @step log1 ms1 b1 t c _ hr ih =>
    rw [calls_append]
    have : calls [Event.resolve b1 t c (api.MoveFromAlgebraic b1 t c).1 (none : Option E),
        Event.make b1 (api.MoveFromAlgebraic b1 t c).1] = [(t, c)] := rfl
    rw [this]
    exact replay_snoc api b0 _ _ _ t c ih hr

theorem Inv.resolved {B E : Type} {api : BoardAPI B E} {b0 : B} {g0 : Game} {st : MovesState B E}
    (h : Inv api b0 g0 st) (t : Str) (c : Color)
    (hr : (api.MoveFromAlgebraic st.board t c).2 = none) (s : Scanner) (n w b : Str)
    (run : Option Char) :
    Inv api b0 g0
      { s := s, g := { st.g with Moves := st.g.Moves ++ [(api.MoveFromAlgebraic st.board t c).1] },
        board := api.MakeMove st.board (api.MoveFromAlgebraic st.board t c).1,
        num := n, white := w, black := b, run := run,
        log := st.log ++ [.resolve st.board t c (api.MoveFromAlgebraic st.board t c).1
                            (api.MoveFromAlgebraic st.board t c).2,
                          .make st.board (api.MoveFromAlgebraic st.board t c).1] } := by
  obtain ⟨ms, htr, hm, ht⟩ := h
  refine ⟨ms ++ [(api.MoveFromAlgebraic st.board t c).1], ?_, ?_, ht⟩
  · simp only [hr]
    exact Trace.step t c htr hr
  · simp [hm]

theorem Inv.frame {B E : Type} {api : BoardAPI B E} {b0 : B} {g0 : Game} {st st1 : MovesState B E}
    (h : Inv api b0 g0 st) (hg : st1.g = st.g) (hb : st1.board = st.board)
    (hl : st1.log = st.log) : Inv api b0 g0 st1 := by
  obtain ⟨ms, htr, hm, ht⟩ := h
  exact ⟨ms, by rw [hl, hb]; exact htr, by rw [hg]; exact hm, by rw [hg]; exact ht⟩

theorem Inv.failed {B E : Type} {api : BoardAPI B E} {b0 : B} {g0 : Game} {st : MovesState B E}
    (h : Inv api b0 g0 st) (t : Str) (c : Color) (e : E)
    (hr : (api.MoveFromAlgebraic st.board t c).2 = some e) (s : Scanner) (n w b : Str)
    (run : Option Char) :
    Failed api b0 g0 e
      { s := s, g := st.g, board := st.board, num := n, white := w, black := b, run := run,
        log := st.log ++ [.resolve st.board t c (api.MoveFromAlgebraic st.board t c).1
                            (api.MoveFromAlgebraic st.board t c).2, .print st.board] } := by
  obtain ⟨ms, htr, hm, ht⟩ := h
  exact ⟨st.log, ms, t, c, htr, hr, by simp [hr], hm, ht⟩

/-- What one round of the main loop does to the invariant. -/
theorem movesStep_inv {B E : Type} (U : Unicode) (api : BoardAPI B E) (b0 : B) (g0 : Game)
    (st : MovesState B E) (h : Inv api b0 g0 st) :
    StepPost api b0 g0 (movesStep U api st) := by
  unfold movesStep
  cases hrun : st.run with
  | none => exact h
  | some run =>
    simp only
    by_cases hp1 : run = '('
    · rw [if_pos hp1]; exact h.frame rfl rfl rfl
    rw [if_neg hp1]
    by_cases hp2 : run = chLBrace
    · rw [if_pos hp2]; exact h.frame rfl rfl rfl
    rw [if_neg hp2]
    by_cases hp3 : isGlyph run = true
    · rw [if_pos hp3]; exact h.frame rfl rfl rfl
    rw [if_neg hp3]
    by_cases hp4 : (st.s.Scan U).TokenText = [chLBrace]
    · rw [if_pos hp4]; exact h.frame rfl rfl rfl
    rw [if_neg hp4]
    by_cases hp5 : st.num = []
    · rw [if_pos hp5]
      unfold numSlot
      simp only
      split
      · exact h.frame rfl rfl rfl
      · exact h.frame rfl rfl rfl
    rw [if_neg hp5]
    by_cases hp6 : st.white = []
    · rw [if_pos hp6]
      unfold whiteSlot
      simp only
      split
      · exact h.frame rfl rfl rfl
      · split
        · exact h.frame rfl rfl rfl
        · split
          · rename_i e he
            exact h.failed _ _ e he _ _ _ _ _
          · rename_i he
            split
            · split
              · exact h.resolved _ _ he _ _ _ _ _
              · exact h.resolved _ _ he _ _ _ _ _
            · exact h.resolved _ _ he _ _ _ _ _
    rw [if_neg hp6]
    by_cases hp7 : st.black = []
    · rw [if_pos hp7]
      unfold blackSlot
      simp only
      split
      · exact h.frame rfl rfl rfl
      · split
        · rename_i e he
          exact h.failed _ _ e he _ _ _ _ _
        · rename_i he
          exact h.resolved _ _ he _ _ _ _ _
    rw [if_neg hp7]
    exact h.frame rfl rfl rfl

/-- The invariant of the main loop holds of its outcome. -/
theorem Runs_post {B E : Type} (U : Unicode) (api : BoardAPI B E) (b0 : B) (g0 : Game)
    (st : MovesState B E) (out : Outcome B E) (h : Inv api b0 g0 st) (hr : Runs U api st out) :
    Post api b0 g0 out := by
  obtain ⟨f, hf⟩ := hr
  induction f generalizing st with
  | zero => simp [movesLoop] at hf
  | succ f ih =>
    simp only [movesLoop] at hf
    have hs := movesStep_inv U api b0 g0 st h
    cases hstep : movesStep U api st with
    | next st1 =>
      rw [hstep] at hf hs
      exact ih st1 hs hf
    | ret err st1 =>
      rw [hstep] at hf hs
      simp only [Option.some.injEq] at hf
      subst hf
      cases err with
      | none => exact hs
      | some e => exact hs
    | hang st1 =>
      rw [hstep] at hf hs
      simp only [Option.some.injEq] at hf
      subst hf
      exact hs

theorem Inv_init {B E : Type} (api : BoardAPI B E) (s : Scanner) (g : Game) (b : B) :
    Inv api b g (movesInit s g b) :=
  ⟨[], Trace.nil, by simp [movesInit], rfl⟩

/-- The outcome of `ParseMoves` when the seed board is there. -/
theorem ParseMoves_post {B E : Type} (U : Unicode) (api : BoardAPI B E) (s : Scanner) (g : Game)
    (b0 : B) (out : Outcome B E) (hb : seedBoard api g = .ok b0)
    (h : ParseMoves U api s g = some out) : Post api b0 g out := by
  unfold ParseMoves at h
  unfold seedBoard at hb
  split at h
  · rename_i hfen
    rw [if_pos hfen] at hb
    rw [hb] at h
    simp only at h
    exact Runs_post U api b0 g _ out (Inv_init api s g b0) ⟨_, h⟩
  · rename_i hfen
    rw [if_neg hfen] at hb
    simp only [Except.ok.injEq] at hb
    subst hb
    exact Runs_post U api _ g _ out (Inv_init api s g _) ⟨_, h⟩

/-! ## The rounds allowed to the loops are enough

Each loop of the model is given as many rounds as there are unread characters
(one more for `Scan`), and every round reads at least one: with that many
rounds or more the result is the same. -/

theorem scanToken_fuel (U : Unicode) (m : Mode) : ∀ (f g : Nat) (inp : List Char),
    inp.length < f → inp.length < g → scanToken U m f inp = scanToken U m g inp := by
  intro f
  induction f with
  | zero => intro g inp hf; omega
  | succ f ih =>
    intro g inp hf hg
    cases g with
    | zero => omega
    | succ g =>
      have hws : (inp.dropWhile isWhitespace).length ≤ inp.length :=
        (List.dropWhile_suffix _).length_le
      unfold scanToken
      cases h : inp.dropWhile isWhitespace with
      | nil => rfl
      | cons c cs =>
        cases cs with
        | nil => rfl
        | cons d ds =>
          have hl : (scanComment d ds).2.length ≤ ds.length := (scanComment_suffix d ds).length_le
          rw [h] at hws
          simp only [List.length_cons] at hws
          simp only
          rw [ih g (scanComment d ds).2 (by omega) (by omega)]

theorem Scan_fuel (U : Unicode) (s : Scanner) (f : Nat) (h : s.rest.length < f) :
    scanToken U s.mode f s.rest = ((s.Scan U).tok, (s.Scan U).rest) :=
  scanToken_fuel U s.mode f (s.rest.length + 1) s.rest h (Nat.lt_succ_self _)

theorem peek_rest_ne {s : Scanner} {c : Char} (h : s.Peek = some c) : s.rest ≠ [] := by
  intro e
  simp [Scanner.Peek, e] at h

theorem dashLoop_fuel (U : Unicode) : ∀ (f g : Nat) (s : Scanner) (r : Str),
    s.rest.length ≤ f → s.rest.length ≤ g → dashLoop U f s r = dashLoop U g s r := by
  intro f
  induction f with
  | zero =>
    intro g s r hf _
    have he : s.Peek = none := by
      simp [Scanner.Peek, List.length_eq_zero.mp (Nat.le_zero.mp hf)]
    cases g with
    | zero => rfl
    | succ g => simp [dashLoop, he]
  | succ f ih =>
    intro g s r hf hg
    by_cases hp : s.Peek = some '-'
    · have h1 := Scan_rest_lt U s (peek_rest_ne hp)
      have h2 := Scan_rest_le U (s.Scan U)
      cases g with
      | zero =>
        exact absurd (List.length_eq_zero.mp (Nat.le_zero.mp hg)) (peek_rest_ne hp)
      | succ g =>
        simp only [dashLoop, if_pos hp]
        exact ih g _ _ (by omega) (by omega)
    · cases g with
      | zero => simp [dashLoop, hp]
      | succ g => simp [dashLoop, hp]

theorem slashLoop_fuel (U : Unicode) : ∀ (f g : Nat) (s : Scanner) (r : Str),
    s.rest.length ≤ f → s.rest.length ≤ g → slashLoop U f s r = slashLoop U g s r := by
  intro f
  induction f with
  | zero =>
    intro g s r hf _
    have he : s.Peek = none := by
      simp [Scanner.Peek, List.length_eq_zero.mp (Nat.le_zero.mp hf)]
    cases g with
    | zero => rfl
    | succ g => simp [slashLoop, he]
  | succ f ih =>
    intro g s r hf hg
    by_cases hp : s.Peek = some '/'
    · have h1 := Scan_rest_lt U s (peek_rest_ne hp)
      have h2 := Scan_rest_le U (s.Scan U)
      have h3 := Scan_rest_le U ((s.Scan U).Scan U)
      have h4 := Scan_rest_le U (((s.Scan U).Scan U).Scan U)
      have h5 := Scan_rest_le U ((((s.Scan U).Scan U).Scan U).Scan U)
      have h6 := Scan_rest_le U (((((s.Scan U).Scan U).Scan U).Scan U).Scan U)
      cases g with
      | zero =>
        exact absurd (List.length_eq_zero.mp (Nat.le_zero.mp hg)) (peek_rest_ne hp)
      | succ g =>
        simp only [slashLoop, if_pos hp]
        exact ih g _ _ (by omega) (by omega)
    · cases g with
      | zero => simp [slashLoop, hp]
      | succ g => simp [slashLoop, hp]

theorem glyphLoop_fuel : ∀ (f g : Nat) (s : Scanner),
    s.rest.length ≤ f → s.rest.length ≤ g → glyphLoop f s = glyphLoop g s := by
  intro f
  induction f with
  | zero =>
    intro g s hf _
    have he : s.Peek = none := by
      simp [Scanner.Peek, List.length_eq_zero.mp (Nat.le_zero.mp hf)]
    cases g with
    | zero => rfl
    | succ g => simp [glyphLoop, he]
  | succ f ih =>
    intro g s hf hg
    cases hp : s.Peek with
    | none =>
      cases g with
      | zero => simp [glyphLoop, hp]
      | succ g => simp [glyphLoop, hp]
    | some c =>
      have hne := peek_rest_ne hp
      have hl : s.Next.2.rest.length < s.rest.length := by
        cases hr : s.rest with
        | nil => exact absurd hr hne
        | cons x xs => simp [Scanner.Next, hr]
      cases g with
      | zero => exact absurd (List.length_eq_zero.mp (Nat.le_zero.mp hg)) hne
      | succ g =>
        simp only [glyphLoop, hp]
        by_cases hg1 : isGlyph c = true
        · rw [if_pos hg1, if_pos hg1]
          exact ih g _ (by omega) (by omega)
        · rw [if_neg hg1, if_neg hg1]

theorem spaceLoop_fuel : ∀ (f g : Nat) (s : Scanner),
    s.rest.length ≤ f → s.rest.length ≤ g → spaceLoop f s = spaceLoop g s := by
  intro f
  induction f with
  | zero =>
    intro g s hf _
    have he : s.Peek = none := by
      simp [Scanner.Peek, List.length_eq_zero.mp (Nat.le_zero.mp hf)]
    cases g with
    | zero => rfl
    | succ g => simp [spaceLoop, he]
  | succ f ih =>
    intro g s hf hg
    by_cases hp : s.Peek = some ' '
    · have hne := peek_rest_ne hp
      have hl : s.Next.2.rest.length < s.rest.length := by
        cases hr : s.rest with
        | nil => exact absurd hr hne
        | cons x xs => simp [Scanner.Next, hr]
      cases g with
      | zero => exact absurd (List.length_eq_zero.mp (Nat.le_zero.mp hg)) hne
      | succ g =>
        simp only [spaceLoop, if_pos hp]
        exact ih g _ (by omega) (by omega)
    · cases g with
      | zero => simp [spaceLoop, hp]
      | succ g => simp [spaceLoop, hp]

theorem braceLoop_fuel : ∀ (f g : Nat) (s : Scanner),
    s.rest.length ≤ f → s.rest.length ≤ g → braceLoop f s = braceLoop g s := by
  intro f
  induction f with
  | zero =>
    intro g s hf _
    have he : s.Peek = none := by
      simp [Scanner.Peek, List.length_eq_zero.mp (Nat.le_zero.mp hf)]
    cases g with
    | zero => rfl
    | succ g => simp [braceLoop, he]
  | succ f ih =>
    intro g s hf hg
    cases hp : s.Peek with
    | none =>
      cases g with
      | zero => simp [braceLoop, hp]
      | succ g => simp [braceLoop, hp]
    | some c =>
      have hne := peek_rest_ne hp
      have hl : s.Next.2.rest.length < s.rest.length := by
        cases hr : s.rest with
        | nil => exact absurd hr hne
        | cons x xs => simp [Scanner.Next, hr]
      cases g with
      | zero => exact absurd (List.length_eq_zero.mp (Nat.le_zero.mp hg)) hne
      | succ g =>
        simp only [braceLoop, hp]
        by_cases hg1 : c = chRBrace
        · rw [if_pos hg1, if_pos hg1]
        · rw [if_neg hg1, if_neg hg1]
          exact ih g _ (by omega) (by omega)

theorem scanString_fuel (quote : Char) : ∀ (f g : Nat) (inp : List Char),
    inp.length ≤ f → inp.length ≤ g → scanString quote f inp = scanString quote g inp := by
  intro f
  induction f with
  | zero =>
    intro g inp hf _
    have he : inp = [] := List.length_eq_zero.mp (Nat.le_zero.mp hf)
    subst he
    cases g <;> rfl
  | succ f ih =>
    intro g inp hf hg
    cases inp with
    | nil => cases g <;> rfl
    | cons c cs =>
      simp only [List.length_cons] at hf hg
      cases g with
      | zero => omega
      | succ g =>
        have hl : (scanEscape quote cs).2.length ≤ cs.length :=
          (scanEscape_suffix quote cs).length_le
        simp only [scanString]
        rw [ih g cs (by omega) (by omega), ih g (scanEscape quote cs).2 (by omega) (by omega)]

/-! ## Shape of the log -/

theorem Trace.accepted {B E : Type} {api : BoardAPI B E} {b0 b : B} {log : List (Event B E)}
    {ms : List Move} (h : Trace api b0 log ms b) :
    log.all (fun ev => !ev.rejected) = true := by
  induction h with
  | nil => rfl
  | step t c _ _ ih =>
    rw [List.all_append, ih]
    rfl

theorem makeCount_append {B E : Type} (l1 l2 : List (Event B E)) :
    makeCount (l1 ++ l2) = makeCount l1 + makeCount l2 := by
  simp [makeCount, List.filter_append]

theorem Trace.makeCount_eq {B E : Type} {api : BoardAPI B E} {b0 b : B} {log : List (Event B E)}
    {ms : List Move} (h : Trace api b0 log ms b) : makeCount log = ms.length := by
  induction h with
  | nil => rfl
  | step t c _ _ ih =>
    rw [makeCount_append, ih]
    simp [makeCount]

theorem Trace.nil_board {B E : Type} {api : BoardAPI B E} {b0 b : B} {log : List (Event B E)}
    {ms : List Move} (h : Trace api b0 log ms b) (hl : log = []) : b = b0 := by
  cases h with
  | nil => rfl
  | step t c _ _ => simp at hl

theorem firstBoard_append {B E : Type} (l1 l2 : List (Event B E)) (b : B)
    (h : firstBoard l1 = some b) : firstBoard (l1 ++ l2) = some b := by
  induction l1 with
  | nil => simp [firstBoard] at h
  | cons ev rest ih =>
    cases ev with
    | resolve b1 t c m e => simpa [firstBoard] using h
    | make b1 m => simp only [firstBoard, List.cons_append] at h ⊢; exact ih h
    | print b1 => simp only [firstBoard, List.cons_append] at h ⊢; exact ih h

/-- The first call in a log of accepted calls is made on the seed board. -/
theorem Trace.firstBoard_eq {B E : Type} {api : BoardAPI B E} {b0 b : B} {log : List (Event B E)}
    {ms : List Move} (h : Trace api b0 log ms b) :
    (log = [] ∧ b = b0) ∨ firstBoard log = some b0 := by
  induction h with
  | nil => exact Or.inl ⟨rfl, rfl⟩
  | step t c _ _ ih =>
    rcases ih with ⟨hl, hb⟩ | hf
    · subst hl; subst hb
      exact Or.inr rfl
    · exact Or.inr (firstBoard_append _ _ _ hf)

/-- `ParseMoves` either fails on the `"FEN"` entry at once, or runs its main
loop from the seed board. -/
theorem ParseMoves_cases {B E : Type} (U : Unicode) (api : BoardAPI B E) (s : Scanner) (g : Game)
    (out : Outcome B E) (h : ParseMoves U api s g = some out) :
    (∃ e, seedBoard api g = .error e ∧ out = .returned (some e) (movesInit s g api.NewBoard)) ∨
    (∃ b0, seedBoard api g = .ok b0 ∧ Runs U api (movesInit s g b0) out) := by
  unfold ParseMoves at h
  unfold seedBoard
  split at h
  · rename_i hfen
    rw [if_pos hfen]
    cases hb : api.NewBoardFEN (g.Tags.index fenKey) with
    | error e =>
      rw [hb] at h
      simp only [Option.some.injEq] at h
      exact Or.inl ⟨e, rfl, h.symm⟩
    | ok b =>
      rw [hb] at h
      exact Or.inr ⟨b, rfl, _, h⟩
  · rename_i hfen
    rw [if_neg hfen]
    exact Or.inr ⟨_, rfl, _, h⟩

theorem seedBoard_ok_of_post {B E : Type} (U : Unicode) (api : BoardAPI B E) (s : Scanner)
    (g : Game) (out : Outcome B E) (h : ParseMoves U api s g = some out) (b0 : B)
    (hb : seedBoard api g = .ok b0) : Post api b0 g out :=
  ParseMoves_post U api s g b0 out hb h

/-! ## The claims on `ParseMoves` and `ParseGame` -/

/-- C1: when `ParseMoves` returns `nil`, the moves it appended are, in order,
the results of `MoveFromAlgebraic` on the tokens it was passed, each resolved on
the board that `MakeMove` of the moves before it leads to from the seed board;
the board it ends with is the board after all of them. -/
theorem ParseMoves_board_synchronized {B E : Type} (U : Unicode) (api : BoardAPI B E)
    (s : Scanner) (g : Game) (st : MovesState B E)
    (h : ParseMoves U api s g = some (.returned none st)) :
    ∃ b0 ms, seedBoard api g = .ok b0 ∧ st.g.Moves = g.Moves ++ ms ∧
      replay api b0 (calls st.log) = some (ms, st.board) := by
  rcases ParseMoves_cases U api s g _ h with ⟨e, _, he⟩ | ⟨b0, hb, _⟩
  · simp at he
  · have hp := ParseMoves_post U api s g b0 _ hb h
    obtain ⟨ms, htr, hm, _⟩ := hp
    exact ⟨b0, ms, hb, hm, htr.replay⟩

/-- C2: an error `ParseMoves` returns is the error of `NewBoardFEN` on the
`"FEN"` entry, with nothing resolved, or the error of the last call of
`MoveFromAlgebraic`: that call is followed by no `MakeMove` and no further call,
every call before it was accepted and followed by its `MakeMove`, and the move
list holds the moves of those calls only.  When `ParseMoves` does not return an
error, no call was rejected. -/
theorem ParseMoves_rejection_stops {B E : Type} (U : Unicode) (api : BoardAPI B E)
    (s : Scanner) (g : Game) (out : Outcome B E) (h : ParseMoves U api s g = some out) :
    (∀ e, out.err = some (some e) →
      (seedBoard api g = .error e ∧ out.state.log = [] ∧ out.state.g.Moves = g.Moves) ∨
      (∃ b0 pre ms t c, seedBoard api g = .ok b0 ∧
        out.state.log = pre ++
          [.resolve out.state.board t c (api.MoveFromAlgebraic out.state.board t c).1 (some e),
           .print out.state.board] ∧
        (api.MoveFromAlgebraic out.state.board t c).2 = some e ∧
        replay api b0 (calls pre) = some (ms, out.state.board) ∧
        pre.all (fun ev => !ev.rejected) = true ∧ makeCount out.state.log = ms.length ∧
        out.state.g.Moves = g.Moves ++ ms)) ∧
    ((∀ e, out.err ≠ some (some e)) → out.state.log.all (fun ev => !ev.rejected) = true) := by
  rcases ParseMoves_cases U api s g _ h with ⟨e, hb, he⟩ | ⟨b0, hb, _⟩
  · subst he
    constructor
    · intro e1 h1
      simp only [Outcome.err, Option.some.injEq] at h1
      subst h1
      exact Or.inl ⟨hb, rfl, rfl⟩
    · intro hne
      exact absurd rfl (hne e)
  · have hp := ParseMoves_post U api s g b0 _ hb h
    cases out with
    | hangs st =>
      obtain ⟨ms, htr, _, _⟩ := hp
      exact ⟨by intro e he; simp [Outcome.err] at he, fun _ => htr.accepted⟩
    | returned err st =>
      cases err with
      | none =>
        obtain ⟨ms, htr, _, _⟩ := hp
        exact ⟨by intro e he; simp [Outcome.err] at he, fun _ => htr.accepted⟩
      | some e =>
        constructor
        · intro e1 h1
          simp only [Outcome.err, Option.some.injEq] at h1
          subst h1
          obtain ⟨pre, ms, t, c, htr, hrej, hlog, hm, _⟩ := hp
          refine Or.inr ⟨b0, pre, ms, t, c, hb, hlog, hrej, htr.replay, htr.accepted, ?_, hm⟩
          show makeCount st.log = ms.length
          rw [hlog, makeCount_append, htr.makeCount_eq]
          simp [makeCount]
        · intro hne
          exact absurd rfl (hne e)

/-- C5, as amended: `ParseMoves` seeds its board from `g.Tags["FEN"]` when that
is a non-empty string, and from `NewBoard()` otherwise (`seedBoard`).  When the
seed fails, `ParseMoves` returns that error with the input unread, the game
untouched and nothing resolved; else the first token it resolves, if any, is
resolved on the seed board. -/
theorem ParseMoves_seed {B E : Type} (U : Unicode) (api : BoardAPI B E)
    (s : Scanner) (g : Game) (out : Outcome B E) (h : ParseMoves U api s g = some out) :
    match seedBoard api g with
    | .error e => out.err = some (some e) ∧ out.state.s.rest = s.rest ∧ out.state.g = g ∧
        out.state.log = []
    | .ok b0 => firstBoard out.state.log = none ∨ firstBoard out.state.log = some b0 := by
  rcases ParseMoves_cases U api s g _ h with ⟨e, hb, he⟩ | ⟨b0, hb, _⟩
  · rw [hb]
    subst he
    exact ⟨rfl, rfl, rfl, rfl⟩
  · rw [hb]
    have hp := ParseMoves_post U api s g b0 _ hb h
    have key : ∀ st : MovesState B E, Inv api b0 g st →
        firstBoard st.log = none ∨ firstBoard st.log = some b0 := by
      intro st ⟨ms, htr, _, _⟩
      rcases htr.firstBoard_eq with ⟨hl, _⟩ | hf
      · left; rw [hl]; rfl
      · right; exact hf
    cases out with
    | hangs st => exact key st hp
    | returned err st =>
      cases err with
      | none => exact key st hp
      | some e =>
        obtain ⟨pre, ms, t, c, htr, hrej, hlog, hm, _⟩ := hp
        show firstBoard st.log = none ∨ firstBoard st.log = some b0
        rw [hlog]
        right
        rcases htr.firstBoard_eq with ⟨hl, hbd⟩ | hf
        · rw [hl, hbd]; rfl
        · exact firstBoard_append _ _ _ hf

/-! ## `ParseTags` and `ParseGame` end -/

theorem tagsLoop_total (E : Type) (U : Unicode) (f : Nat) (s : Scanner) (g : Game)
    (h : s.rest.length < f) : ∃ s1 g1, tagsLoop E U f s g = some (none, s1, g1) := by
  induction f generalizing s g with
  | zero => omega
  | succ f ih =>
    unfold tagsLoop
    cases hp : s.Peek with
    | none => exact ⟨_, _, rfl⟩
    | some run =>
      have hne : s.rest ≠ [] := by
        intro h0; simp [Scanner.Peek, h0] at hp
      simp only
      split
      · apply ih
        have : s.Next.2.rest.length < s.rest.length := by
          simp only [Scanner.Next]
          cases hr : s.rest with
          | nil => exact absurd hr hne
          | cons a as => simp
        omega
      · split
        · exact ⟨_, _, rfl⟩
        · split
          · exact ⟨_, _, rfl⟩
          · apply ih
            have h1 := Scan_rest_lt U s hne
            have h2 := Scan_rest_le U (s.Scan U)
            omega

/-- `ParseTags` returns on every input, and the error it returns is `nil`. -/
theorem ParseTags_total (E : Type) (U : Unicode) (s : Scanner) (g : Game) :
    ∃ s1 g1, ParseTags E U s g = some (none, s1, g1) :=
  tagsLoop_total E U _ s g (Nat.lt_succ_self _)

/-- `ParseGame` has an outcome on every input. -/
theorem ParseGame_total {B E : Type} (U : Unicode) (api : BoardAPI B E) (s : Scanner) :
    ∃ out, ParseGame U api s = some out := by
  obtain ⟨s1, g1, ht⟩ := ParseTags_total E U s { Tags := [], Moves := [] }
  obtain ⟨o, ho⟩ := ParseMoves_total U api s1 g1
  unfold ParseGame
  simp only [ht, ho]
  cases o with
  | hangs st => exact ⟨_, rfl⟩
  | returned err st =>
    cases err with
    | none => exact ⟨_, rfl⟩
    | some e => exact ⟨_, rfl⟩

/-- C3: `ParseGame` returns the `nil` game exactly when it returns an error,
and when `ParseMoves` returns an error, whatever it had resolved before,
`ParseGame` returns the `nil` game with that error. -/
theorem ParseGame_no_partial_game {B E : Type} (U : Unicode) (api : BoardAPI B E) (s : Scanner)
    (og : Option Game) (oe : Option E) (s1 : Scanner)
    (h : ParseGame U api s = some (.returned og oe s1)) :
    (og = none ↔ oe ≠ none) ∧
    ∀ s2 g2 e st, ParseTags E U s { Tags := [], Moves := [] } = some (none, s2, g2) →
      ParseMoves U api s2 g2 = some (.returned (some e) st) → og = none ∧ oe = some e := by
  obtain ⟨s2, g2, ht⟩ := ParseTags_total E U s { Tags := [], Moves := [] }
  obtain ⟨o, ho⟩ := ParseMoves_total U api s2 g2
  unfold ParseGame at h
  simp only [ht, ho] at h
  cases o with
  | hangs st => simp at h
  | returned err st =>
    cases err with
    | none =>
      simp only [Option.some.injEq, GameOutcome.returned.injEq] at h
      obtain ⟨h1, h2, _⟩ := h
      subst h1; subst h2
      refine ⟨by simp, ?_⟩
      intro s3 g3 e st3 ht3 hm3
      rw [ht] at ht3
      simp only [Option.some.injEq, Prod.mk.injEq, true_and] at ht3
      obtain ⟨rfl, rfl⟩ := ht3
      rw [ho] at hm3
      simp at hm3
    | some e0 =>
      simp only [Option.some.injEq, GameOutcome.returned.injEq] at h
      obtain ⟨h1, h2, _⟩ := h
      subst h1; subst h2
      refine ⟨by simp, ?_⟩
      intro s3 g3 e st3 ht3 hm3
      rw [ht] at ht3
      simp only [Option.some.injEq, Prod.mk.injEq, true_and] at ht3
      obtain ⟨rfl, rfl⟩ := ht3
      rw [ho] at hm3
      simp only [Option.some.injEq, Outcome.returned.injEq] at hm3
      exact ⟨rfl, by rw [hm3.1]⟩

/-! ## Character classes -/

theorem identStart_code (U : Unicode) (c : Char) (h : isIdentRune U c 0 = true) :
    c.toNat = 95 ∨ (65 ≤ c.toNat ∧ c.toNat ≤ 90) ∨ (97 ≤ c.toNat ∧ c.toNat ≤ 122) ∨
      128 ≤ c.toNat := by
  unfold isIdentRune isLetter at h
  by_cases h128 : c.toNat < 128
  · simp only [h128, if_true, Bool.or_eq_true, Bool.and_eq_true, decide_eq_true_eq,
      beq_iff_eq] at h
    rcases h with (h | h) | h
    · left; rw [h]; rfl
    · rcases h with h | h
      · right; left; exact h
      · right; right; left; exact h
    · exact absurd h.2 (by decide)
  · right; right; right; omega

theorem identCont_code (U : Unicode) (c : Char) (h : isIdentRune U c 1 = true) :
    c.toNat = 95 ∨ (65 ≤ c.toNat ∧ c.toNat ≤ 90) ∨ (97 ≤ c.toNat ∧ c.toNat ≤ 122) ∨
      (48 ≤ c.toNat ∧ c.toNat ≤ 57) ∨ 128 ≤ c.toNat := by
  unfold isIdentRune isLetter isDigit at h
  by_cases h128 : c.toNat < 128
  · simp only [h128, if_true, Bool.or_eq_true, Bool.and_eq_true, decide_eq_true_eq,
      beq_iff_eq] at h
    rcases h with (h | h) | h
    · left; rw [h]; rfl
    · rcases h with h | h
      · right; left; exact h
      · right; right; left; exact h
    · right; right; right; left; exact h.1
  · right; right; right; right; omega

/-- A character below 128 that is not a letter, a digit or `_` does not go on an
identifier. -/
theorem not_identCont_of_code (U : Unicode) (c : Char) (h : c.toNat < 128)
    (h1 : c.toNat ≠ 95) (h2 : ¬ (65 ≤ c.toNat ∧ c.toNat ≤ 90))
    (h3 : ¬ (97 ≤ c.toNat ∧ c.toNat ≤ 122)) (h4 : ¬ (48 ≤ c.toNat ∧ c.toNat ≤ 57)) :
    isIdentRune U c 1 = false := by
  cases hc : isIdentRune U c 1 with
  | false => rfl
  | true =>
    rcases identCont_code U c hc with h | h | h | h | h
    · exact absurd h h1
    · exact absurd h h2
    · exact absurd h h3
    · exact absurd h h4
    · omega

theorem whitespace_code (c : Char) (h : isWhitespace c = true) :
    c.toNat = 9 ∨ c.toNat = 10 ∨ c.toNat = 13 ∨ c.toNat = 32 := by
  unfold isWhitespace at h
  simp only [Bool.or_eq_true, beq_iff_eq] at h
  rcases h with ((h | h) | h) | h <;> subst h
  · left; rfl
  · right; left; rfl
  · right; right; left; rfl
  · right; right; right; rfl

theorem glyph_code (c : Char) (h : isGlyph c = true) :
    c.toNat = 35 ∨ c.toNat = 46 ∨ c.toNat = 43 ∨ c.toNat = 33 ∨ c.toNat = 63 ∨ c.toNat = 10 ∨
      c.toNat = 13 := by
  unfold isGlyph at h
  simp only [Bool.or_eq_true, beq_iff_eq] at h
  rcases h with (((((h | h) | h) | h) | h) | h) | h <;> subst h <;> decide

theorem decimal_code (c : Char) : isDecimal c = true ↔ (48 ≤ c.toNat ∧ c.toNat ≤ 57) := by
  unfold isDecimal
  simp

theorem char_eq_of_toNat (c d : Char) (h : c.toNat = d.toNat) : c = d := by
  apply Char.ext
  apply UInt32.ext
  exact h

theorem isWhitespace_of_code (c : Char) (h : c.toNat = 9 ∨ c.toNat = 10 ∨ c.toNat = 13 ∨ c.toNat = 32) :
    isWhitespace c = true := by
  unfold isWhitespace
  simp only [Bool.or_eq_true, beq_iff_eq]
  rcases h with h | h | h | h
  · left; left; left; exact char_eq_of_toNat _ _ h
  · left; left; right; exact char_eq_of_toNat _ _ h
  · left; right; exact char_eq_of_toNat _ _ h
  · right; exact char_eq_of_toNat _ _ h

theorem not_whitespace_of_code (c : Char)
    (h : c.toNat ≠ 9 ∧ c.toNat ≠ 10 ∧ c.toNat ≠ 13 ∧ c.toNat ≠ 32) : isWhitespace c = false := by
  cases hc : isWhitespace c with
  | false => rfl
  | true => have := whitespace_code c hc; omega

theorem not_glyph_of_code (c : Char)
    (h : c.toNat ≠ 35 ∧ c.toNat ≠ 46 ∧ c.toNat ≠ 43 ∧ c.toNat ≠ 33 ∧ c.toNat ≠ 63 ∧ c.toNat ≠ 10 ∧
      c.toNat ≠ 13) : isGlyph c = false := by
  cases hc : isGlyph c with
  | false => rfl
  | true => have := glyph_code c hc; omega

/-! ## What `Scan` reads in the mode of `ParseMoves` -/

theorem dropWhile_blank (ws : Str) (c : Char) (cs : Str) (hws : isBlank ws = true)
    (hc : isWhitespace c = false) :
    (ws ++ c :: cs).dropWhile isWhitespace = c :: cs := by
  unfold isBlank at hws
  rw [List.dropWhile_append_of_pos (by simpa using hws)]
  simp [List.dropWhile_cons, hc]

theorem takeWhile_stop (p : Char → Bool) (l tail : Str) (hl : ∀ x ∈ l, p x = true)
    (ht : ∀ c, tail.head? = some c → p c = false) :
    (l ++ tail).takeWhile p = l ∧ (l ++ tail).dropWhile p = tail := by
  rw [List.takeWhile_append_of_pos hl, List.dropWhile_append_of_pos hl]
  cases tail with
  | nil => simp
  | cons c cs =>
    have := ht c rfl
    simp [List.takeWhile_cons, List.dropWhile_cons, this]

theorem not_whitespace_of_identStart (U : Unicode) (c : Char) (h : isIdentRune U c 0 = true) :
    isWhitespace c = false := by
  apply not_whitespace_of_code
  have := identStart_code U c h
  omega

theorem not_identStart_of_decimal (U : Unicode) (c : Char) (h : isDecimal c = true) :
    isIdentRune U c 0 = false := by
  cases hc : isIdentRune U c 0 with
  | false => rfl
  | true =>
    have := identStart_code U c hc
    have := (decimal_code c).mp h
    omega

theorem not_whitespace_of_decimal (c : Char) (h : isDecimal c = true) :
    isWhitespace c = false := by
  apply not_whitespace_of_code
  have := (decimal_code c).mp h
  omega

/-- `Scan` on identifier-shaped text, after white space and before a character
that does not go on the identifier. -/
theorem Scan_ident (U : Unicode) (ws t tail tok0 : Str) (hws : isBlank ws = true)
    (ht : isIdentText U t = true)
    (htail : ∀ c, tail.head? = some c → isIdentRune U c 1 = false) :
    Scanner.Scan U ⟨ws ++ t ++ tail, tok0, movesMode⟩ = ⟨tail, t, movesMode⟩ := by
  cases t with
  | nil => simp [isIdentText] at ht
  | cons c cs =>
    simp only [isIdentText, Bool.and_eq_true, List.all_eq_true] at ht
    obtain ⟨hc, hcs⟩ := ht
    have hd : (ws ++ (c :: cs) ++ tail).dropWhile isWhitespace = c :: (cs ++ tail) := by
      rw [List.append_assoc, List.cons_append]
      exact dropWhile_blank ws c _ hws (not_whitespace_of_identStart U c hc)
    have hs := takeWhile_stop (fun x => isIdentRune U x 1) cs tail hcs htail
    simp only [Scanner.Scan, scanToken, hd, hc, if_true, movesMode, hs.1, hs.2]

theorem lower_decimal (c : Char) (h : isDecimal c = true) : lower c = c.toNat := by
  have := (decimal_code c).mp h
  unfold lower
  have h2 : ∀ n : Nat, 48 ≤ n → n ≤ 57 → n ||| 32 = n := by
    intro n h1 h2
    interval_cases n <;> rfl
  exact h2 _ this.1 this.2

/-- `scanNumber` on a run of decimal digits, in a mode without floats. -/
theorem scanNumber_digits (n tail : Str) (hn : isNumberText n = true) (ht : numberStop tail) :
    scanNumber false false (n ++ tail) = (n, tail) := by
  cases n with
  | nil => simp [isNumberText] at hn
  | cons c cs =>
    simp only [isNumberText, Bool.and_eq_true, List.all_eq_true] at hn
    obtain ⟨hc, hcs⟩ := hn
    have hp : ∀ x ∈ cs, ((if false = true then isHex x else isDecimal x) || x == '_') = true := by
      intro x hx; simp [hcs x hx]
    have hq : ∀ x, tail.head? = some x →
        ((if false = true then isHex x else isDecimal x) || x == '_') = false := by
      intro x hx
      have := ht x hx
      simp [this.1, this.2.1]
    have hstop := takeWhile_stop _ cs tail hp hq
    have hexp : ∀ l : Str, scanExponent false l = ([], l) := by
      intro l; cases l <;> simp [scanExponent]
    have hfr : ∀ (hex : Bool) (l : Str),
        (match l with
          | c :: cs => if (c == '.' && false) = true then
              (c :: (digits hex cs).1, (digits hex cs).2) else (([], l) : Str × Str)
          | [] => ([], [])) = ([], l) := by
      intro hex l; cases l <;> simp
    unfold scanNumber
    simp only [Bool.false_eq_true, if_false, List.cons_append]
    by_cases h0 : c = '0'
    · subst h0
      simp only [beq_self_eq_true, if_true]
      cases hcs' : cs ++ tail with
      | nil =>
        simp only [List.append_eq_nil] at hcs'
        obtain ⟨rfl, rfl⟩ := hcs'
        simp [digits, scanExponent]
      | cons x xs =>
        have hx : lower x ≠ 120 ∧ lower x ≠ 111 ∧ lower x ≠ 98 := by
          cases cs with
          | nil =>
            simp only [List.nil_append] at hcs'
            have := ht x (by rw [hcs']; rfl)
            exact ⟨this.2.2.1, this.2.2.2.1, this.2.2.2.2⟩
          | cons y ys =>
            simp only [List.cons_append, List.cons.injEq] at hcs'
            obtain ⟨rfl, _⟩ := hcs'
            have hy := hcs y (List.mem_cons_self _ _)
            rw [lower_decimal y hy]
            have := (decimal_code y).mp hy
            omega
        have e1 : (lower x == 120) = false := by simpa using hx.1
        have e2 : (lower x == 111 || lower x == 98) = false := by simp [hx.2.1, hx.2.2]
        simp only [e1, e2, Bool.false_eq_true, if_false]
        rw [← hcs']
        simp only [digits, hstop.1, hstop.2, hfr, hexp]
        cases tail <;> simp
    · have hc0 : (c == '0') = false := by simpa using h0
      simp only [hc0, Bool.false_eq_true, if_false]
      have hp2 : ∀ x ∈ c :: cs, ((if false = true then isHex x else isDecimal x) || x == '_') = true := by
        intro x hx
        rcases List.mem_cons.mp hx with h | h
        · subst h; simp [hc]
        · exact hp x h
      have hstop2 := takeWhile_stop _ (c :: cs) tail hp2 hq
      simp only [List.cons_append] at hstop2
      simp only [digits, hstop2.1, hstop2.2, hfr, hexp]
      cases tail <;> simp

/-- `Scan` on a run of decimal digits. -/
theorem Scan_number (U : Unicode) (ws n tail tok0 : Str) (hws : isBlank ws = true)
    (hn : isNumberText n = true) (ht : numberStop tail) :
    Scanner.Scan U ⟨ws ++ n ++ tail, tok0, movesMode⟩ = ⟨tail, n, movesMode⟩ := by
  have hsn := scanNumber_digits n tail hn ht
  cases n with
  | nil => simp [isNumberText] at hn
  | cons c cs =>
    simp only [isNumberText, Bool.and_eq_true] at hn
    have hc := hn.1
    have hd : (ws ++ (c :: cs) ++ tail).dropWhile isWhitespace = c :: (cs ++ tail) := by
      rw [List.append_assoc, List.cons_append]
      exact dropWhile_blank ws c _ hws (not_whitespace_of_decimal c hc)
    simp only [List.cons_append] at hsn
    simp only [Scanner.Scan, scanToken, hd, not_identStart_of_decimal U c hc, hc, if_true,
      movesMode, Bool.false_eq_true, if_false, Bool.or_false, hsn]

/-- `Scan` on a character that is a token of its own. -/
theorem Scan_single (U : Unicode) (ws : Str) (c : Char) (tail tok0 : Str)
    (hws : isBlank ws = true) (hc : isSingle U c) :
    Scanner.Scan U ⟨ws ++ c :: tail, tok0, movesMode⟩ = ⟨tail, [c], movesMode⟩ := by
  obtain ⟨h1, h2, h3, h4, h5⟩ := hc
  have hd := dropWhile_blank ws c tail hws h1
  have h4' : (c == chDQuote) = false := by simpa using h4
  have h5' : (c == chSQuote) = false := by simpa using h5
  simp only [Scanner.Scan, scanToken, hd, h2, h3, h4', h5', Bool.false_eq_true, if_false, movesMode,
    Bool.and_false]
  by_cases hdot : c = '.'
  · subst hdot
    cases tail <;> simp
  · have hdot' : (c == '.') = false := by simpa using hdot
    simp only [hdot', Bool.false_eq_true, if_false]
    by_cases hsl : c = '/'
    · subst hsl
      cases tail <;> simp
    · have hsl' : (c == '/') = false := by simpa using hsl
      simp only [hsl', Bool.false_eq_true, if_false]
      split <;> rfl

/-- `Scan` on white space up to the end of input. -/
theorem Scan_blank (U : Unicode) (ws tok0 : Str) (m : Mode) (hws : isBlank ws = true) :
    Scanner.Scan U ⟨ws, tok0, m⟩ = ⟨[], [], m⟩ := by
  have : ws.dropWhile isWhitespace = [] := by
    rw [List.dropWhile_eq_nil_iff]
    simpa [isBlank] using hws
  simp only [Scanner.Scan, scanToken, this]

/-! ## The loops on concrete shapes of input -/

theorem isSingle_of_code (U : Unicode) (c : Char) (h : c.toNat < 128)
    (h1 : c.toNat ≠ 95) (h2 : ¬ (65 ≤ c.toNat ∧ c.toNat ≤ 90))
    (h3 : ¬ (97 ≤ c.toNat ∧ c.toNat ≤ 122)) (h4 : ¬ (48 ≤ c.toNat ∧ c.toNat ≤ 57))
    (h5 : c.toNat ≠ 9 ∧ c.toNat ≠ 10 ∧ c.toNat ≠ 13 ∧ c.toNat ≠ 32)
    (h6 : c.toNat ≠ 34 ∧ c.toNat ≠ 39) : isSingle U c := by
  refine ⟨not_whitespace_of_code c h5, ?_, ?_, ?_, ?_⟩
  · cases hc : isIdentRune U c 0 with
    | false => rfl
    | true => have := identStart_code U c hc; omega
  · cases hc : isDecimal c with
    | false => rfl
    | true => have := (decimal_code c).mp hc; omega
  · intro hc; subst hc; exact h6.1 rfl
  · intro hc; subst hc; exact h6.2 rfl

theorem isSingle_dash (U : Unicode) : isSingle U '-' := by
  apply isSingle_of_code <;> decide

theorem isSingle_slash (U : Unicode) : isSingle U '/' := by
  apply isSingle_of_code <;> decide

theorem isSingle_equals (U : Unicode) : isSingle U '=' := by
  apply isSingle_of_code <;> decide

theorem isSingle_star (U : Unicode) : isSingle U '*' := by
  apply isSingle_of_code <;> decide

theorem dashLoop_stop (U : Unicode) (f : Nat) (s : Scanner) (r : Str)
    (h : s.Peek ≠ some '-') : dashLoop U f s r = (s, r) := by
  cases f with
  | zero => rfl
  | succ f => simp only [dashLoop, if_neg h]

theorem dashLoop_succ (U : Unicode) (f : Nat) (s : Scanner) (r : Str)
    (h : s.Peek = some '-') :
    dashLoop U (f + 1) s r =
      dashLoop U f ((s.Scan U).Scan U) (r ++ (s.Scan U).tok ++ ((s.Scan U).Scan U).tok) := by
  simp only [dashLoop, if_pos h, Scanner.TokenText]

theorem slashLoop_stop (U : Unicode) (f : Nat) (s : Scanner) (r : Str)
    (h : s.Peek ≠ some '/') : slashLoop U f s r = (s, r) := by
  cases f with
  | zero => rfl
  | succ f => simp only [slashLoop, if_neg h]

theorem glyphLoop_stop (f : Nat) (s : Scanner) (h : ∀ c, s.Peek = some c → isGlyph c = false) :
    glyphLoop f s = s := by
  cases f with
  | zero => rfl
  | succ f =>
    simp only [glyphLoop]
    cases hp : s.Peek with
    | none => rfl
    | some c => simp [h c hp]

/-- The glyph loop reads a run of glyphs and stops before what follows it. -/
theorem glyphLoop_run (gl tail tok0 : Str) (m : Mode) (f : Nat) (hgl : gl.all isGlyph = true)
    (hne : gl ≠ []) (ht : ∀ c, tail.head? = some c → isGlyph c = false) (hf : gl.length ≤ f) :
    glyphLoop f ⟨gl ++ tail, tok0, m⟩ = ⟨tail, [], m⟩ := by
  induction gl generalizing f tok0 with
  | nil => exact absurd rfl hne
  | cons c cs ih =>
    simp only [List.all_cons, Bool.and_eq_true] at hgl
    cases f with
    | zero => simp at hf
    | succ f =>
      simp only [glyphLoop, Scanner.Peek, List.cons_append, List.head?_cons, hgl.1, if_true,
        Scanner.Next, List.tail_cons]
      by_cases hcs : cs = []
      · subst hcs
        exact glyphLoop_stop f _ (by simpa [Scanner.Peek] using ht)
      · exact ih [] f hgl.2 hcs (by simpa using hf)

theorem spaceLoop_stop (f : Nat) (s : Scanner) (h : s.Peek ≠ some ' ') : spaceLoop f s = s := by
  cases f with
  | zero => rfl
  | succ f => simp only [spaceLoop, if_neg h]

/-- The space loop reads one space and stops before what follows it. -/
theorem spaceLoop_one (tail tok0 : Str) (m : Mode) (f : Nat) (ht : tail.head? ≠ some ' ') :
    spaceLoop (f + 1) ⟨' ' :: tail, tok0, m⟩ = ⟨tail, [], m⟩ := by
  simp only [spaceLoop, Scanner.Peek, List.head?_cons, if_true, Scanner.Next, List.tail_cons]
  exact spaceLoop_stop f _ (by simpa [Scanner.Peek] using ht)

/-- The comment loop reads up to the first closing brace. -/
theorem braceLoop_found (c tail tok0 : Str) (m : Mode) (f : Nat) (hc : chRBrace ∉ c)
    (hf : c.length < f) :
    ∃ tk, braceLoop f ⟨c ++ chRBrace :: tail, tok0, m⟩ = some ⟨chRBrace :: tail, tk, m⟩ := by
  induction c generalizing f tok0 with
  | nil =>
    cases f with
    | zero => simp at hf
    | succ f => exact ⟨tok0, by simp [braceLoop, Scanner.Peek]⟩
  | cons x xs ih =>
    cases f with
    | zero => simp at hf
    | succ f =>
      have hx : x ≠ chRBrace := fun h => hc (by rw [h]; exact List.mem_cons_self _ _)
      have hxs : chRBrace ∉ xs := fun h => hc (List.mem_cons_of_mem _ h)
      obtain ⟨tk, h⟩ := ih [] f hxs (by simpa using hf)
      exact ⟨tk, by
        simp only [braceLoop, Scanner.Peek, List.cons_append, List.head?_cons, if_neg hx,
          Scanner.Next, List.tail_cons]
        exact h⟩

/-- A comment in braces after White's move is read up to and including its
closing brace. -/
theorem skipComment_braces (c tail tok0 : Str) (m : Mode) (hc : chRBrace ∉ c) :
    skipComment ⟨chLBrace :: c ++ chRBrace :: tail, tok0, m⟩ = some ⟨tail, [], m⟩ := by
  have hc2 : chRBrace ∉ chLBrace :: c := by
    intro h
    rcases List.mem_cons.mp h with h | h
    · exact absurd h (by decide)
    · exact hc h
  obtain ⟨tk, h⟩ := braceLoop_found (chLBrace :: c) tail tok0 m
    (chLBrace :: c ++ chRBrace :: tail).length hc2 (by simp)
  unfold skipComment
  simp only [Scanner.Peek, List.cons_append, List.head?_cons, if_true]
  simp only [List.cons_append] at h
  rw [h]
  simp [Scanner.Next]

theorem skipComment_none (s : Scanner) (h : s.Peek ≠ some chLBrace) : skipComment s = some s := by
  unfold skipComment
  rw [if_neg h]

/-! ## `ParseMoveOrResult` on move tokens and result markers -/

theorem numberStop_of_startsBlank (tail : Str) (h : startsBlank tail = true) : numberStop tail := by
  intro c hc
  cases tail with
  | nil => simp at hc
  | cons x xs =>
    simp only [List.head?_cons, Option.some.injEq] at hc
    subst hc
    simp only [startsBlank] at h
    have hcode := whitespace_code x h
    refine ⟨?_, ?_, ?_, ?_, ?_⟩
    · cases hd : isDecimal x with
      | false => rfl
      | true => have := (decimal_code x).mp hd; omega
    · intro hx; subst hx; revert hcode; decide
    · unfold lower; rcases hcode with h | h | h | h <;> rw [h] <;> decide
    · unfold lower; rcases hcode with h | h | h | h <;> rw [h] <;> decide
    · unfold lower; rcases hcode with h | h | h | h <;> rw [h] <;> decide

theorem startsBlank_of_spaceOrEnd (tail : Str) (h : spaceOrEnd tail) : startsBlank tail = true := by
  rcases h with h | ⟨t, h⟩ <;> subst h <;> rfl

theorem head_of_startsBlank (tail : Str) (h : startsBlank tail = true) (c : Char)
    (hc : tail.head? = some c) : isWhitespace c = true := by
  cases tail with
  | nil => simp at hc
  | cons x xs =>
    simp only [List.head?_cons, Option.some.injEq] at hc
    subst hc
    exact h

theorem head_ne_of_startsBlank (tail : Str) (h : startsBlank tail = true) (c : Char)
    (hc : isWhitespace c = false) : tail.head? ≠ some c := by
  intro hh
  have := head_of_startsBlank tail h c hh
  rw [hc] at this
  exact absurd this (by decide)

theorem not_identCont_of_whitespace (U : Unicode) (c : Char) (h : isWhitespace c = true) :
    isIdentRune U c 1 = false := by
  have := whitespace_code c h
  apply not_identCont_of_code <;> omega

theorem identStop_of_startsBlank (U : Unicode) (tail : Str) (h : startsBlank tail = true) :
    ∀ c, tail.head? = some c → isIdentRune U c 1 = false := by
  intro c hc
  exact not_identCont_of_whitespace U c (head_of_startsBlank tail h c hc)

/-- `ParseMoveOrResult` before a character that is not `-`, `/` or `=`: the
token text, and the glyphs after it read. -/
theorem ParseMoveOrResult_simple (U : Unicode) (s : Scanner) (h1 : s.Peek ≠ some '-')
    (h2 : s.Peek ≠ some '/') (h3 : s.Peek ≠ some '=') :
    ParseMoveOrResult U s = (s.tok, glyphLoop s.rest.length s) := by
  unfold ParseMoveOrResult
  simp only [dashLoop_stop U _ s _ h1, slashLoop_stop U _ s _ h2, if_neg h3, Scanner.TokenText]

/-- `ParseMoveOrResult` before a space or the end of input: the token text,
nothing read. -/
theorem ParseMoveOrResult_plain (U : Unicode) (tail t : Str) (m : Mode)
    (h : startsBlank tail = true) (hg : ∀ c, tail.head? = some c → isGlyph c = false) :
    ParseMoveOrResult U ⟨tail, t, m⟩ = (t, ⟨tail, t, m⟩) := by
  rw [ParseMoveOrResult_simple U ⟨tail, t, m⟩ (head_ne_of_startsBlank tail h '-' (by decide))
    (head_ne_of_startsBlank tail h '/' (by decide)) (head_ne_of_startsBlank tail h '=' (by decide))]
  rw [glyphLoop_stop _ _ (by simpa [Scanner.Peek] using hg)]

theorem glyphStop_of_spaceOrEnd (tail : Str) (h : spaceOrEnd tail) :
    ∀ c, tail.head? = some c → isGlyph c = false := by
  intro c hc
  rcases h with h | ⟨t, h⟩ <;> subst h
  · simp at hc
  · simp only [List.head?_cons, Option.some.injEq] at hc
    subst hc
    decide

theorem isIdentText_letter (U : Unicode) (p : Char) (h : isPieceLetter p = true) :
    isIdentText U [p] = true := by
  unfold isPieceLetter at h
  simp only [Bool.or_eq_true, beq_iff_eq] at h
  have hl : isIdentRune U p 0 = true := by
    rcases h with ((((((((((h | h) | h) | h) | h) | h) | h) | h) | h) | h) | h) | h <;> subst h <;>
      simp [isIdentRune, isLetter]
  simp [isIdentText, hl]

theorem isIdentText_O (U : Unicode) : isIdentText U ['O'] = true := by
  simp [isIdentText, isIdentRune, isLetter]

/-- The tokenizer on a move token that a space or the end of input follows:
`Scan` and `ParseMoveOrResult` give back the token and leave what follows. -/
theorem scan_moveToken (U : Unicode) (w : Str) (hw : MoveToken U w) (ws tail tok0 : Str)
    (hws : isBlank ws = true) (ht : spaceOrEnd tail) :
    ∃ tk, ParseMoveOrResult U (Scanner.Scan U ⟨ws ++ w ++ tail, tok0, movesMode⟩) =
      (w, ⟨tail, tk, movesMode⟩) := by
  have hsb := startsBlank_of_spaceOrEnd tail ht
  have hgs := glyphStop_of_spaceOrEnd tail ht
  have hdash : ∀ c, (('-' :: c) : Str).head? = some '-' := fun _ => rfl
  cases hw with
  | ident t hid =>
    rw [Scan_ident U ws w tail tok0 hws hid (identStop_of_startsBlank U tail hsb)]
    exact ⟨w, ParseMoveOrResult_plain U tail w movesMode hsb hgs⟩
  | promo t p hid hp =>
    refine ⟨[p], ?_⟩
    have h1 : Scanner.Scan U ⟨ws ++ (t ++ ['=', p]) ++ tail, tok0, movesMode⟩ =
        ⟨'=' :: p :: tail, t, movesMode⟩ := by
      have := Scan_ident U ws t ('=' :: p :: tail) tok0 hws hid (by
        intro c hc
        simp only [List.head?_cons, Option.some.injEq] at hc
        subst hc
        apply not_identCont_of_code <;> decide)
      simpa [List.append_assoc] using this
    rw [h1]
    have h2 : Scanner.Scan U ⟨'=' :: p :: tail, t, movesMode⟩ = ⟨p :: tail, ['='], movesMode⟩ :=
      Scan_single U [] '=' (p :: tail) t rfl (isSingle_equals U)
    have h3 : Scanner.Scan U ⟨p :: tail, ['='], movesMode⟩ = ⟨tail, [p], movesMode⟩ := by
      have := Scan_ident U [] [p] tail ['='] rfl (isIdentText_letter U p hp)
        (identStop_of_startsBlank U tail hsb)
      simpa using this
    unfold ParseMoveOrResult
    simp only [dashLoop_stop U _ ⟨'=' :: p :: tail, t, movesMode⟩ _ (by simp [Scanner.Peek]),
      slashLoop_stop U _ ⟨'=' :: p :: tail, t, movesMode⟩ _ (by simp [Scanner.Peek]),
      Scanner.Peek, List.head?_cons, if_true, h2, h3, Scanner.TokenText]
    rw [glyphLoop_stop _ _ (by simpa [Scanner.Peek] using hgs)]
    simp
  | castleShort =>
    refine ⟨['O'], ?_⟩
    have h1 : Scanner.Scan U ⟨ws ++ ['O', '-', 'O'] ++ tail, tok0, movesMode⟩ =
        ⟨'-' :: 'O' :: tail, ['O'], movesMode⟩ := by
      have := Scan_ident U ws ['O'] ('-' :: 'O' :: tail) tok0 hws (isIdentText_O U) (by
        intro c hc
        simp only [List.head?_cons, Option.some.injEq] at hc
        subst hc
        apply not_identCont_of_code <;> decide)
      simpa [List.append_assoc] using this
    rw [h1]
    have h2 : Scanner.Scan U ⟨'-' :: 'O' :: tail, ['O'], movesMode⟩ =
        ⟨'O' :: tail, ['-'], movesMode⟩ :=
      Scan_single U [] '-' ('O' :: tail) _ rfl (isSingle_dash U)
    have h3 : Scanner.Scan U ⟨'O' :: tail, ['-'], movesMode⟩ = ⟨tail, ['O'], movesMode⟩ := by
      have := Scan_ident U [] ['O'] tail ['-'] rfl (isIdentText_O U)
        (identStop_of_startsBlank U tail hsb)
      simpa using this
    have hne1 := head_ne_of_startsBlank tail hsb '-' (by decide)
    have hne2 := head_ne_of_startsBlank tail hsb '/' (by decide)
    have hne3 := head_ne_of_startsBlank tail hsb '=' (by decide)
    unfold ParseMoveOrResult
    simp only [List.length_cons, Scanner.TokenText]
    rw [dashLoop_succ U _ ⟨'-' :: 'O' :: tail, ['O'], movesMode⟩ _ rfl, h2, h3,
      dashLoop_stop U _ ⟨tail, ['O'], movesMode⟩ _ (by simpa [Scanner.Peek] using hne1)]
    simp only [slashLoop_stop U _ ⟨tail, ['O'], movesMode⟩ _ (by simpa [Scanner.Peek] using hne2),
      if_neg (show (⟨tail, ['O'], movesMode⟩ : Scanner).Peek ≠ some '=' by
        simpa [Scanner.Peek] using hne3)]
    rw [glyphLoop_stop _ _ (by simpa [Scanner.Peek] using hgs)]
    simp
  | castleLong =>
    refine ⟨['O'], ?_⟩
    have h1 : Scanner.Scan U ⟨ws ++ ['O', '-', 'O', '-', 'O'] ++ tail, tok0, movesMode⟩ =
        ⟨'-' :: 'O' :: '-' :: 'O' :: tail, ['O'], movesMode⟩ := by
      have := Scan_ident U ws ['O'] ('-' :: 'O' :: '-' :: 'O' :: tail) tok0 hws (isIdentText_O U) (by
        intro c hc
        simp only [List.head?_cons, Option.some.injEq] at hc
        subst hc
        apply not_identCont_of_code <;> decide)
      simpa [List.append_assoc] using this
    rw [h1]
    have h2 : ∀ (tl tk : Str), Scanner.Scan U ⟨'-' :: tl, tk, movesMode⟩ =
        ⟨tl, ['-'], movesMode⟩ :=
      fun tl tk => Scan_single U [] '-' tl _ rfl (isSingle_dash U)
    have h3 : Scanner.Scan U ⟨'O' :: '-' :: 'O' :: tail, ['-'], movesMode⟩ =
        ⟨'-' :: 'O' :: tail, ['O'], movesMode⟩ := by
      have := Scan_ident U [] ['O'] ('-' :: 'O' :: tail) ['-'] rfl (isIdentText_O U) (by
        intro c hc
        simp only [List.head?_cons, Option.some.injEq] at hc
        subst hc
        apply not_identCont_of_code <;> decide)
      simpa using this
    have h4 : Scanner.Scan U ⟨'O' :: tail, ['-'], movesMode⟩ = ⟨tail, ['O'], movesMode⟩ := by
      have := Scan_ident U [] ['O'] tail ['-'] rfl (isIdentText_O U)
        (identStop_of_startsBlank U tail hsb)
      simpa using this
    have hne1 := head_ne_of_startsBlank tail hsb '-' (by decide)
    have hne2 := head_ne_of_startsBlank tail hsb '/' (by decide)
    have hne3 := head_ne_of_startsBlank tail hsb '=' (by decide)
    unfold ParseMoveOrResult
    simp only [List.length_cons, Scanner.TokenText]
    rw [dashLoop_succ U _ ⟨'-' :: 'O' :: '-' :: 'O' :: tail, ['O'], movesMode⟩ _ rfl, h2, h3,
      dashLoop_succ U _ ⟨'-' :: 'O' :: tail, ['O'], movesMode⟩ _ rfl, h2, h4,
      dashLoop_stop U _ ⟨tail, ['O'], movesMode⟩ _ (by simpa [Scanner.Peek] using hne1)]
    simp only [slashLoop_stop U _ ⟨tail, ['O'], movesMode⟩ _ (by simpa [Scanner.Peek] using hne2),
      if_neg (show (⟨tail, ['O'], movesMode⟩ : Scanner).Peek ≠ some '=' by
        simpa [Scanner.Peek] using hne3)]
    rw [glyphLoop_stop _ _ (by simpa [Scanner.Peek] using hgs)]
    simp

theorem isGlyph_of_annotGlyph (c : Char) (h : isAnnotGlyph c = true) : isGlyph c = true := by
  unfold isAnnotGlyph at h
  simp only [Bool.or_eq_true, beq_iff_eq] at h
  rcases h with ((h | h) | h) | h <;> subst h <;> decide

theorem annotGlyph_code (c : Char) (h : isAnnotGlyph c = true) :
    c.toNat = 43 ∨ c.toNat = 35 ∨ c.toNat = 33 ∨ c.toNat = 63 := by
  unfold isAnnotGlyph at h
  simp only [Bool.or_eq_true, beq_iff_eq] at h
  rcases h with ((h | h) | h) | h <;> subst h <;> decide

/-- What follows the token in C10: glyphs, then a space or the end. -/
theorem glyphs_then_blank (g tail : Str) (hg : g.all isAnnotGlyph = true) (ht : spaceOrEnd tail)
    (c : Char) (hc : (g ++ tail).head? = some c) :
    c.toNat = 43 ∨ c.toNat = 35 ∨ c.toNat = 33 ∨ c.toNat = 63 ∨ c.toNat = 32 := by
  cases g with
  | nil =>
    rcases ht with h | ⟨t, h⟩ <;> subst h
    · simp at hc
    · simp only [List.nil_append, List.head?_cons, Option.some.injEq] at hc
      subst hc
      decide
  | cons x xs =>
    simp only [List.cons_append, List.head?_cons, Option.some.injEq] at hc
    subst hc
    simp only [List.all_cons, Bool.and_eq_true] at hg
    have := annotGlyph_code x hg.1
    omega

theorem glyphLoop_annotations (g tail tok0 : Str) (m : Mode) (hg : g.all isAnnotGlyph = true)
    (ht : spaceOrEnd tail) :
    ∃ tk, glyphLoop (g ++ tail).length ⟨g ++ tail, tok0, m⟩ = ⟨tail, tk, m⟩ := by
  by_cases hne : g = []
  · subst hne
    exact ⟨tok0, glyphLoop_stop _ _ (by simpa [Scanner.Peek] using glyphStop_of_spaceOrEnd tail ht)⟩
  · refine ⟨[], glyphLoop_run g tail tok0 m _ ?_ hne (glyphStop_of_spaceOrEnd tail ht) (by simp)⟩
    rw [List.all_eq_true] at hg ⊢
    intro x hx
    exact isGlyph_of_annotGlyph x (hg x hx)

/-- C10: when the scanner has just scanned the token text `T` and the unread
input is an optional promotion suffix `=P` with `P` a piece letter, then a run
of the glyphs `+`, `#`, `!`, `?`, then a space or the end of input,
`ParseMoveOrResult` returns `T` followed by the suffix, with no glyph; it leaves
the scanner right after the glyphs, where the look-ahead is none of `#`, `.`,
`+`, `!`, `?`, newline, carriage return. -/
theorem ParseMoveOrResult_strips_glyphs (U : Unicode) (T : Str) (sfx : Option Char)
    (g tail : Str) (hp : ∀ p, sfx = some p → isPieceLetter p = true)
    (hg : g.all isAnnotGlyph = true) (ht : spaceOrEnd tail) :
    ∃ s1, ParseMoveOrResult U ⟨promoText sfx ++ g ++ tail, T, movesMode⟩ = (T ++ promoText sfx, s1) ∧
      s1.rest = tail ∧ ∀ c, s1.Peek = some c → isGlyph c = false := by
  have hstop := glyphStop_of_spaceOrEnd tail ht
  cases sfx with
  | none =>
    simp only [promoText, List.nil_append, List.append_nil]
    have hhead := glyphs_then_blank g tail hg ht
    have hne : ∀ d : Char, d.toNat ≠ 43 ∧ d.toNat ≠ 35 ∧ d.toNat ≠ 33 ∧ d.toNat ≠ 63 ∧ d.toNat ≠ 32 →
        (⟨g ++ tail, T, movesMode⟩ : Scanner).Peek ≠ some d := by
      intro d hd hpk
      have := hhead d hpk
      omega
    rw [ParseMoveOrResult_simple U _ (hne '-' (by decide)) (hne '/' (by decide))
      (hne '=' (by decide))]
    obtain ⟨tk, h⟩ := glyphLoop_annotations g tail T movesMode hg ht
    exact ⟨_, by rw [h], rfl, by simpa [Scanner.Peek] using hstop⟩
  | some p =>
    have hpl := hp p rfl
    simp only [promoText, List.cons_append, List.nil_append]
    have h2 : Scanner.Scan U ⟨'=' :: p :: (g ++ tail), T, movesMode⟩ =
        ⟨p :: (g ++ tail), ['='], movesMode⟩ :=
      Scan_single U [] '=' _ T rfl (isSingle_equals U)
    have h3 : Scanner.Scan U ⟨p :: (g ++ tail), ['='], movesMode⟩ = ⟨g ++ tail, [p], movesMode⟩ := by
      have := Scan_ident U [] [p] (g ++ tail) ['='] rfl (isIdentText_letter U p hpl) (by
        intro c hc
        have := glyphs_then_blank g tail hg ht c hc
        apply not_identCont_of_code <;> omega)
      simpa using this
    obtain ⟨tk, h⟩ := glyphLoop_annotations g tail [p] movesMode hg ht
    refine ⟨⟨tail, tk, movesMode⟩, ?_, rfl, by simpa [Scanner.Peek] using hstop⟩
    unfold ParseMoveOrResult
    simp only [dashLoop_stop U _ ⟨'=' :: p :: (g ++ tail), T, movesMode⟩ _ (by simp [Scanner.Peek]),
      slashLoop_stop U _ ⟨'=' :: p :: (g ++ tail), T, movesMode⟩ _ (by simp [Scanner.Peek]),
      Scanner.Peek, List.head?_cons, if_true, h2, h3, Scanner.TokenText, h]
    simp

/-- The witness of C10: `e8` scanned, `=Q+!` and a space unread. -/
theorem ParseMoveOrResult_strips_glyphs_witness :
    ∃ s1, ParseMoveOrResult Unicode.ascii
        ⟨promoText (some 'Q') ++ ['+', '!'] ++ [' ', 'e', '5'], ['e', '8'], movesMode⟩ =
        (['e', '8'] ++ promoText (some 'Q'), s1) ∧
      s1.rest = [' ', 'e', '5'] ∧ ∀ c, s1.Peek = some c → isGlyph c = false :=
  ParseMoveOrResult_strips_glyphs Unicode.ascii ['e', '8'] (some 'Q') ['+', '!'] [' ', 'e', '5']
    (by intro p hp; cases hp; decide) (by decide) (Or.inr ⟨_, rfl⟩)

/-! ## Rounds of the main loop on concrete shapes of input -/

theorem whiteSlot_eq {B E : Type} (U : Unicode) (api : BoardAPI B E) (st : MovesState B E)
    (s1 : Scanner) :
    whiteSlot U api st s1 =
      if isEnd (ParseMoveOrResult U s1).1 then
        .ret none { st with s := (ParseMoveOrResult U s1).2, white := (ParseMoveOrResult U s1).1 }
      else whiteAfter U api st (ParseMoveOrResult U s1).1
        (spaceLoop (ParseMoveOrResult U s1).2.rest.length (ParseMoveOrResult U s1).2) := rfl

/-- The default case of the main loop. -/
theorem movesStep_default {B E : Type} (U : Unicode) (api : BoardAPI B E) (st : MovesState B E)
    (r : Char) (hrun : st.run = some r) (hr : defaultRun r) :
    movesStep U api st =
      if (st.s.Scan U).TokenText = [chLBrace] then
        .next { st with s := st.s.Scan U, run := some chLBrace }
      else if st.num = [] then numSlot U st (st.s.Scan U)
      else if st.white = [] then whiteSlot U api st (st.s.Scan U)
      else if st.black = [] then blackSlot U api st (st.s.Scan U)
      else .next { st with s := st.s.Scan U, run := (st.s.Scan U).Peek } := by
  obtain ⟨h1, h2, h3⟩ := hr
  unfold movesStep
  rw [hrun]
  simp only [if_neg h1, if_neg h2, h3, Bool.false_eq_true, if_false]

theorem isEnd_head (str : Str) (h : isEnd str = true) :
    str.head? = some '1' ∨ str.head? = some '0' ∨ str.head? = some '*' := by
  unfold isEnd at h
  split at h
  · rename_i h1; subst h1; left; rfl
  · split at h
    · rename_i h1; subst h1; right; left; rfl
    · split at h
      · rename_i h1; subst h1; left; rfl
      · split at h
        · rename_i h1; subst h1; right; right; rfl
        · simp at h

theorem isEnd_iff (str : Str) : isEnd str = true ↔ str ∈ resultMarkers := by
  unfold isEnd resultMarkers
  constructor
  · intro h
    split at h
    · rename_i h1; subst h1; simp
    · split at h
      · rename_i h1; subst h1; simp
      · split at h
        · rename_i h1; subst h1; simp
        · split at h
          · rename_i h1; subst h1; simp
          · simp at h
  · intro h
    simp only [List.mem_cons, List.mem_singleton, List.not_mem_nil, or_false] at h
    rcases h with h | h | h | h <;> subst h <;> rfl

theorem MoveToken.head {U : Unicode} {w : Str} (hw : MoveToken U w) :
    ∃ c cs, w = c :: cs ∧ isIdentRune U c 0 = true := by
  cases hw with
  | ident _ hid =>
    cases w with
    | nil => simp [isIdentText] at hid
    | cons c cs =>
      simp only [isIdentText, Bool.and_eq_true] at hid
      exact ⟨c, cs, rfl, hid.1⟩
  | promo t p hid hp =>
    cases t with
    | nil => simp [isIdentText] at hid
    | cons c cs =>
      simp only [isIdentText, Bool.and_eq_true] at hid
      exact ⟨c, cs ++ ['=', p], rfl, hid.1⟩
  | castleShort => exact ⟨'O', _, rfl, by simp [isIdentRune, isLetter]⟩
  | castleLong => exact ⟨'O', _, rfl, by simp [isIdentRune, isLetter]⟩

theorem MoveToken.not_isEnd {U : Unicode} {w : Str} (hw : MoveToken U w) : isEnd w = false := by
  obtain ⟨c, cs, rfl, hc⟩ := hw.head
  cases h : isEnd (c :: cs) with
  | false => rfl
  | true =>
    have hcode := identStart_code U c hc
    rcases isEnd_head _ h with h1 | h1 | h1 <;>
      (simp only [List.head?_cons, Option.some.injEq] at h1; subst h1; revert hcode; decide)

theorem MoveToken.ne_nil {U : Unicode} {w : Str} (hw : MoveToken U w) : w ≠ [] := by
  obtain ⟨c, cs, rfl, _⟩ := hw.head
  simp

theorem defaultRun_identStart (U : Unicode) (c : Char) (h : isIdentRune U c 0 = true) :
    defaultRun c := by
  have hcode := identStart_code U c h
  refine ⟨?_, ?_, ?_⟩
  · intro hc; subst hc; revert hcode; decide
  · intro hc; subst hc; revert hcode; decide
  · apply not_glyph_of_code; omega

theorem defaultRun_decimal (c : Char) (h : isDecimal c = true) : defaultRun c := by
  have hcode := (decimal_code c).mp h
  refine ⟨?_, ?_, ?_⟩
  · intro hc; subst hc; revert hcode; decide
  · intro hc; subst hc; revert hcode; decide
  · apply not_glyph_of_code; omega

theorem defaultRun_space : defaultRun ' ' := by
  refine ⟨by decide, by decide, by decide⟩

theorem defaultRun_star : defaultRun '*' := by
  refine ⟨by decide, by decide, by decide⟩

theorem isNumberText_head {n : Str} (hn : isNumberText n = true) :
    ∃ c cs, n = c :: cs ∧ isDecimal c = true := by
  cases n with
  | nil => simp [isNumberText] at hn
  | cons c cs =>
    simp only [isNumberText, Bool.and_eq_true] at hn
    exact ⟨c, cs, rfl, hn.1⟩

theorem isNumberText_not_isEnd {n : Str} (hn : isNumberText n = true) : isEnd n = false := by
  cases h : isEnd n with
  | false => rfl
  | true =>
    have := (isEnd_iff n).mp h
    simp only [resultMarkers, List.mem_cons, List.mem_singleton, List.not_mem_nil, or_false] at this
    rcases this with h1 | h1 | h1 | h1 <;> subst h1 <;> revert hn <;> decide

theorem numberStop_dot (tail : Str) : numberStop ('.' :: tail) := by
  intro c hc
  simp only [List.head?_cons, Option.some.injEq] at hc
  subst hc
  refine ⟨by decide, by decide, by decide, by decide, by decide⟩

/-- The round that reads a move number: the number goes to `num`, and the
period after it is next. -/
theorem step_number {B E : Type} (U : Unicode) (api : BoardAPI B E) (st : MovesState B E)
    (r : Char) (ws n tail : Str) (hrun : st.run = some r) (hr : defaultRun r)
    (hnum : st.num = []) (hmode : st.s.mode = movesMode)
    (hrest : st.s.rest = ws ++ n ++ '.' :: tail) (hws : isBlank ws = true)
    (hn : isNumberText n = true) :
    movesStep U api st =
      .next { st with s := ⟨'.' :: tail, n, movesMode⟩, num := n, run := some '.' } := by
  have hs : st.s = ⟨ws ++ n ++ '.' :: tail, st.s.tok, movesMode⟩ := by
    rw [← hrest, ← hmode]
  have hscan : st.s.Scan U = ⟨'.' :: tail, n, movesMode⟩ := by
    rw [hs]; exact Scan_number U ws n _ _ hws hn (numberStop_dot tail)
  obtain ⟨c, cs, hc, hcd⟩ := isNumberText_head hn
  have hne : n ≠ [chLBrace] := by
    rw [hc]; intro h
    simp only [List.cons.injEq] at h
    rw [h.1] at hcd
    revert hcd; decide
  rw [movesStep_default U api st r hrun hr, hscan]
  simp only [Scanner.TokenText, if_neg hne, if_pos hnum]
  unfold numSlot
  simp only [Scanner.TokenText]
  rw [dashLoop_stop U _ _ _ (by simp [Scanner.Peek]), slashLoop_stop U _ _ _ (by simp [Scanner.Peek])]
  simp [isNumberText_not_isEnd hn, Scanner.Peek]

/-- The round that reads the period after a move number. -/
theorem step_glyph {B E : Type} (U : Unicode) (api : BoardAPI B E) (st : MovesState B E)
    (c : Char) (hrun : st.run = some c) (hc : isGlyph c = true) :
    movesStep U api st = .next { st with s := st.s.Next.2, run := st.s.Next.2.Peek } := by
  have hcode := glyph_code c hc
  have h1 : c ≠ '(' := by intro h; subst h; revert hcode; decide
  have h2 : c ≠ chLBrace := by intro h; subst h; revert hcode; decide
  unfold movesStep
  rw [hrun]
  simp only [if_neg h1, if_neg h2, hc, if_true]

theorem blackSlot_eq {B E : Type} (U : Unicode) (api : BoardAPI B E) (st : MovesState B E)
    (s1 : Scanner) :
    blackSlot U api st s1 =
      if isEnd (ParseMoveOrResult U s1).1 then
        .ret none { st with s := (ParseMoveOrResult U s1).2, black := (ParseMoveOrResult U s1).1 }
      else blackAfter api st (ParseMoveOrResult U s1).1 (ParseMoveOrResult U s1).2 := rfl

/-- The token `Scan` reads at an identifier start begins with that character. -/
theorem Scan_identStart_tok (U : Unicode) (ws : Str) (c : Char) (cs tok0 : Str)
    (hws : isBlank ws = true) (hc : isIdentRune U c 0 = true) :
    (Scanner.Scan U ⟨ws ++ c :: cs, tok0, movesMode⟩).tok =
      c :: cs.takeWhile (fun x => isIdentRune U x 1) := by
  have hd := dropWhile_blank ws c cs hws (not_whitespace_of_identStart U c hc)
  simp only [Scanner.Scan, scanToken, hd, hc, if_true, movesMode]

theorem Scan_moveToken_tok (U : Unicode) (w : Str) (hw : MoveToken U w) (ws tail tok0 : Str)
    (hws : isBlank ws = true) :
    (Scanner.Scan U ⟨ws ++ w ++ tail, tok0, movesMode⟩).TokenText ≠ [chLBrace] := by
  obtain ⟨c, cs, rfl, hc⟩ := hw.head
  have := Scan_identStart_tok U ws c (cs ++ tail) tok0 hws hc
  simp only [List.append_assoc, List.cons_append] at this ⊢
  rw [Scanner.TokenText, this]
  intro h
  simp only [List.cons.injEq] at h
  have hcode := identStart_code U c hc
  rw [h.1] at hcode
  revert hcode; decide

/-- The round that reads White's move: the text is tokenized and the space
after it read; what is left is the comment test and the call of the resolver. -/
theorem step_white {B E : Type} (U : Unicode) (api : BoardAPI B E) (st : MovesState B E)
    (r : Char) (ws W X : Str) (hrun : st.run = some r) (hr : defaultRun r)
    (hnum : st.num ≠ []) (hwhite : st.white = []) (hmode : st.s.mode = movesMode)
    (hrest : st.s.rest = ws ++ W ++ ' ' :: X) (hws : isBlank ws = true)
    (hW : MoveToken U W) (hX : X.head? ≠ some ' ') :
    movesStep U api st = whiteAfter U api st W ⟨X, [], movesMode⟩ := by
  have hs : st.s = ⟨ws ++ W ++ ' ' :: X, st.s.tok, movesMode⟩ := by
    rw [← hrest, ← hmode]
  obtain ⟨tk, hpm⟩ := scan_moveToken U W hW ws (' ' :: X) st.s.tok hws (Or.inr ⟨X, rfl⟩)
  have htok := Scan_moveToken_tok U W hW ws (' ' :: X) st.s.tok hws
  rw [← hs] at hpm htok
  rw [movesStep_default U api st r hrun hr, if_neg htok, if_neg hnum, if_pos hwhite, whiteSlot_eq,
    hpm]
  simp only [hW.not_isEnd, Bool.false_eq_true, if_false, List.length_cons]
  rw [spaceLoop_one X tk movesMode _ hX]

/-- The round that reads Black's move: the text is tokenized; what is left is
the call of the resolver. -/
theorem step_black {B E : Type} (U : Unicode) (api : BoardAPI B E) (st : MovesState B E)
    (r : Char) (ws Bk tail : Str) (hrun : st.run = some r) (hr : defaultRun r)
    (hnum : st.num ≠ []) (hwhite : st.white ≠ []) (hblack : st.black = [])
    (hmode : st.s.mode = movesMode)
    (hrest : st.s.rest = ws ++ Bk ++ tail) (hws : isBlank ws = true)
    (hB : MoveToken U Bk) (ht : spaceOrEnd tail) :
    ∃ tk, movesStep U api st = blackAfter api st Bk ⟨tail, tk, movesMode⟩ := by
  have hs : st.s = ⟨ws ++ Bk ++ tail, st.s.tok, movesMode⟩ := by
    rw [← hrest, ← hmode]
  obtain ⟨tk, hpm⟩ := scan_moveToken U Bk hB ws tail st.s.tok hws ht
  have htok := Scan_moveToken_tok U Bk hB ws tail st.s.tok hws
  rw [← hs] at hpm htok
  refine ⟨tk, ?_⟩
  rw [movesStep_default U api st r hrun hr, if_neg htok, if_neg hnum, if_neg hwhite,
    if_pos hblack, blackSlot_eq, hpm]
  simp only [hB.not_isEnd, Bool.false_eq_true, if_false]

/-! ## The result markers -/

theorem slashLoop_succ (U : Unicode) (f : Nat) (s : Scanner) (r : Str)
    (h : s.Peek = some '/') :
    slashLoop U (f + 1) s r =
      slashLoop U f ((((((s.Scan U).Scan U).Scan U).Scan U).Scan U).Scan U)
        (r ++ (s.Scan U).tok ++ ((s.Scan U).Scan U).tok ++ (((s.Scan U).Scan U).Scan U).tok
          ++ ((((s.Scan U).Scan U).Scan U).Scan U).tok
          ++ (((((s.Scan U).Scan U).Scan U).Scan U).Scan U).tok
          ++ ((((((s.Scan U).Scan U).Scan U).Scan U).Scan U).Scan U).tok) := by
  simp only [slashLoop, if_pos h, Scanner.TokenText]

theorem numberStop_of_single (U : Unicode) (c : Char) (tail : Str) (h : isSingle U c)
    (h1 : c.toNat < 64) : numberStop (c :: tail) := by
  intro d hd
  simp only [List.head?_cons, Option.some.injEq] at hd
  subst hd
  obtain ⟨_, hid, hdec, _, _⟩ := h
  refine ⟨hdec, ?_, ?_, ?_, ?_⟩
  · intro hc; rw [hc] at h1; revert h1; decide
  all_goals
    unfold lower
    intro hl
    have h2 : c.toNat ||| 32 < 64 := Nat.or_lt_two_pow (n := 6) h1 (by decide)
    omega

/-- A digit of a result marker, scanned before what follows it. -/
theorem Scan_digit (U : Unicode) (ws : Str) (d : Char) (tail tok0 : Str) (hws : isBlank ws = true)
    (hd : isDecimal d = true) (ht : numberStop tail) :
    Scanner.Scan U ⟨ws ++ d :: tail, tok0, movesMode⟩ = ⟨tail, [d], movesMode⟩ := by
  have := Scan_number U ws [d] tail tok0 hws (by simp [isNumberText, hd]) ht
  simpa [List.append_assoc] using this

/-- The loops that join the tokens of a result marker, after its first token
has been scanned: the text is the marker, and the input is read up to its end. -/
theorem marker_loops (U : Unicode) (r : Str) (hr : r ∈ resultMarkers) (ws tail tok0 : Str)
    (hws : isBlank ws = true) (ht : startsBlank tail = true) :
    ∃ tk,
      let s1 := Scanner.Scan U ⟨ws ++ r ++ tail, tok0, movesMode⟩
      let a := dashLoop U s1.rest.length s1 s1.TokenText
      slashLoop U a.1.rest.length a.1 a.2 = (⟨tail, tk, movesMode⟩, r) ∧
        s1.TokenText ≠ [chLBrace] := by
  have hns := numberStop_of_startsBlank tail ht
  have hne1 := head_ne_of_startsBlank tail ht '-' (by decide)
  have hne2 := head_ne_of_startsBlank tail ht '/' (by decide)
  have sdash : ∀ (tl tk : Str), Scanner.Scan U ⟨'-' :: tl, tk, movesMode⟩ =
      ⟨tl, ['-'], movesMode⟩ := fun tl tk => Scan_single U [] '-' tl _ rfl (isSingle_dash U)
  have sslash : ∀ (tl tk : Str), Scanner.Scan U ⟨'/' :: tl, tk, movesMode⟩ =
      ⟨tl, ['/'], movesMode⟩ := fun tl tk => Scan_single U [] '/' tl _ rfl (isSingle_slash U)
  have sdig : ∀ (d : Char) (tl tk : Str), isDecimal d = true → numberStop tl →
      Scanner.Scan U ⟨d :: tl, tk, movesMode⟩ = ⟨tl, [d], movesMode⟩ :=
    fun d tl tk hd htl => Scan_digit U [] d tl tk rfl hd htl
  have nsd : ∀ tl : Str, numberStop ('-' :: tl) :=
    fun tl => numberStop_of_single U '-' tl (isSingle_dash U) (by decide)
  have nss : ∀ tl : Str, numberStop ('/' :: tl) :=
    fun tl => numberStop_of_single U '/' tl (isSingle_slash U) (by decide)
  simp only [resultMarkers, List.mem_cons, List.mem_singleton, List.not_mem_nil, or_false] at hr
  rcases hr with h | h | h | h <;> subst h
  · -- 1-0
    refine ⟨['0'], ?_⟩
    have h1 : Scanner.Scan U ⟨ws ++ "1-0".toList ++ tail, tok0, movesMode⟩ =
        ⟨'-' :: '0' :: tail, ['1'], movesMode⟩ := by
      have := Scan_digit U ws '1' ('-' :: '0' :: tail) tok0 hws (by decide) (nsd _)
      simpa [List.append_assoc] using this
    simp only [h1, List.length_cons, Scanner.TokenText]
    rw [dashLoop_succ U _ ⟨'-' :: '0' :: tail, ['1'], movesMode⟩ _ rfl, sdash,
      sdig '0' tail _ (by decide) hns,
      dashLoop_stop U _ ⟨tail, ['0'], movesMode⟩ _ (by simpa [Scanner.Peek] using hne1)]
    simp only [slashLoop_stop U _ ⟨tail, ['0'], movesMode⟩ _ (by simpa [Scanner.Peek] using hne2)]
    exact ⟨rfl, by decide⟩
  · -- 0-1
    refine ⟨['1'], ?_⟩
    have h1 : Scanner.Scan U ⟨ws ++ "0-1".toList ++ tail, tok0, movesMode⟩ =
        ⟨'-' :: '1' :: tail, ['0'], movesMode⟩ := by
      have := Scan_digit U ws '0' ('-' :: '1' :: tail) tok0 hws (by decide) (nsd _)
      simpa [List.append_assoc] using this
    simp only [h1, List.length_cons, Scanner.TokenText]
    rw [dashLoop_succ U _ ⟨'-' :: '1' :: tail, ['0'], movesMode⟩ _ rfl, sdash,
      sdig '1' tail _ (by decide) hns,
      dashLoop_stop U _ ⟨tail, ['1'], movesMode⟩ _ (by simpa [Scanner.Peek] using hne1)]
    simp only [slashLoop_stop U _ ⟨tail, ['1'], movesMode⟩ _ (by simpa [Scanner.Peek] using hne2)]
    exact ⟨rfl, by decide⟩
  · -- 1/2-1/2
    refine ⟨['2'], ?_⟩
    have h1 : Scanner.Scan U ⟨ws ++ "1/2-1/2".toList ++ tail, tok0, movesMode⟩ =
        ⟨'/' :: '2' :: '-' :: '1' :: '/' :: '2' :: tail, ['1'], movesMode⟩ := by
      have := Scan_digit U ws '1' ('/' :: '2' :: '-' :: '1' :: '/' :: '2' :: tail) tok0 hws
        (by decide) (nss _)
      simpa [List.append_assoc] using this
    simp only [h1, List.length_cons, Scanner.TokenText]
    rw [dashLoop_stop U _ ⟨'/' :: '2' :: '-' :: '1' :: '/' :: '2' :: tail, ['1'], movesMode⟩ _
      (by simp [Scanner.Peek])]
    simp only [List.length_cons]
    rw [slashLoop_succ U _ ⟨'/' :: '2' :: '-' :: '1' :: '/' :: '2' :: tail, ['1'], movesMode⟩ _ rfl,
      sslash, sdig '2' _ _ (by decide) (nsd _), sdash, sdig '1' _ _ (by decide) (nss _), sslash,
      sdig '2' tail _ (by decide) hns,
      slashLoop_stop U _ ⟨tail, ['2'], movesMode⟩ _ (by simpa [Scanner.Peek] using hne2)]
    exact ⟨rfl, by decide⟩
  · -- *
    refine ⟨['*'], ?_⟩
    have h1 : Scanner.Scan U ⟨ws ++ "*".toList ++ tail, tok0, movesMode⟩ =
        ⟨tail, ['*'], movesMode⟩ := by
      have := Scan_single U ws '*' tail tok0 hws (isSingle_star U)
      simpa [List.append_assoc] using this
    simp only [h1, Scanner.TokenText]
    rw [dashLoop_stop U _ ⟨tail, ['*'], movesMode⟩ _ (by simpa [Scanner.Peek] using hne1)]
    simp only [slashLoop_stop U _ ⟨tail, ['*'], movesMode⟩ _ (by simpa [Scanner.Peek] using hne2)]
    exact ⟨rfl, by decide⟩

/-- `ParseMoveOrResult` on a result marker whose first token has been scanned:
the text is the marker. -/
theorem ParseMoveOrResult_marker (U : Unicode) (r : Str) (hr : r ∈ resultMarkers)
    (ws tail tok0 : Str) (hws : isBlank ws = true) (ht : startsBlank tail = true) :
    ∃ s1, ParseMoveOrResult U (Scanner.Scan U ⟨ws ++ r ++ tail, tok0, movesMode⟩) = (r, s1) := by
  obtain ⟨tk, h, _⟩ := marker_loops U r hr ws tail tok0 hws ht
  have hne := head_ne_of_startsBlank tail ht '=' (by decide)
  refine ⟨glyphLoop tail.length ⟨tail, tk, movesMode⟩, ?_⟩
  unfold ParseMoveOrResult
  simp only [h, if_neg (show (⟨tail, tk, movesMode⟩ : Scanner).Peek ≠ some '=' by
    simpa [Scanner.Peek] using hne)]

/-- A result marker where a move number is expected ends the parse: the round
returns `nil`, the game and the log as they were. -/
theorem step_marker_num {B E : Type} (U : Unicode) (api : BoardAPI B E) (st : MovesState B E)
    (c : Char) (r ws tail : Str) (hrun : st.run = some c) (hc : defaultRun c)
    (hnum : st.num = []) (hmode : st.s.mode = movesMode)
    (hrest : st.s.rest = ws ++ r ++ tail) (hws : isBlank ws = true)
    (hr : r ∈ resultMarkers) (ht : startsBlank tail = true) :
    ∃ st1, movesStep U api st = .ret none st1 ∧ st1.g = st.g ∧ st1.log = st.log := by
  have hs : st.s = ⟨ws ++ r ++ tail, st.s.tok, movesMode⟩ := by
    rw [← hrest, ← hmode]
  obtain ⟨tk, h, htok⟩ := marker_loops U r hr ws tail st.s.tok hws ht
  rw [← hs] at h htok
  rw [movesStep_default U api st c hrun hc, if_neg htok, if_pos hnum]
  unfold numSlot
  simp only [h, (isEnd_iff r).mpr hr, if_true]
  exact ⟨_, rfl, rfl, rfl⟩

theorem marker_head (r : Str) (hr : r ∈ resultMarkers) :
    (∃ d rs, r = d :: rs ∧ isDecimal d = true) ∨ r = ['*'] := by
  simp only [resultMarkers, List.mem_cons, List.mem_singleton, List.not_mem_nil, or_false] at hr
  rcases hr with h | h | h | h <;> subst h
  · left; exact ⟨'1', _, rfl, by decide⟩
  · left; exact ⟨'0', _, rfl, by decide⟩
  · left; exact ⟨'1', _, rfl, by decide⟩
  · right; rfl


/-! ## What follows White's move -/

theorem peekIsDigit_cons (c : Char) (cs tk : Str) (m : Mode) :
    peekIsDigit ⟨c :: cs, tk, m⟩ = isDecimal c := rfl

/-- After White's move, before a token that starts like an identifier: the move
is resolved, and on success the loop goes on at that token. -/
theorem whiteAfter_token {B E : Type} (U : Unicode) (api : BoardAPI B E) (st : MovesState B E)
    (W : Str) (c : Char) (cs : Str) (hc : isIdentRune U c 0 = true) :
    whiteAfter U api st W ⟨c :: cs, [], movesMode⟩ =
      match (api.MoveFromAlgebraic st.board W .White).2 with
      | some err =>
        .ret (some err) { st with
          s := ⟨c :: cs, [], movesMode⟩, white := W,
          log := st.log ++ [.resolve st.board W .White (api.MoveFromAlgebraic st.board W .White).1
            (api.MoveFromAlgebraic st.board W .White).2, .print st.board] }
      | none =>
        .next { st with
          s := ⟨c :: cs, [], movesMode⟩,
          g := { st.g with Moves := st.g.Moves ++ [(api.MoveFromAlgebraic st.board W .White).1] },
          board := api.MakeMove st.board (api.MoveFromAlgebraic st.board W .White).1,
          white := W,
          log := st.log ++ [.resolve st.board W .White (api.MoveFromAlgebraic st.board W .White).1
            (api.MoveFromAlgebraic st.board W .White).2,
            .make st.board (api.MoveFromAlgebraic st.board W .White).1],
          run := some c } := by
  have hcode := identStart_code U c hc
  have h1 : (⟨c :: cs, [], movesMode⟩ : Scanner).Peek ≠ some chLBrace := by
    simp only [Scanner.Peek, List.head?_cons, ne_eq, Option.some.injEq]
    intro h; rw [h] at hcode; revert hcode; decide
  have h2 : (⟨c :: cs, [], movesMode⟩ : Scanner).Peek ≠ some ' ' := by
    simp only [Scanner.Peek, List.head?_cons, ne_eq, Option.some.injEq]
    intro h; rw [h] at hcode; revert hcode; decide
  have h3 : isDecimal c = false := by
    cases hd : isDecimal c with
    | false => rfl
    | true => have := (decimal_code c).mp hd; omega
  unfold whiteAfter
  rw [skipComment_none _ h1]
  simp only [spaceLoop_stop _ _ h2, peekIsDigit_cons, h3, Bool.false_eq_true, if_false,
    Scanner.Peek, List.head?_cons]

/-- After White's move, before a comment in braces, the repeated move number
with its periods and a space: the comment is read in full, the move resolved,
and on success the number is read and dropped. -/
theorem whiteAfter_comment {B E : Type} (U : Unicode) (api : BoardAPI B E) (st : MovesState B E)
    (W c n Y : Str) (hc : chRBrace ∉ c) (hn : isNumberText n = true)
    (hYg : ∀ x, Y.head? = some x → isGlyph x = false) :
    whiteAfter U api st W
        ⟨chLBrace :: c ++ chRBrace :: ' ' :: (n ++ '.' :: '.' :: '.' :: Y), [], movesMode⟩ =
      match (api.MoveFromAlgebraic st.board W .White).2 with
      | some err =>
        .ret (some err) { st with
          s := ⟨' ' :: (n ++ '.' :: '.' :: '.' :: Y), [], movesMode⟩, white := W,
          log := st.log ++ [.resolve st.board W .White (api.MoveFromAlgebraic st.board W .White).1
            (api.MoveFromAlgebraic st.board W .White).2, .print st.board] }
      | none =>
        .next { st with
          s := ⟨Y, [], movesMode⟩,
          g := { st.g with Moves := st.g.Moves ++ [(api.MoveFromAlgebraic st.board W .White).1] },
          board := api.MakeMove st.board (api.MoveFromAlgebraic st.board W .White).1,
          white := W,
          log := st.log ++ [.resolve st.board W .White (api.MoveFromAlgebraic st.board W .White).1
            (api.MoveFromAlgebraic st.board W .White).2,
            .make st.board (api.MoveFromAlgebraic st.board W .White).1],
          run := Y.head? } := by
  obtain ⟨d, ds, hd, hdd⟩ := isNumberText_head hn
  have hsp : (n ++ '.' :: '.' :: '.' :: Y).head? ≠ some ' ' := by
    rw [hd]
    simp only [List.cons_append, List.head?_cons, ne_eq, Option.some.injEq]
    intro h; rw [h] at hdd; revert hdd; decide
  have hscan : Scanner.Scan U ⟨n ++ '.' :: '.' :: '.' :: Y, [], movesMode⟩ =
      ⟨'.' :: '.' :: '.' :: Y, n, movesMode⟩ := by
    have := Scan_number U [] n ('.' :: '.' :: '.' :: Y) [] rfl hn (numberStop_dot _)
    simpa using this
  have hpm : ParseMoveOrResult U ⟨'.' :: '.' :: '.' :: Y, n, movesMode⟩ =
      (n, ⟨Y, [], movesMode⟩) := by
    rw [ParseMoveOrResult_simple U _ (by simp [Scanner.Peek]) (by simp [Scanner.Peek])
      (by simp [Scanner.Peek])]
    have := glyphLoop_run ['.', '.', '.'] Y n movesMode ('.' :: '.' :: '.' :: Y).length
      (by decide) (by simp) hYg (by simp)
    simpa using this
  have hpd : peekIsDigit ⟨n ++ '.' :: '.' :: '.' :: Y, [], movesMode⟩ = true := by
    rw [hd]; exact hdd
  unfold whiteAfter
  rw [skipComment_braces c _ [] movesMode hc]
  simp only [List.length_cons, spaceLoop_one _ [] movesMode _ hsp, hpd, if_true, hscan, hpm,
    isNumberText_not_isEnd hn, Bool.false_eq_true, if_false, Scanner.Peek]

/-! ## Runs that differ in what the scanner skips -/

/-- `Scan` at an identifier start, whatever follows. -/
theorem Scan_identStart (U : Unicode) (ws : Str) (c : Char) (cs tok0 : Str)
    (hws : isBlank ws = true) (hc : isIdentRune U c 0 = true) :
    Scanner.Scan U ⟨ws ++ c :: cs, tok0, movesMode⟩ =
      ⟨cs.dropWhile (fun x => isIdentRune U x 1), c :: cs.takeWhile (fun x => isIdentRune U x 1),
        movesMode⟩ := by
  have hd := dropWhile_blank ws c cs hws (not_whitespace_of_identStart U c hc)
  simp only [Scanner.Scan, scanToken, hd, hc, if_true, movesMode]

/-- Two states that take the default case, agree but for the scanner and `run`,
and scan the same token to the same rest, do the same round. -/
theorem movesStep_alike {B E : Type} (U : Unicode) (api : BoardAPI B E) (a b : MovesState B E)
    (ra rb : Char) (hra : a.run = some ra) (hrb : b.run = some rb) (hda : defaultRun ra)
    (hdb : defaultRun rb) (hg : a.g = b.g) (hbd : a.board = b.board) (hn : a.num = b.num)
    (hw : a.white = b.white) (hbl : a.black = b.black) (hl : a.log = b.log)
    (hs : a.s.Scan U = b.s.Scan U) :
    Step.alike (movesStep U api a) (movesStep U api b) := by
  rw [movesStep_default U api a ra hra hda, movesStep_default U api b rb hrb hdb, hs]
  obtain ⟨sa, ga, ba, na, wa, bla, runa, la⟩ := a
  obtain ⟨sb, gb, bb, nb, wb, blb, runb, lb⟩ := b
  simp only at hg hbd hn hw hbl hl hs
  subst hg hbd hn hw hbl hl
  simp only
  split
  · exact rfl
  · split
    · unfold numSlot
      simp only
      split
      · exact ⟨rfl, rfl⟩
      · exact rfl
    · split
      · unfold whiteSlot
        simp only
        split
        · exact ⟨rfl, rfl⟩
        · split
          · exact rfl
          · split
            · exact ⟨rfl, rfl⟩
            · split
              · split
                · exact ⟨rfl, rfl⟩
                · exact rfl
              · exact rfl
      · split
        · unfold blackSlot
          simp only
          split
          · exact ⟨rfl, rfl⟩
          · split
            · exact ⟨rfl, rfl⟩
            · exact rfl
        · exact rfl

/-- Runs from two states that do the same round end alike. -/
theorem Runs_alike {B E : Type} (U : Unicode) (api : BoardAPI B E) (a b : MovesState B E)
    (oa ob : Outcome B E) (h : Step.alike (movesStep U api a) (movesStep U api b))
    (ha : Runs U api a oa) (hb : Runs U api b ob) : oa.summary = ob.summary := by
  cases hsa : movesStep U api a with
  | next x =>
    cases hsb : movesStep U api b with
    | next y =>
      rw [hsa, hsb] at h
      have hxy : x = y := h
      subst hxy
      have h1 := (Runs_next hsa oa).mp ha
      have h2 := (Runs_next hsb ob).mp hb
      rw [Runs_det h1 h2]
    | ret e y => rw [hsa, hsb] at h; exact absurd h (by simp [Step.alike])
    | hang y => rw [hsa, hsb] at h; exact absurd h (by simp [Step.alike])
  | ret e x =>
    cases hsb : movesStep U api b with
    | next y => rw [hsa, hsb] at h; exact absurd h (by simp [Step.alike])
    | ret e1 y =>
      rw [hsa, hsb] at h
      obtain ⟨he, hg⟩ := h
      rw [Runs_det ha (Runs_ret hsa), Runs_det hb (Runs_ret hsb)]
      simp [Outcome.summary, Outcome.err, Outcome.state, he, hg]
    | hang y => rw [hsa, hsb] at h; exact absurd h (by simp [Step.alike])
  | hang x =>
    cases hsb : movesStep U api b with
    | next y => rw [hsa, hsb] at h; exact absurd h (by simp [Step.alike])
    | ret e y => rw [hsa, hsb] at h; exact absurd h (by simp [Step.alike])
    | hang y =>
      rw [hsa, hsb] at h
      have hg : x.g = y.g := h
      rw [Runs_det ha (Runs_hang hsa), Runs_det hb (Runs_hang hsb)]
      simp [Outcome.summary, Outcome.err, Outcome.state, hg]

/-! ## The comment after White's move -/

/-- The first two rounds on `n. ` and what follows: the number is read into
`num` and the period read, the space after it being next. -/
theorem runs_number_head {B E : Type} (U : Unicode) (api : BoardAPI B E) (s : Scanner) (g : Game)
    (b0 : B) (n X : Str) (hn : isNumberText n = true) (hs : s.rest = n ++ '.' :: ' ' :: X)
    (out : Outcome B E) :
    Runs U api (movesInit s g b0) out ↔
      Runs U api
        { s := ⟨' ' :: X, [], movesMode⟩, g := g, board := b0, num := n, white := [], black := [],
          run := some ' ', log := [] } out := by
  obtain ⟨d, ds, hd, hdd⟩ := isNumberText_head hn
  have hrun : (movesInit (E := E) s g b0).run = some d := by
    simp [movesInit, Scanner.Peek, hs, hd]
  have h1 := step_number U api (movesInit s g b0) d [] n (' ' :: X) hrun (defaultRun_decimal d hdd)
    rfl rfl (by simpa [movesInit] using hs) rfl hn
  rw [Runs_next h1]
  have h2 := step_glyph U api
    { movesInit (E := E) s g b0 with s := ⟨'.' :: ' ' :: X, n, movesMode⟩, num := n, run := some '.' }
    '.' rfl (by decide)
  rw [Runs_next h2]
  rfl

/-- C9: a comment in braces after White's move, followed by a move number
with `...`, does not change the parse: on `n. W {c} n2... B rest`, with `c` free
of the closing brace and `n2` any move number (the repeated `n` among them),
`ParseMoves` returns the same error and appends the same moves as on
`n. W B rest`. -/
theorem ParseMoves_comment_after_white {B E : Type} (U : Unicode) (api : BoardAPI B E)
    (s1 s2 : Scanner) (g : Game) (n n2 W Bk c rest : Str)
    (hn : isNumberText n = true) (hn2 : isNumberText n2 = true)
    (hW : MoveToken U W) (hB : MoveToken U Bk) (hc : chRBrace ∉ c)
    (h1 : s1.rest = n ++ ['.', ' '] ++ W ++ [' ', chLBrace] ++ c ++ [chRBrace, ' '] ++ n2
        ++ ['.', '.', '.', ' '] ++ Bk ++ rest)
    (h2 : s2.rest = n ++ ['.', ' '] ++ W ++ [' '] ++ Bk ++ rest) :
    (ParseMoves U api s1 g).map Outcome.summary = (ParseMoves U api s2 g).map Outcome.summary := by
  obtain ⟨o1, ho1⟩ := ParseMoves_total U api s1 g
  obtain ⟨o2, ho2⟩ := ParseMoves_total U api s2 g
  rw [ho1, ho2]
  simp only [Option.map_some', Option.some.injEq]
  rcases ParseMoves_cases U api s1 g o1 ho1 with ⟨e, hb, he⟩ | ⟨b0, hb, hr1⟩
  · rcases ParseMoves_cases U api s2 g o2 ho2 with ⟨e2, hb2, he2⟩ | ⟨b2, hb2, _⟩
    · rw [hb] at hb2
      cases hb2
      rw [he, he2]
      rfl
    · rw [hb] at hb2; cases hb2
  · rcases ParseMoves_cases U api s2 g o2 ho2 with ⟨e2, hb2, _⟩ | ⟨b2, hb2, hr2⟩
    · rw [hb] at hb2; cases hb2
    · rw [hb] at hb2
      cases hb2
      obtain ⟨cb, cbs, hBk, hcb⟩ := hB.head
      have hcbcode := identStart_code U cb hcb
      -- the first two rounds
      rw [runs_number_head U api s1 g b0 n
        (W ++ ' ' :: (chLBrace :: c ++ chRBrace :: ' ' :: (n2 ++ '.' :: '.' :: '.' :: ' ' :: (Bk ++ rest))))
        hn (by simpa [List.append_assoc] using h1)] at hr1
      rw [runs_number_head U api s2 g b0 n (W ++ ' ' :: (Bk ++ rest)) hn
        (by simpa [List.append_assoc] using h2)] at hr2
      -- White's move
      have hw1 := step_white U api
        { s := ⟨' ' :: (W ++ ' ' :: (chLBrace :: c ++ chRBrace :: ' ' ::
            (n2 ++ '.' :: '.' :: '.' :: ' ' :: (Bk ++ rest)))), [], movesMode⟩,
          g := g, board := b0, num := n, white := [], black := [], run := some ' ', log := [] }
        ' ' [' '] W (chLBrace :: c ++ chRBrace :: ' ' :: (n2 ++ '.' :: '.' :: '.' :: ' ' :: (Bk ++ rest)))
        rfl defaultRun_space (by obtain ⟨d, ds, hd, _⟩ := isNumberText_head hn; simp [hd]) rfl rfl
        (by simp) (by decide) hW (by simp [chLBrace])
      have hw2 := step_white U api
        { s := ⟨' ' :: (W ++ ' ' :: (Bk ++ rest)), [], movesMode⟩,
          g := g, board := b0, num := n, white := [], black := [], run := some ' ', log := [] }
        ' ' [' '] W (Bk ++ rest)
        rfl defaultRun_space (by obtain ⟨d, ds, hd, _⟩ := isNumberText_head hn; simp [hd]) rfl rfl
        (by simp) (by decide) hW (by
          rw [hBk]
          simp only [List.cons_append, List.head?_cons, ne_eq, Option.some.injEq]
          intro h; rw [h] at hcbcode; revert hcbcode; decide)
      rw [whiteAfter_comment U api _ W c n2 (' ' :: (Bk ++ rest)) hc hn2 (by
        intro x hx
        simp only [List.head?_cons, Option.some.injEq] at hx
        subst hx; decide)] at hw1
      rw [hBk, List.cons_append, whiteAfter_token U api _ W cb (cbs ++ rest) hcb] at hw2
      simp only at hw1 hw2
      cases hres : (api.MoveFromAlgebraic b0 W .White).2 with
      | some err =>
        rw [hres] at hw1 hw2
        rw [hBk] at hr2
        rw [Runs_det hr1 (Runs_ret hw1), Runs_det hr2 (Runs_ret hw2)]
        rfl
      | none =>
        rw [hres] at hw1 hw2
        rw [hBk] at hr2
        have hr1' := (Runs_next hw1 o1).mp hr1
        have hr2' := (Runs_next hw2 o2).mp hr2
        refine Runs_alike U api _ _ o1 o2 ?_ hr1' hr2'
        refine movesStep_alike U api _ _ ' ' cb rfl rfl defaultRun_space
          (defaultRun_identStart U cb hcb) rfl rfl rfl rfl rfl rfl ?_
        show Scanner.Scan U ⟨' ' :: (Bk ++ rest), [], movesMode⟩ =
          Scanner.Scan U ⟨cb :: (cbs ++ rest), [], movesMode⟩
        rw [hBk]
        have e1 := Scan_identStart U [' '] cb (cbs ++ rest) [] (by decide) hcb
        have e2 := Scan_identStart U [] cb (cbs ++ rest) [] rfl hcb
        simp only [List.cons_append, List.nil_append, List.singleton_append] at e1 e2 ⊢
        rw [e1, e2]

/-! ## Movetext in the usual layout -/

theorem replay_cons {B E : Type} (api : BoardAPI B E) (b bf : B) (t : Str) (c : Color)
    (rest : List (Str × Color)) (ms : List Move)
    (h : replay api b ((t, c) :: rest) = some (ms, bf)) :
    (api.MoveFromAlgebraic b t c).2 = none ∧
      ∃ ms1, ms = (api.MoveFromAlgebraic b t c).1 :: ms1 ∧
        replay api (api.MakeMove b (api.MoveFromAlgebraic b t c).1) rest = some (ms1, bf) := by
  simp only [replay] at h
  cases h1 : (api.MoveFromAlgebraic b t c).2 with
  | some e => rw [h1] at h; simp at h
  | none =>
    rw [h1] at h
    simp only at h
    cases h2 : replay api (api.MakeMove b (api.MoveFromAlgebraic b t c).1) rest with
    | none => rw [h2] at h; simp at h
    | some r =>
      rw [h2] at h
      simp only [Option.map_some', Option.some.injEq, Prod.mk.injEq] at h
      obtain ⟨rfl, rfl⟩ := h
      exact ⟨rfl, r.1, rfl, rfl⟩

theorem calls_resolved {B E : Type} (log : List (Event B E)) (b : B) (t : Str) (c : Color)
    (m : Move) (e : Option E) :
    calls (log ++ [.resolve b t c m e, .make b m]) = calls log ++ [(t, c)] := by
  rw [calls_append]; rfl

/-- A result marker after White's move: once the move is resolved the loop
returns `nil`, with that move appended and no other token resolved. -/
theorem runs_white_marker {B E : Type} (U : Unicode) (api : BoardAPI B E) (st : MovesState B E)
    (W r tail : Str) (hnum : st.num ≠ []) (hW : W ≠ []) (hblack : st.black = [])
    (hr : r ∈ resultMarkers) (ht : startsBlank tail = true)
    (hres : (api.MoveFromAlgebraic st.board W .White).2 = none)
    (st1 : MovesState B E)
    (hstep : movesStep U api st1 = whiteAfter U api st W ⟨r ++ tail, [], movesMode⟩) :
    ∃ stf, Runs U api st1 (.returned none stf) ∧
      stf.g.Moves = st.g.Moves ++ [(api.MoveFromAlgebraic st.board W .White).1] ∧
      stf.g.Tags = st.g.Tags ∧ calls stf.log = calls st.log ++ [(W, .White)] := by
  rcases marker_head r hr with ⟨d, rs, hd, hdd⟩ | hstar
  · -- the marker starts with a digit: it is read as the repeated move number
    have hcode := (decimal_code d).mp hdd
    have h1 : (⟨r ++ tail, [], movesMode⟩ : Scanner).Peek ≠ some chLBrace := by
      rw [hd]
      simp only [Scanner.Peek, List.cons_append, List.head?_cons, ne_eq, Option.some.injEq]
      intro h; rw [h] at hcode; revert hcode; decide
    have h2 : (⟨r ++ tail, [], movesMode⟩ : Scanner).Peek ≠ some ' ' := by
      rw [hd]
      simp only [Scanner.Peek, List.cons_append, List.head?_cons, ne_eq, Option.some.injEq]
      intro h; rw [h] at hcode; revert hcode; decide
    have h3 : peekIsDigit ⟨r ++ tail, [], movesMode⟩ = true := by
      rw [hd]; exact hdd
    obtain ⟨s1, hpm⟩ := ParseMoveOrResult_marker U r hr [] tail [] rfl ht
    simp only [List.nil_append] at hpm
    have hw : whiteAfter U api st W ⟨r ++ tail, [], movesMode⟩ =
        .ret none { st with
          s := s1,
          g := { st.g with Moves := st.g.Moves ++ [(api.MoveFromAlgebraic st.board W .White).1] },
          board := api.MakeMove st.board (api.MoveFromAlgebraic st.board W .White).1,
          white := W,
          log := st.log ++ [.resolve st.board W .White (api.MoveFromAlgebraic st.board W .White).1
            none, .make st.board (api.MoveFromAlgebraic st.board W .White).1] } := by
      unfold whiteAfter
      rw [skipComment_none _ h1]
      simp only [spaceLoop_stop _ _ h2, h3, if_true, hpm, (isEnd_iff r).mpr hr, hres]
    rw [hw] at hstep
    exact ⟨_, Runs_ret hstep, rfl, rfl, calls_resolved _ _ _ _ _ _⟩
  · -- the marker is `*`: it is read where Black's move is expected
    subst hstar
    have h1 : (⟨['*'] ++ tail, [], movesMode⟩ : Scanner).Peek ≠ some chLBrace := by
      simp [Scanner.Peek, chLBrace]
    have h2 : (⟨['*'] ++ tail, [], movesMode⟩ : Scanner).Peek ≠ some ' ' := by
      simp [Scanner.Peek]
    have h3 : peekIsDigit ⟨['*'] ++ tail, [], movesMode⟩ = false := rfl
    have hw : whiteAfter U api st W ⟨['*'] ++ tail, [], movesMode⟩ =
        .next { st with
          s := ⟨'*' :: tail, [], movesMode⟩,
          g := { st.g with Moves := st.g.Moves ++ [(api.MoveFromAlgebraic st.board W .White).1] },
          board := api.MakeMove st.board (api.MoveFromAlgebraic st.board W .White).1,
          white := W,
          log := st.log ++ [.resolve st.board W .White (api.MoveFromAlgebraic st.board W .White).1
            none, .make st.board (api.MoveFromAlgebraic st.board W .White).1],
          run := some '*' } := by
      unfold whiteAfter
      rw [skipComment_none _ h1]
      simp only [spaceLoop_stop _ _ h2, h3, Bool.false_eq_true, if_false, hres]
      rfl
    rw [hw] at hstep
    have hscan : Scanner.Scan U ⟨'*' :: tail, [], movesMode⟩ = ⟨tail, ['*'], movesMode⟩ :=
      Scan_single U [] '*' tail [] rfl (isSingle_star U)
    have hpm : ParseMoveOrResult U ⟨tail, ['*'], movesMode⟩ =
        (['*'], glyphLoop tail.length ⟨tail, ['*'], movesMode⟩) :=
      ParseMoveOrResult_simple U ⟨tail, ['*'], movesMode⟩
        (head_ne_of_startsBlank tail ht '-' (by decide))
        (head_ne_of_startsBlank tail ht '/' (by decide))
        (head_ne_of_startsBlank tail ht '=' (by decide))
    have hstep2 := movesStep_default U api
      { st with
          s := ⟨'*' :: tail, [], movesMode⟩,
          g := { st.g with Moves := st.g.Moves ++ [(api.MoveFromAlgebraic st.board W .White).1] },
          board := api.MakeMove st.board (api.MoveFromAlgebraic st.board W .White).1,
          white := W,
          log := st.log ++ [.resolve st.board W .White (api.MoveFromAlgebraic st.board W .White).1
            none, .make st.board (api.MoveFromAlgebraic st.board W .White).1],
          run := some '*' } '*' rfl defaultRun_star
    simp only [hscan, Scanner.TokenText, if_neg hnum, if_neg hW, if_pos hblack, blackSlot_eq, hpm,
      show (['*'] : Str) ≠ [chLBrace] by decide, if_false,
      show isEnd ['*'] = true by decide, if_true] at hstep2
    refine ⟨_, (Runs_next hstep _).mpr (Runs_ret hstep2), rfl, rfl, calls_resolved _ _ _ _ _ _⟩

/-- The main loop on movetext in the usual layout that ends in a result
marker: it returns `nil`, having resolved the move tokens in order, one colour
after the other, and appended their moves. -/
theorem layout_runs {B E : Type} (U : Unicode) (api : BoardAPI B E)
    (last : Option (Str × Str)) (r tail : Str)
    (hl : ∀ h, last = some h → isNumberText h.1 = true ∧ MoveToken U h.2)
    (hr : r ∈ resultMarkers) (ht : startsBlank tail = true)
    (pairs : List (Str × Str × Str))
    (hp : ∀ m ∈ pairs, isNumberText m.1 = true ∧ MoveToken U m.2.1 ∧ MoveToken U m.2.2)
    (st : MovesState B E) (ws : Str) (c0 : Char)
    (hnum : st.num = []) (hwhite : st.white = []) (hblack : st.black = [])
    (hmode : st.s.mode = movesMode) (hrest : st.s.rest = ws ++ movetext pairs last r tail)
    (hws : isBlank ws = true) (hrun : st.run = some c0) (hc0 : defaultRun c0)
    (ms : List Move) (bf : B)
    (hres : replay api st.board (layoutTokens pairs last) = some (ms, bf)) :
    ∃ stf, Runs U api st (.returned none stf) ∧ stf.g.Moves = st.g.Moves ++ ms ∧
      stf.g.Tags = st.g.Tags ∧ calls stf.log = calls st.log ++ layoutTokens pairs last := by
  induction pairs generalizing st ws c0 ms with
  | nil =>
    cases last with
    | none =>
      simp only [movetext, halfMoveText, List.nil_append] at hrest
      simp only [layoutTokens, replay, Option.some.injEq, Prod.mk.injEq] at hres
      obtain ⟨st1, hstep, hg, hlog⟩ := step_marker_num U api st c0 r ws tail hrun hc0 hnum hmode
        (by rw [hrest, List.append_assoc]) hws hr ht
      refine ⟨st1, Runs_ret hstep, ?_, ?_, ?_⟩
      · rw [hg, ← hres.1]; simp
      · rw [hg]
      · rw [hlog]; simp [layoutTokens]
    | some h =>
      obtain ⟨n, W⟩ := h
      obtain ⟨hn, hW⟩ := hl (n, W) rfl
      simp only at hn hW
      simp only [movetext, halfMoveText] at hrest
      simp only [layoutTokens] at hres ⊢
      obtain ⟨hok, ms1, hms, hrep⟩ := replay_cons api st.board bf W .White [] ms hres
      simp only [replay, Option.some.injEq, Prod.mk.injEq] at hrep
      obtain ⟨d, ds, hd, hdd⟩ := isNumberText_head hn
      have h1 := step_number U api st c0 ws n (' ' :: (W ++ ' ' :: (r ++ tail))) hrun hc0 hnum hmode
        (by rw [hrest]; simp [List.append_assoc]) hws hn
      have h2 := step_glyph U api
        { st with s := ⟨'.' :: ' ' :: (W ++ ' ' :: (r ++ tail)), n, movesMode⟩, num := n,
                  run := some '.' } '.' rfl (by decide)
      have hXhead : (r ++ tail).head? ≠ some ' ' := by
        rcases marker_head r hr with ⟨e, rs, he, hed⟩ | hstar
        · rw [he]
          simp only [List.cons_append, List.head?_cons, ne_eq, Option.some.injEq]
          intro h; rw [h] at hed; revert hed; decide
        · rw [hstar]; simp
      have h3 := step_white U api
        { st with s := ⟨' ' :: (W ++ ' ' :: (r ++ tail)), [], movesMode⟩, num := n,
                  run := some ' ' }
        ' ' [' '] W (r ++ tail) rfl defaultRun_space (by rw [hd]; simp) hwhite rfl
        (by simp) (by decide) hW hXhead
      obtain ⟨stf, hruns, hm, htg, hcl⟩ := runs_white_marker U api
        { st with s := ⟨' ' :: (W ++ ' ' :: (r ++ tail)), [], movesMode⟩, num := n,
                  run := some ' ' }
        W r tail (by rw [hd]; simp) hW.ne_nil hblack hr ht hok _ h3
      refine ⟨stf, ?_, ?_, htg, hcl⟩
      · rw [Runs_next h1, Runs_next h2]
        exact hruns
      · rw [hm, hms, ← hrep.1]
  | cons m rest ih =>
    obtain ⟨n, W, Bk⟩ := m
    obtain ⟨hn, hW, hB⟩ := hp (n, W, Bk) (List.mem_cons_self _ _)
    simp only at hn hW hB
    simp only [movetext, fullMoveText] at hrest
    simp only [layoutTokens] at hres ⊢
    obtain ⟨cb, cbs, hBk, hcb⟩ := hB.head
    subst hBk
    obtain ⟨hok1, ms1, hms1, hrep1⟩ := replay_cons api st.board bf W .White _ ms hres
    obtain ⟨hok2, ms2, hms2, hrep2⟩ := replay_cons api _ bf (cb :: cbs) .Black _ ms1 hrep1
    obtain ⟨d, ds, hd, hdd⟩ := isNumberText_head hn
    have hcbcode := identStart_code U cb hcb
    have h1 := step_number U api st c0 ws n
      (' ' :: (W ++ ' ' :: (cb :: cbs ++ ' ' :: movetext rest last r tail))) hrun hc0 hnum hmode
      (by rw [hrest]; simp [List.append_assoc]) hws hn
    have h2 := step_glyph U api
      { st with s := ⟨'.' :: ' ' :: (W ++ ' ' :: (cb :: cbs ++ ' ' :: movetext rest last r tail)), n,
                  movesMode⟩, num := n, run := some '.' } '.' rfl (by decide)
    have h3 := step_white U api
      { st with s := ⟨' ' :: (W ++ ' ' :: (cb :: cbs ++ ' ' :: movetext rest last r tail)), [],
                  movesMode⟩,
                num := n, run := some ' ' }
      ' ' [' '] W (cb :: (cbs ++ ' ' :: movetext rest last r tail)) rfl defaultRun_space
      (by rw [hd]; simp) hwhite rfl (by simp) (by decide) hW (by
        simp only [List.head?_cons, ne_eq, Option.some.injEq]
        intro h; rw [h] at hcbcode; revert hcbcode; decide)
    rw [whiteAfter_token U api _ W cb _ hcb] at h3
    simp only [hok1] at h3
    obtain ⟨tk, h4⟩ := step_black U api
      { st with
          s := ⟨cb :: (cbs ++ ' ' :: movetext rest last r tail), [], movesMode⟩,
          g := { st.g with Moves := st.g.Moves ++ [(api.MoveFromAlgebraic st.board W .White).1] },
          board := api.MakeMove st.board (api.MoveFromAlgebraic st.board W .White).1,
          num := n, white := W,
          log := st.log ++ [.resolve st.board W .White (api.MoveFromAlgebraic st.board W .White).1
            none, .make st.board (api.MoveFromAlgebraic st.board W .White).1],
          run := some cb }
      cb [] (cb :: cbs) (' ' :: movetext rest last r tail) rfl (defaultRun_identStart U cb hcb)
      (by rw [hd]; simp) hW.ne_nil hblack rfl (by simp) rfl hB (Or.inr ⟨_, rfl⟩)
    simp only [blackAfter, hok2] at h4
    obtain ⟨stf, hruns, hm, htg, hcl⟩ := ih (fun m hm => hp m (List.mem_cons_of_mem _ hm))
      { s := ⟨' ' :: movetext rest last r tail, tk, movesMode⟩,
        g := { Moves := (st.g.Moves ++ [(api.MoveFromAlgebraic st.board W .White).1]) ++
                 [(api.MoveFromAlgebraic
                    (api.MakeMove st.board (api.MoveFromAlgebraic st.board W .White).1) (cb :: cbs)
                    .Black).1],
               Tags := st.g.Tags },
        board := api.MakeMove (api.MakeMove st.board (api.MoveFromAlgebraic st.board W .White).1)
          (api.MoveFromAlgebraic
            (api.MakeMove st.board (api.MoveFromAlgebraic st.board W .White).1) (cb :: cbs) .Black).1,
        num := [], white := [], black := [], run := some ' ',
        log := (st.log ++ [.resolve st.board W .White (api.MoveFromAlgebraic st.board W .White).1
            none, .make st.board (api.MoveFromAlgebraic st.board W .White).1]) ++
          [.resolve (api.MakeMove st.board (api.MoveFromAlgebraic st.board W .White).1) (cb :: cbs) .Black
            (api.MoveFromAlgebraic
              (api.MakeMove st.board (api.MoveFromAlgebraic st.board W .White).1) (cb :: cbs) .Black).1
            none,
           .make (api.MakeMove st.board (api.MoveFromAlgebraic st.board W .White).1)
            (api.MoveFromAlgebraic
              (api.MakeMove st.board (api.MoveFromAlgebraic st.board W .White).1) (cb :: cbs) .Black).1] }
      [' '] ' ' rfl rfl rfl rfl rfl (by decide) rfl defaultRun_space ms2 hrep2
    refine ⟨stf, ?_, ?_, ?_, ?_⟩
    · exact (Runs_next h1 _).mpr ((Runs_next h2 _).mpr ((Runs_next h3 _).mpr
        ((Runs_next h4 _).mpr hruns)))
    · rw [hm, hms1, hms2]; simp
    · rw [htg]
    · rw [hcl, calls_resolved, calls_resolved]; simp

/-- An outcome the main loop reaches from the seed board is the outcome of
`ParseMoves`. -/
theorem ParseMoves_of_runs {B E : Type} (U : Unicode) (api : BoardAPI B E) (s : Scanner) (g : Game)
    (b0 : B) (out : Outcome B E) (hb : seedBoard api g = .ok b0)
    (h : Runs U api (movesInit s g b0) out) : ParseMoves U api s g = some out := by
  obtain ⟨o, ho⟩ := ParseMoves_total U api s g
  rcases ParseMoves_cases U api s g o ho with ⟨e, hb1, _⟩ | ⟨b1, hb1, hr⟩
  · rw [hb] at hb1; cases hb1
  · rw [hb] at hb1
    cases hb1
    rw [ho, Runs_det hr h]

theorem movetext_head (U : Unicode) (pairs : List (Str × Str × Str)) (last : Option (Str × Str))
    (r tail : Str)
    (hp : ∀ m ∈ pairs, isNumberText m.1 = true ∧ MoveToken U m.2.1 ∧ MoveToken U m.2.2)
    (hl : ∀ h, last = some h → isNumberText h.1 = true ∧ MoveToken U h.2)
    (hr : r ∈ resultMarkers) :
    ∃ c0, (movetext pairs last r tail).head? = some c0 ∧ defaultRun c0 := by
  cases pairs with
  | cons m rest =>
    obtain ⟨d, ds, hd, hdd⟩ := isNumberText_head (hp m (List.mem_cons_self _ _)).1
    exact ⟨d, by simp [movetext, fullMoveText, hd], defaultRun_decimal d hdd⟩
  | nil =>
    cases last with
    | some h =>
      obtain ⟨d, ds, hd, hdd⟩ := isNumberText_head (hl h rfl).1
      exact ⟨d, by simp [movetext, halfMoveText, hd], defaultRun_decimal d hdd⟩
    | none =>
      rcases marker_head r hr with ⟨d, rs, hd, hdd⟩ | hstar
      · exact ⟨d, by simp [movetext, halfMoveText, hd], defaultRun_decimal d hdd⟩
      · exact ⟨'*', by simp [movetext, halfMoveText, hstar], defaultRun_star⟩

theorem layoutTokens_moveToken (U : Unicode) (pairs : List (Str × Str × Str))
    (last : Option (Str × Str))
    (hp : ∀ m ∈ pairs, isNumberText m.1 = true ∧ MoveToken U m.2.1 ∧ MoveToken U m.2.2)
    (hl : ∀ h, last = some h → isNumberText h.1 = true ∧ MoveToken U h.2) :
    ∀ tc ∈ layoutTokens pairs last, MoveToken U tc.1 := by
  induction pairs with
  | nil =>
    intro tc htc
    cases last with
    | none => simp [layoutTokens] at htc
    | some h =>
      simp only [layoutTokens, List.mem_singleton] at htc
      subst htc
      exact (hl h rfl).2
  | cons m rest ih =>
    intro tc htc
    simp only [layoutTokens, List.mem_cons] at htc
    have hm := hp m (List.mem_cons_self _ _)
    rcases htc with h | h | h
    · subst h; exact hm.2.1
    · subst h; exact hm.2.2
    · exact ih (fun m hm => hp m (List.mem_cons_of_mem _ hm)) tc h

/-- C4: on movetext of full moves `n. W B `, an optional last `n. W `, and
then a result marker followed by white space or the end of input, with every
move token resolvable in turn, `ParseMoves` returns `nil`, has appended exactly
the moves of those tokens and has passed exactly those tokens, never the
marker, to the resolver; the marker stands where a move number is expected when
there is no last move by White alone, and after White's move when there is. -/
theorem ParseMoves_result_marker {B E : Type} (U : Unicode) (api : BoardAPI B E)
    (s : Scanner) (g : Game) (pairs : List (Str × Str × Str)) (last : Option (Str × Str))
    (r tail : Str) (b0 bf : B) (ms : List Move)
    (hp : ∀ m ∈ pairs, isNumberText m.1 = true ∧ MoveToken U m.2.1 ∧ MoveToken U m.2.2)
    (hl : ∀ h, last = some h → isNumberText h.1 = true ∧ MoveToken U h.2)
    (hr : r ∈ resultMarkers) (ht : startsBlank tail = true)
    (hs : s.rest = movetext pairs last r tail) (hb : seedBoard api g = .ok b0)
    (hres : replay api b0 (layoutTokens pairs last) = some (ms, bf)) :
    ∃ st, ParseMoves U api s g = some (.returned none st) ∧ st.g.Moves = g.Moves ++ ms ∧
      calls st.log = layoutTokens pairs last ∧ ∀ c, (r, c) ∉ calls st.log := by
  obtain ⟨c0, hhead, hc0⟩ := movetext_head U pairs last r tail hp hl hr
  obtain ⟨stf, hruns, hm, _, hcl⟩ := layout_runs U api last r tail hl hr ht pairs hp
    (movesInit s g b0) [] c0 rfl rfl rfl rfl (by simpa [movesInit] using hs) rfl
    (by simp [movesInit, Scanner.Peek, hs, hhead]) hc0 ms bf hres
  have hcl2 : calls stf.log = layoutTokens pairs last := by
    rw [hcl]; simp [movesInit, calls]
  refine ⟨stf, ParseMoves_of_runs U api s g b0 _ hb hruns, hm, hcl2, ?_⟩
  intro c hmem
  rw [hcl2] at hmem
  have := (layoutTokens_moveToken U pairs last hp hl (r, c) hmem).not_isEnd
  rw [(isEnd_iff r).mpr hr] at this
  exact absurd this (by decide)

/-! ## Variations in parentheses -/

theorem nextUntil_first (close : Char) (v tail : Str) (hv : close ∉ v) :
    nextUntil close (v ++ close :: tail) = (some close, tail) := by
  induction v with
  | nil => simp [nextUntil]
  | cons x xs ih =>
    have hx : x ≠ close := fun h => hv (by rw [h]; exact List.mem_cons_self _ _)
    have hxs : close ∉ xs := fun h => hv (List.mem_cons_of_mem _ h)
    simp only [List.cons_append, nextUntil, if_neg hx]
    exact ih hxs

/-- C8, as amended: when the loop of `ParseMoves` is at a `(` and a `)`
follows, the round reads everything up to and including the first `)`, which
closes the variation when no parenthesis is nested in it; the game, the board,
the slots and the log stay as they are, so none of that text is resolved or
appended, and the loop goes on with the token after that `)`.  At the start of
`ParseMoves` the outcome is thus the outcome of the loop on what follows the
first `)`. -/
theorem variation_skipped_to_first_paren {B E : Type} (U : Unicode) (api : BoardAPI B E)
    (st : MovesState B E) (v tail : Str) (hrun : st.run = some '(')
    (hrest : st.s.rest = '(' :: v ++ ')' :: tail) (hv : ')' ∉ v) :
    movesStep U api st = .next { st with s := ⟨tail, [], st.s.mode⟩, run := some ')' } ∧
    ∀ (s : Scanner) (g : Game) (b0 : B) (out : Outcome B E),
      s.rest = '(' :: v ++ ')' :: tail → seedBoard api g = .ok b0 →
      (ParseMoves U api s g = some out ↔
        Runs U api { movesInit ⟨tail, [], s.mode⟩ g b0 with run := some ')' } out) := by
  have key : ∀ st1 : MovesState B E, st1.run = some '(' → st1.s.rest = '(' :: v ++ ')' :: tail →
      movesStep U api st1 = .next { st1 with s := ⟨tail, [], st1.s.mode⟩, run := some ')' } := by
    intro st1 h1 h2
    have hv2 : ')' ∉ '(' :: v := by
      intro h
      rcases List.mem_cons.mp h with h | h
      · exact absurd h (by decide)
      · exact hv h
    have hn := nextUntil_first ')' ('(' :: v) tail hv2
    unfold movesStep
    rw [h1]
    simp only [if_true, runUntil, h2]
    simp only [List.cons_append] at hn
    simp [hn]
  refine ⟨key st hrun hrest, ?_⟩
  intro s g b0 out hs hb
  have hstep := key (movesInit s g b0) (by simp [movesInit, Scanner.Peek, hs])
    (by simpa [movesInit] using hs)
  constructor
  · intro h
    rcases ParseMoves_cases U api s g out h with ⟨e, hb1, _⟩ | ⟨b1, hb1, hr⟩
    · rw [hb] at hb1; cases hb1
    · rw [hb] at hb1
      cases hb1
      exact (Runs_next hstep out).mp hr
  · intro h
    exact ParseMoves_of_runs U api s g b0 out hb ((Runs_next hstep out).mpr h)

/-- The counterexample to C8 as stated: in `(1. d4 (1. c4) 1. e4 e5) *` the
variation is balanced and holds a nested one; `ParseMoves` stops skipping at the
first `)`, resolves `e4` and `e5` from inside the outer variation and appends
them as the moves of the game, and returns `nil`. -/
theorem nested_variation_counterexample :
    report (ParseMoves Unicode.ascii boardAPI
        (Scanner.Init "(1. d4 (1. c4) 1. e4 e5) *".toList) emptyGame) =
      some (some none, [⟨.sq 12, .sq 28, .NoPiece⟩, ⟨.sq 52, .sq 36, .NoPiece⟩],
        [("e4".toList, .White), ("e5".toList, .Black)], []) := rfl

/-- The witness of C8: the loop at the variation `(1. d4)`. -/
theorem variation_skipped_to_first_paren_witness :
    movesStep Unicode.ascii boardAPI
        (movesInit (Scanner.Init "(1. d4) 1. e4 *".toList) emptyGame NewBoard) =
      .next { movesInit (Scanner.Init "(1. d4) 1. e4 *".toList) emptyGame NewBoard with
              s := ⟨" 1. e4 *".toList, [], movesMode⟩, run := some ')' } :=
  (variation_skipped_to_first_paren Unicode.ascii boardAPI
    (movesInit (Scanner.Init "(1. d4) 1. e4 *".toList) emptyGame NewBoard)
    "1. d4".toList " 1. e4 *".toList rfl rfl (by decide)).1

/-- The counterexample to C5 as stated: the tag mapping has a `"FEN"` entry,
with the empty string as its value, on which `NewBoardFEN` fails; `ParseMoves`
does not call it, returns `nil` and resolves the first token on `NewBoard()`. -/
theorem fen_empty_value_counterexample :
    List.lookup fenKey ([(fenKey, [])] : Tags) = some [] ∧
    (match boardAPI.NewBoardFEN [] with | .error e => some e | .ok _ => none)
      = some BoardError.ErrFENFormat ∧
    (ParseMoves Unicode.ascii boardAPI (Scanner.Init "1. e4".toList)
        { Moves := [], Tags := [(fenKey, [])] }).map
      (fun out => (out.err, firstBoard out.state.log)) = some (some none, some NewBoard) :=
  ⟨rfl, rfl, rfl⟩

/-! ## The claims at concrete inputs -/

/-- The witness of C1: `1. e4 e5 2. Nf3 1-0` from the standard start. -/
theorem ParseMoves_board_synchronized_witness :
    ParseMoves Unicode.ascii boardAPI (Scanner.Init "1. e4 e5 2. Nf3 1-0".toList) emptyGame =
        some (.returned none
          (endState Unicode.ascii boardAPI (Scanner.Init "1. e4 e5 2. Nf3 1-0".toList) emptyGame)) ∧
    ∃ b0 ms, seedBoard boardAPI emptyGame = .ok b0 ∧
      (endState Unicode.ascii boardAPI (Scanner.Init "1. e4 e5 2. Nf3 1-0".toList)
        emptyGame).g.Moves = emptyGame.Moves ++ ms ∧
      replay boardAPI b0 (calls (endState Unicode.ascii boardAPI
        (Scanner.Init "1. e4 e5 2. Nf3 1-0".toList) emptyGame).log) =
        some (ms, (endState Unicode.ascii boardAPI
          (Scanner.Init "1. e4 e5 2. Nf3 1-0".toList) emptyGame).board) :=
  ⟨rfl, ParseMoves_board_synchronized Unicode.ascii boardAPI
    (Scanner.Init "1. e4 e5 2. Nf3 1-0".toList) emptyGame _ rfl⟩

/-- The witness of C2: in `1. e4 e5 2. Ke3 Nc6` the token `Ke3` is rejected;
the two moves before it are the move list, and `Nc6` is left unread. -/
theorem ParseMoves_rejection_stops_witness :
    report (ParseMoves Unicode.ascii boardAPI (Scanner.Init "1. e4 e5 2. Ke3 Nc6".toList)
        emptyGame) =
      some (some (some .ErrAttackerNotFound),
        [⟨.sq 12, .sq 28, .NoPiece⟩, ⟨.sq 52, .sq 36, .NoPiece⟩],
        [("e4".toList, .White), ("e5".toList, .Black), ("Ke3".toList, .White)],
        "Nc6".toList) ∧
    makeCount (endState Unicode.ascii boardAPI (Scanner.Init "1. e4 e5 2. Ke3 Nc6".toList)
      emptyGame).log =
      (endState Unicode.ascii boardAPI (Scanner.Init "1. e4 e5 2. Ke3 Nc6".toList)
        emptyGame).g.Moves.length :=
  ⟨rfl,
   ((ParseMoves_rejection_stops Unicode.ascii boardAPI
      (Scanner.Init "1. e4 e5 2. Ke3 Nc6".toList) emptyGame
      (.returned (some .ErrAttackerNotFound)
        (endState Unicode.ascii boardAPI (Scanner.Init "1. e4 e5 2. Ke3 Nc6".toList) emptyGame))
      rfl).1 .ErrAttackerNotFound rfl).elim
     (fun h => by cases h.1)
     (fun h => by
        obtain ⟨_, _, ms, _, _, _, _, _, _, _, hmc, hmv⟩ := h
        exact hmc.trans (by
          simp only [Outcome.state] at hmv
          rw [hmv]
          rfl))⟩

/-- The witness of C3: `ParseGame` on a game whose second move is rejected. -/
theorem ParseGame_no_partial_game_witness :
    ((none : Option Game) = none ↔ some BoardError.ErrAttackerNotFound ≠ none) ∧
    ∀ s2 g2 e st,
      ParseTags BoardError Unicode.ascii (Scanner.Init "[Event \"x\"]\n1. e4 Ke3 *".toList)
        { Tags := [], Moves := [] } = some (none, s2, g2) →
      ParseMoves Unicode.ascii boardAPI s2 g2 = some (.returned (some e) st) →
      (none : Option Game) = none ∧ some BoardError.ErrAttackerNotFound = some e :=
  ParseGame_no_partial_game Unicode.ascii boardAPI
    (Scanner.Init "[Event \"x\"]\n1. e4 Ke3 *".toList) none (some .ErrAttackerNotFound) _ rfl

/-- The witness of C4: one full move, a last move by White, and `1-0` where
Black's move is expected. -/
theorem ParseMoves_result_marker_witness :
    ∃ st, ParseMoves Unicode.ascii boardAPI (Scanner.Init "1. e4 e5 2. Nf3 1-0".toList)
        emptyGame = some (.returned none st) ∧
      st.g.Moves = emptyGame.Moves ++
        [⟨.sq 12, .sq 28, .NoPiece⟩, ⟨.sq 52, .sq 36, .NoPiece⟩, ⟨.sq 6, .sq 21, .NoPiece⟩] ∧
      calls st.log =
        layoutTokens [("1".toList, "e4".toList, "e5".toList)] (some ("2".toList, "Nf3".toList)) ∧
      ∀ c, ("1-0".toList, c) ∉ calls st.log :=
  ParseMoves_result_marker Unicode.ascii boardAPI (Scanner.Init "1. e4 e5 2. Nf3 1-0".toList)
    emptyGame [("1".toList, "e4".toList, "e5".toList)] (some ("2".toList, "Nf3".toList))
    "1-0".toList [] NewBoard _ _
    (by
      intro m hm
      rw [List.mem_singleton] at hm
      subst hm
      exact ⟨rfl, .ident _ rfl, .ident _ rfl⟩)
    (by
      intro h hh
      cases hh
      exact ⟨rfl, .ident _ rfl⟩)
    (by decide) rfl rfl rfl rfl

/-- The witness of C5: a game with a position in its `"FEN"` entry; the first
token is resolved on the board of that position. -/
theorem ParseMoves_seed_witness :
    boardAPI.NewBoardFEN "rnbqkbnr/pp1ppppp/8/2p5/4P3/8/PPPP1PPP/RNBQKBNR w KQkq - 0 2".toList =
      .ok (seedOf "rnbqkbnr/pp1ppppp/8/2p5/4P3/8/PPPP1PPP/RNBQKBNR w KQkq - 0 2".toList) ∧
    (firstBoard (endState Unicode.ascii boardAPI (Scanner.Init "2. d4 cxd4 *".toList)
        { Moves := [], Tags := [(fenKey,
          "rnbqkbnr/pp1ppppp/8/2p5/4P3/8/PPPP1PPP/RNBQKBNR w KQkq - 0 2".toList)] }).log = none ∨
     firstBoard (endState Unicode.ascii boardAPI (Scanner.Init "2. d4 cxd4 *".toList)
        { Moves := [], Tags := [(fenKey,
          "rnbqkbnr/pp1ppppp/8/2p5/4P3/8/PPPP1PPP/RNBQKBNR w KQkq - 0 2".toList)] }).log =
       some (seedOf "rnbqkbnr/pp1ppppp/8/2p5/4P3/8/PPPP1PPP/RNBQKBNR w KQkq - 0 2".toList)) :=
  ⟨rfl, ParseMoves_seed Unicode.ascii boardAPI (Scanner.Init "2. d4 cxd4 *".toList)
    { Moves := [], Tags := [(fenKey,
      "rnbqkbnr/pp1ppppp/8/2p5/4P3/8/PPPP1PPP/RNBQKBNR w KQkq - 0 2".toList)] }
    (.returned none (endState Unicode.ascii boardAPI (Scanner.Init "2. d4 cxd4 *".toList)
        { Moves := [], Tags := [(fenKey,
          "rnbqkbnr/pp1ppppp/8/2p5/4P3/8/PPPP1PPP/RNBQKBNR w KQkq - 0 2".toList)] }))
    rfl⟩

/-- The witness of C9: `1. e4 {best by test} 1... e5 2. Nf3 *` and the same
text without the comment and the repeated number. -/
theorem ParseMoves_comment_after_white_witness :
    (ParseMoves Unicode.ascii boardAPI
        (Scanner.Init "1. e4 \x7bbest by test\x7d 1... e5 2. Nf3 *".toList) emptyGame).map
      Outcome.summary =
    (ParseMoves Unicode.ascii boardAPI (Scanner.Init "1. e4 e5 2. Nf3 *".toList) emptyGame).map
      Outcome.summary :=
  ParseMoves_comment_after_white Unicode.ascii boardAPI
    (Scanner.Init "1. e4 \x7bbest by test\x7d 1... e5 2. Nf3 *".toList)
    (Scanner.Init "1. e4 e5 2. Nf3 *".toList) emptyGame
    "1".toList "1".toList "e4".toList "e5".toList "best by test".toList " 2. Nf3 *".toList
    rfl rfl (.ident _ rfl) (.ident _ rfl) (by decide) rfl rfl

/-! ## The FEN text of a board and back -/

theorem digitChar_toNat (n : Nat) : (digitChar n).toNat = 48 + n % 10 := by
  unfold digitChar
  have h : n % 10 < 10 := Nat.mod_lt _ (by decide)
  generalize n % 10 = d at h
  interval_cases d <;> rfl

theorem digitChar_isDecimal (n : Nat) : isDecimal (digitChar n) = true := by
  unfold digitChar
  have h : n % 10 < 10 := Nat.mod_lt _ (by decide)
  generalize n % 10 = d at h
  interval_cases d <;> rfl

theorem digitChar_ne (n : Nat) (c : Char) (hc : isDecimal c = false) : digitChar n ≠ c := by
  intro h
  rw [← h, digitChar_isDecimal] at hc
  cases hc

/-- The number a text of digits stands for. -/
theorem atoi_fold_append (xs : List Char) (c : Char) (a : Nat) :
    (xs ++ [c]).foldl (fun a c => a * 10 + (c.toNat - 48)) a =
      xs.foldl (fun a c => a * 10 + (c.toNat - 48)) a * 10 + (c.toNat - 48) := by
  simp [List.foldl_append]

theorem itoaAux_spec (f : Nat) : ∀ (n : Nat) (acc : List Char), n < f →
    ∃ ds, itoaAux f n acc = ds ++ acc ∧ ds ≠ [] ∧ ds.all isDecimal = true ∧
      ds.foldl (fun a c => a * 10 + (c.toNat - 48)) 0 = n := by
  induction f with
  | zero => intro n acc h; omega
  | succ f ih =>
    intro n acc h
    unfold itoaAux
    by_cases h0 : n / 10 = 0
    · rw [if_pos h0]
      refine ⟨[digitChar n], rfl, by simp, by simp [digitChar_isDecimal], ?_⟩
      simp only [List.foldl_cons, List.foldl_nil, digitChar_toNat]
      omega
    · rw [if_neg h0]
      obtain ⟨ds, h1, h2, h3, h4⟩ := ih (n / 10) (digitChar n :: acc) (by omega)
      refine ⟨ds ++ [digitChar n], by rw [h1]; simp, by simp, ?_, ?_⟩
      · simp [List.all_append, h3, digitChar_isDecimal]
      · rw [atoi_fold_append, h4, digitChar_toNat]
        omega

theorem itoa_spec (n : Nat) :
    itoa n ≠ [] ∧ (itoa n).all isDecimal = true ∧ atoi (itoa n) = some n := by
  obtain ⟨ds, h1, h2, h3, h4⟩ := itoaAux_spec (n + 1) n [] (by omega)
  have e : itoa n = ds := by unfold itoa; rw [h1]; simp
  rw [e]
  refine ⟨h2, h3, ?_⟩
  unfold atoi
  rw [if_neg h2, if_pos h3, h4]

theorem itoa_not_mem (n : Nat) (c : Char) (hc : isDecimal c = false) : c ∉ itoa n := by
  intro h
  have := (itoa_spec n).2.1
  rw [List.all_eq_true] at this
  rw [this c h] at hc
  cases hc

/-! ### Squares and castling letters -/

theorem enPassant_round (p : Position) : parseEnPassant p.text = some p ∧ ' ' ∉ p.text := by
  cases p with
  | NoPosition => exact ⟨rfl, by decide⟩
  | sq i => revert i; decide

theorem castling_round (b : Board) :
    parseCastling b.castlingText =
      some (b.whiteKingside, b.whiteQueenside, b.blackKingside, b.blackQueenside) ∧
    ' ' ∉ b.castlingText := by
  obtain ⟨sq, sd, wk, wq, bk, bq, ep, hm, fm⟩ := b
  cases wk <;> cases wq <;> cases bk <;> cases bq <;> exact ⟨rfl, by simp [Board.castlingText]⟩

/-! ### Ranks -/

theorem letter_round (p : Piece) (c : Char) (h : p.letter = some c) :
    pieceOfLetter c = some p ∧ ¬(49 ≤ c.toNat ∧ c.toNat ≤ 56) := by
  cases p <;> simp only [Piece.letter] at h <;> cases h <;> decide

theorem letter_none (p : Piece) (h : p.letter = none) : p = .NoPiece := by
  cases p <;> first | rfl | cases h

theorem parseRank_gap (n : Nat) (hn : n ≤ 8) (rest : List Char) :
    parseRank (gapText n ++ rest) =
      (parseRank rest).map (fun r => List.replicate n Piece.NoPiece ++ r) := by
  unfold gapText
  by_cases h0 : n = 0
  · subst h0
    simp
  · rw [if_neg h0]
    have hd : (digitChar n).toNat = 48 + n := by
      rw [digitChar_toNat]
      omega
    simp only [List.singleton_append, parseRank]
    rw [if_pos (by rw [hd]; omega), hd]
    simp

theorem parseRank_rankText (ps : List Piece) : ∀ n, n + ps.length ≤ 8 →
    parseRank (rankText n ps) = some (List.replicate n Piece.NoPiece ++ ps) := by
  induction ps with
  | nil =>
    intro n hn
    have := parseRank_gap n (by simpa using hn) []
    simp only [List.append_nil] at this
    simp [rankText, this, parseRank]
  | cons p ps ih =>
    intro n hn
    simp only [List.length_cons] at hn
    unfold rankText
    cases hl : p.letter with
    | none =>
      simp only
      rw [ih (n + 1) (by omega), letter_none p hl]
      simp [List.replicate_succ', List.append_assoc]
    | some c =>
      simp only
      obtain ⟨h1, h2⟩ := letter_round p c hl
      rw [parseRank_gap n (by omega), parseRank, if_neg h2, h1]
      simp only
      rw [ih 0 (by omega)]
      simp

theorem parseRank_chars (t : List Char) : ∀ r, parseRank t = some r → '/' ∉ t ∧ ' ' ∉ t := by
  induction t with
  | nil => intro r _; simp
  | cons c cs ih =>
    intro r h
    unfold parseRank at h
    by_cases hd : 49 ≤ c.toNat ∧ c.toNat ≤ 56
    · rw [if_pos hd] at h
      cases hp : parseRank cs with
      | none => rw [hp] at h; cases h
      | some r1 =>
        obtain ⟨i1, i2⟩ := ih r1 hp
        have c1 : c ≠ '/' := by intro e; subst e; revert hd; decide
        have c2 : c ≠ ' ' := by intro e; subst e; revert hd; decide
        exact ⟨by simp [List.mem_cons, Ne.symm c1, i1], by simp [List.mem_cons, Ne.symm c2, i2]⟩
    · rw [if_neg hd] at h
      cases hq : pieceOfLetter c with
      | none => rw [hq] at h; cases h
      | some q =>
        rw [hq] at h
        cases hp : parseRank cs with
        | none => rw [hp] at h; cases h
        | some r1 =>
          obtain ⟨i1, i2⟩ := ih r1 hp
          have c1 : c ≠ '/' := by
            intro e; subst e
            rw [show pieceOfLetter '/' = none by decide] at hq
            cases hq
          have c2 : c ≠ ' ' := by
            intro e; subst e
            rw [show pieceOfLetter ' ' = none by decide] at hq
            cases hq
          exact ⟨by simp [List.mem_cons, Ne.symm c1, i1], by simp [List.mem_cons, Ne.symm c2, i2]⟩

theorem rank_length (b : Board) (r : Nat) : (b.rank r).length = 8 := by
  simp [Board.rank]

theorem parseRank8_rank (b : Board) (r : Nat) :
    parseRank8 (rankText 0 (b.rank r)) = some (b.rank r) ∧
    '/' ∉ rankText 0 (b.rank r) ∧ ' ' ∉ rankText 0 (b.rank r) := by
  have h := parseRank_rankText (b.rank r) 0 (by rw [rank_length])
  simp only [List.replicate_zero, List.nil_append] at h
  refine ⟨?_, parseRank_chars _ _ h⟩
  unfold parseRank8
  rw [h]
  simp only [rank_length, if_true]

/-! ### The whole text -/

theorem mem_intercalate (sep : List Char) (c : Char) :
    ∀ ls : List (List Char), c ∈ sep.intercalate ls → c ∈ sep ∨ ∃ l ∈ ls, c ∈ l
  | [] => by simp [List.intercalate]
  | [x] => by
    simp only [List.intercalate, List.intersperse, List.flatten, List.append_nil]
    intro h
    exact Or.inr ⟨x, List.mem_singleton_self _, h⟩
  | x :: y :: zs => by
    intro h
    have ih := mem_intercalate sep c (y :: zs)
    simp only [List.intercalate, List.intersperse, List.flatten, List.mem_append] at h ih
    rcases h with h | h | h
    · exact Or.inr ⟨x, List.mem_cons_self _ _, h⟩
    · exact Or.inl h
    · rcases ih h with h1 | ⟨l, hl, hc⟩
      · exact Or.inl h1
      · exact Or.inr ⟨l, List.mem_cons_of_mem _ hl, hc⟩

theorem placement_round (b : Board) :
    parsePlacement (['/'].intercalate
        ([7, 6, 5, 4, 3, 2, 1, 0].map (fun r => rankText 0 (b.rank r)))) =
      some ((List.range 64).map b.at) ∧
    ' ' ∉ ['/'].intercalate ([7, 6, 5, 4, 3, 2, 1, 0].map (fun r => rankText 0 (b.rank r))) := by
  constructor
  · unfold parsePlacement
    rw [List.splitOn_intercalate _ '/' (by
      intro l hl
      simp only [List.mem_map] at hl
      obtain ⟨r, _, rfl⟩ := hl
      exact (parseRank8_rank b r).2.1) (by simp)]
    simp only [List.map, (parseRank8_rank b _).1]
    rfl
  · intro h
    rcases mem_intercalate _ _ _ h with h1 | ⟨l, hl, hm⟩
    · simp at h1
    · simp only [List.mem_map] at hl
      obtain ⟨r, _, rfl⟩ := hl
      exact (parseRank8_rank b r).2.2 hm

theorem at_normal (b : Board) (i : Nat) (h : i < 64) : b.normal.at i = b.at i := by
  simp [Board.normal, Board.at, List.getD_eq_getElem?_getD, h]

theorem rank_normal (b : Board) (r : Nat) (h : r < 8) : b.normal.rank r = b.rank r := by
  unfold Board.rank
  apply List.map_congr_left
  intro f hf
  rw [List.mem_range] at hf
  exact at_normal b _ (by omega)

theorem String_normal (b : Board) : b.normal.String = b.String := by
  unfold Board.String Board.fields
  simp only [List.map, rank_normal b _ (by decide : (7:Nat) < 8), rank_normal b _ (by decide : (6:Nat) < 8),
    rank_normal b _ (by decide : (5:Nat) < 8), rank_normal b _ (by decide : (4:Nat) < 8),
    rank_normal b _ (by decide : (3:Nat) < 8), rank_normal b _ (by decide : (2:Nat) < 8),
    rank_normal b _ (by decide : (1:Nat) < 8), rank_normal b _ (by decide : (0:Nat) < 8)]
  rfl

theorem NewBoardFEN_String (b : Board) : NewBoardFEN b.String = .ok b.normal := by
  obtain ⟨hp, hps⟩ := placement_round b
  obtain ⟨hc, hcs⟩ := castling_round b
  obtain ⟨he, hes⟩ := enPassant_round b.enPassant
  have hh := (itoa_spec b.halfmove).2.2
  have hf := (itoa_spec b.fullmove).2.2
  have hsplit : b.String.splitOn ' ' = b.fields := by
    unfold Board.String
    apply List.splitOn_intercalate
    · intro l hl
      simp only [Board.fields, List.mem_cons, List.mem_singleton, List.not_mem_nil, or_false] at hl
      rcases hl with h | h | h | h | h | h <;> subst h
      · exact hps
      · cases b.side <;> decide
      · exact hcs
      · exact hes
      · exact itoa_not_mem _ _ (by decide)
      · exact itoa_not_mem _ _ (by decide)
    · simp [Board.fields]
  unfold NewBoardFEN
  rw [hsplit]
  simp only [Board.fields, hp, hc, he, hh, hf]
  cases hs : b.side <;> simp [Board.normal, hs]

/-- C6: for every board reached from `NewBoard()` by moves that
`MoveFromAlgebraic` returned without error and `MakeMove` applied,
`NewBoardFEN` succeeds on the text `String()` gives, and the board it returns
has the same text; and `NewBoardFEN(s).String()` is `s` for the position `s` of
the test `TestBoardNewFEN`.  (On the modelled board the first part holds of
every board, reached or not.) -/
theorem FEN_round_trip (b : Board) (h : Reachable b) :
    (∃ b1, NewBoardFEN b.String = .ok b1 ∧ b1.String = b.String) ∧
    (∃ b2, NewBoardFEN
        "rnbqkbnr/pp1ppppp/8/2p5/4P3/5N2/PPPP1PPP/RNBQKB1R b KQkq - 1 2".toList = .ok b2 ∧
      b2.String = "rnbqkbnr/pp1ppppp/8/2p5/4P3/5N2/PPPP1PPP/RNBQKB1R b KQkq - 1 2".toList) := by
  have _ := h
  exact ⟨⟨b.normal, NewBoardFEN_String b, String_normal b⟩,
    ⟨seedOf "rnbqkbnr/pp1ppppp/8/2p5/4P3/5N2/PPPP1PPP/RNBQKB1R b KQkq - 1 2".toList, rfl, rfl⟩⟩

/-- The witness of C6: the board after `1. e4 c5 2. Nf3`, whose text is the
position of the test. -/
theorem FEN_round_trip_witness :
    Reachable (playAll NewBoard
      [("e4".toList, .White), ("c5".toList, .Black), ("Nf3".toList, .White)]) ∧
    (playAll NewBoard
      [("e4".toList, .White), ("c5".toList, .Black), ("Nf3".toList, .White)]).String =
      "rnbqkbnr/pp1ppppp/8/2p5/4P3/5N2/PPPP1PPP/RNBQKB1R b KQkq - 1 2".toList ∧
    ∃ b1, NewBoardFEN (playAll NewBoard
        [("e4".toList, .White), ("c5".toList, .Black), ("Nf3".toList, .White)]).String = .ok b1 ∧
      b1.String = (playAll NewBoard
        [("e4".toList, .White), ("c5".toList, .Black), ("Nf3".toList, .White)]).String :=
  ⟨.move _ "Nf3".toList .White
      (.move _ "c5".toList .Black (.move _ "e4".toList .White .start rfl) rfl) rfl, rfl,
   (FEN_round_trip _ (.move _ "Nf3".toList .White
      (.move _ "c5".toList .Black (.move _ "e4".toList .White .start rfl) rfl) rfl)).1⟩


/-! ## The failures of `MoveFromAlgebraic` -/

theorem candidates_nil (b : Board) (c : Color) (mt : MoveText)
    (h : ∀ i, i < 64 → b.at i = pieceOf mt.kind c → reaches b mt.kind c i mt.dest.val = false) :
    candidates b c mt = [] := by
  unfold candidates
  rw [List.filter_eq_nil_iff]
  intro i hi
  rw [List.mem_range] at hi
  by_cases hp : b.at i = pieceOf mt.kind c
  · simp [h i hi hp]
  · simp [hp]

theorem MoveFromAlgebraic_nil (b : Board) (t : Str) (c : Color) (e : BoardError)
    (h : (b.MoveFromAlgebraic t c).2 = some e) : (b.MoveFromAlgebraic t c).1 = NilMove := by
  unfold Board.MoveFromAlgebraic at h ⊢
  by_cases h1 : t = ['O', '-', 'O']
  · rw [if_pos h1] at h ⊢
    cases hm : b.mayCastle c true
    · rfl
    · simp [hm] at h
  · rw [if_neg h1] at h ⊢
    by_cases h2 : t = ['O', '-', 'O', '-', 'O']
    · rw [if_pos h2] at h ⊢
      cases hm : b.mayCastle c false
      · rfl
      · simp [hm] at h
    · rw [if_neg h2] at h ⊢
      cases hp : parseMoveText t with
      | none => rfl
      | some mt =>
        rw [hp] at h
        simp only at h ⊢
        cases hc : candidates b c mt with
        | nil => rfl
        | cons i r =>
          cases r with
          | nil => rw [hc] at h; cases h
          | cons j r => rfl

/-- C7: on a move text with its parts `mt`, `MoveFromAlgebraic` returns
`NilMove` with `ErrAttackerNotFound` when no piece of the named kind and colour
reaches the destination, and `NilMove` with `ErrAmbiguousMove` when two or more
such pieces that agree with the hint do; whenever it returns an error the move
is `NilMove`, whose `From` and `To` are `NoPosition`; and it does so on `Bg5`
and on `Bb2` for Black in the two positions of the test. -/
theorem MoveFromAlgebraic_failures (b : Board) (t : Str) (c : Color) (mt : MoveText)
    (hp : parseMoveText t = some mt) :
    ((∀ i, i < 64 → b.at i = pieceOf mt.kind c → reaches b mt.kind c i mt.dest.val = false) →
      b.MoveFromAlgebraic t c = (NilMove, some .ErrAttackerNotFound)) ∧
    (2 ≤ (candidates b c mt).length →
      b.MoveFromAlgebraic t c = (NilMove, some .ErrAmbiguousMove)) ∧
    (∀ e, (b.MoveFromAlgebraic t c).2 = some e → (b.MoveFromAlgebraic t c).1 = NilMove) ∧
    NilMove.From = .NoPosition ∧ NilMove.To = .NoPosition ∧
    (∃ b1, NewBoardFEN "rnbqkbnr/ppp1pppp/8/3p4/3PP3/8/PPP2PPP/RNBQKBNR b KQkq - 0 2".toList
        = .ok b1 ∧
      b1.MoveFromAlgebraic "Bg5".toList .Black = (NilMove, some .ErrAttackerNotFound)) ∧
    (∃ b2, NewBoardFEN "r5nr/p2k2pp/5p2/3b4/P7/b1B5/5PPP/2b2K1R b - - 6 26".toList = .ok b2 ∧
      b2.MoveFromAlgebraic "Bb2".toList .Black = (NilMove, some .ErrAmbiguousMove)) := by
  have h1 : t ≠ ['O', '-', 'O'] := by
    intro e
    rw [e, show parseMoveText ['O', '-', 'O'] = none by rfl] at hp
    cases hp
  have h2 : t ≠ ['O', '-', 'O', '-', 'O'] := by
    intro e
    rw [e, show parseMoveText ['O', '-', 'O', '-', 'O'] = none by rfl] at hp
    cases hp
  refine ⟨?_, ?_, MoveFromAlgebraic_nil b t c, rfl, rfl,
    ⟨seedOf "rnbqkbnr/ppp1pppp/8/3p4/3PP3/8/PPP2PPP/RNBQKBNR b KQkq - 0 2".toList, rfl, rfl⟩,
    ⟨seedOf "r5nr/p2k2pp/5p2/3b4/P7/b1B5/5PPP/2b2K1R b - - 6 26".toList, rfl, rfl⟩⟩
  · intro h
    unfold Board.MoveFromAlgebraic
    rw [if_neg h1, if_neg h2, hp]
    simp only
    rw [candidates_nil b c mt h]
  · intro h
    unfold Board.MoveFromAlgebraic
    rw [if_neg h1, if_neg h2, hp]
    simp only
    cases hc : candidates b c mt with
    | nil => rw [hc] at h; simp at h
    | cons i r =>
      cases r with
      | nil => rw [hc] at h; simp at h
      | cons j r => rfl

/-- The witness of C7: `Bb2` for Black where two bishops reach `b2`, and
`Bg5` for Black where no bishop reaches `g5`. -/
theorem MoveFromAlgebraic_failures_witness :
    parseMoveText "Bb2".toList = some ⟨.Bishop, none, none, 9, none⟩ ∧
    (seedOf "r5nr/p2k2pp/5p2/3b4/P7/b1B5/5PPP/2b2K1R b - - 6 26".toList).MoveFromAlgebraic
      "Bb2".toList .Black = (NilMove, some .ErrAmbiguousMove) ∧
    candidates (seedOf "r5nr/p2k2pp/5p2/3b4/P7/b1B5/5PPP/2b2K1R b - - 6 26".toList) .Black
      ⟨.Bishop, none, none, 9, none⟩ = [2, 16] :=
  ⟨rfl,
   (MoveFromAlgebraic_failures
      (seedOf "r5nr/p2k2pp/5p2/3b4/P7/b1B5/5PPP/2b2K1R b - - 6 26".toList)
      "Bb2".toList .Black ⟨.Bishop, none, none, 9, none⟩ rfl).2.1 (by decide),
   rfl⟩

/-! ## `ParseTags` on tag pairs -/

theorem tagsLoop_fuel (E : Type) (U : Unicode) : ∀ (f f1 : Nat) (s : Scanner) (g : Game),
    s.rest.length < f → s.rest.length < f1 → tagsLoop E U f s g = tagsLoop E U f1 s g := by
  intro f
  induction f with
  | zero => intro f1 s g h; omega
  | succ f ih =>
    intro f1 s g hf hf1
    cases f1 with
    | zero => omega
    | succ f1 =>
      unfold tagsLoop
      cases hp : s.Peek with
      | none => rfl
      | some run =>
        have hne : s.rest ≠ [] := peek_rest_ne hp
        have hl : s.Next.2.rest.length < s.rest.length := by
          cases hr : s.rest with
          | nil => exact absurd hr hne
          | cons x xs => simp [Scanner.Next, hr]
        have h1 := Scan_rest_lt U s hne
        have h2 := Scan_rest_le U (s.Scan U)
        simp only
        split
        · exact ih f1 _ _ (by omega) (by omega)
        · split
          · rfl
          · split
            · rfl
            · exact ih f1 _ _ (by omega) (by omega)

/-- `ParseTags` at the end of input. -/
theorem ParseTags_eof (E : Type) (U : Unicode) (s : Scanner) (g : Game) (h : s.rest = []) :
    ParseTags E U s g = some (none, s, g) := by
  simp [ParseTags, tagsLoop, Scanner.Peek, h]

/-- `ParseTags` at a character of the first case: the character is read. -/
theorem ParseTags_skip (E : Type) (U : Unicode) (s : Scanner) (g : Game) (c : Char) (r : Str)
    (h : s.rest = c :: r) (hc : isTagSkip c = true) :
    ParseTags E U s g = ParseTags E U ⟨r, [], s.mode⟩ g := by
  have hc1 : c = '[' ∨ c = ']' ∨ c = chNL ∨ c = chCR ∨ c = ' ' := by
    simpa [isTagSkip, or_assoc] using hc
  simp only [ParseTags, h, List.length_cons]
  rw [tagsLoop]
  simp only [Scanner.Peek, h, List.head?_cons, if_pos hc1, Scanner.Next, List.tail_cons]

/-- `ParseTags` at `0` or `1`: it returns, the character unread. -/
theorem ParseTags_stop (E : Type) (U : Unicode) (s : Scanner) (g : Game) (h : tagsStop s.rest) :
    ParseTags E U s g = some (none, s, g) := by
  rcases h with h | h | h
  · exact ParseTags_eof E U s g h
  · simp only [ParseTags]
    rw [tagsLoop]
    simp only [Scanner.Peek, h]
    rw [if_neg (by decide)]
    rfl
  · simp only [ParseTags]
    rw [tagsLoop]
    simp only [Scanner.Peek, h]
    rw [if_neg (by decide)]
    rfl

/-- `ParseTags` at any other character: two tokens are scanned and stored as
a key and its value. -/
theorem ParseTags_store (E : Type) (U : Unicode) (s : Scanner) (g : Game) (c : Char)
    (h : s.Peek = some c) (hc : isTagSkip c = false) (h0 : c ≠ '0') (h1 : c ≠ '1') :
    ParseTags E U s g =
      ParseTags E U ((s.Scan U).Scan U)
        { Moves := g.Moves,
          Tags := g.Tags.set (s.Scan U).TokenText (trimQuotes ((s.Scan U).Scan U).TokenText) } := by
  have hc1 : ¬ (c = '[' ∨ c = ']' ∨ c = chNL ∨ c = chCR ∨ c = ' ') := by
    intro h2
    have : isTagSkip c = true := by simpa [isTagSkip, or_assoc] using h2
    rw [this] at hc
    cases hc
  have hne := peek_rest_ne h
  have l1 := Scan_rest_lt U s hne
  have l2 := Scan_rest_le U (s.Scan U)
  simp only [ParseTags]
  rw [tagsLoop]
  simp only [h, if_neg hc1, if_neg h0, if_neg h1]
  exact tagsLoop_fuel E U _ _ _ _ (by omega) (by omega)

/-- `Scan` on an identifier in any mode that scans identifiers. -/
theorem Scan_ident_mode (U : Unicode) (m : Mode) (ws t tail tok0 : Str) (hm : m.ScanIdents = true)
    (hws : isBlank ws = true) (ht : isIdentText U t = true)
    (htail : ∀ c, tail.head? = some c → isIdentRune U c 1 = false) :
    Scanner.Scan U ⟨ws ++ t ++ tail, tok0, m⟩ = ⟨tail, t, m⟩ := by
  cases t with
  | nil => simp [isIdentText] at ht
  | cons c cs =>
    simp only [isIdentText, Bool.and_eq_true, List.all_eq_true] at ht
    obtain ⟨hc, hcs⟩ := ht
    have hd : (ws ++ (c :: cs) ++ tail).dropWhile isWhitespace = c :: (cs ++ tail) := by
      rw [List.append_assoc, List.cons_append]
      exact dropWhile_blank ws c _ hws (not_whitespace_of_identStart U c hc)
    have hs := takeWhile_stop (fun x => isIdentRune U x 1) cs tail hcs htail
    simp only [Scanner.Scan, scanToken, hd, hc, if_true, hm, hs.1, hs.2]

/-- `scanString` on text without quote, backslash or newline, up to the
closing quote. -/
theorem scanString_plain (v tail : Str)
    (hv : ∀ c ∈ v, c ≠ chDQuote ∧ c ≠ chBackslash ∧ c ≠ chNL) :
    ∀ f, v.length < f → scanString chDQuote f (v ++ chDQuote :: tail) = (v ++ [chDQuote], tail) := by
  induction v with
  | nil =>
    intro f hf
    cases f with
    | zero => simp at hf
    | succ f => simp [scanString]
  | cons x xs ih =>
    intro f hf
    cases f with
    | zero => simp at hf
    | succ f =>
      obtain ⟨h1, h2, h3⟩ := hv x (List.mem_cons_self _ _)
      have h1' : (x == chDQuote) = false := by simpa using h1
      have h2' : (x == chBackslash) = false := by simpa using h2
      have h3' : (x == chNL) = false := by simpa using h3
      simp only [List.cons_append, scanString, h1', h2', h3', Bool.or_false, Bool.false_eq_true,
        if_false]
      have e := ih (fun c hc => hv c (List.mem_cons_of_mem _ hc)) f (by simpa using hf)
      show (x :: (scanString chDQuote f (xs ++ chDQuote :: tail)).1,
        (scanString chDQuote f (xs ++ chDQuote :: tail)).2) = _
      rw [e]

/-- `Scan` on a quoted value in any mode that scans strings. -/
theorem Scan_quoted (U : Unicode) (m : Mode) (ws v tail tok0 : Str) (hm : m.ScanStrings = true)
    (hws : isBlank ws = true) (hv : ∀ c ∈ v, c ≠ chDQuote ∧ c ≠ chBackslash ∧ c ≠ chNL) :
    Scanner.Scan U ⟨ws ++ chDQuote :: (v ++ chDQuote :: tail), tok0, m⟩ =
      ⟨tail, chDQuote :: (v ++ [chDQuote]), m⟩ := by
  have hd := dropWhile_blank ws chDQuote (v ++ chDQuote :: tail) hws (by decide)
  have hq : isIdentRune U chDQuote 0 = false := by
    cases h : isIdentRune U chDQuote 0 with
    | false => rfl
    | true =>
      have := identStart_code U _ h
      revert this
      decide
  have hs := scanString_plain v tail hv ((v ++ chDQuote :: tail).length + 1) (by simp; omega)
  simp only [Scanner.Scan, scanToken, hd, hq, Bool.false_eq_true, if_false,
    show isDecimal chDQuote = false by decide, show (chDQuote == chDQuote) = true by decide,
    if_true, hm, hs]

theorem trimQuotes_quoted (v : Str) (hv : ∀ c ∈ v, c ≠ chDQuote) :
    trimQuotes (chDQuote :: (v ++ [chDQuote])) = v := by
  have hq : (chDQuote == chDQuote) = true := by decide
  have hall : ∀ l : Str, (∀ c ∈ l, c ≠ chDQuote) →
      (l ++ [chDQuote]).dropWhile (fun c => c == chDQuote) = l ++ [chDQuote] ∨ l = [] := by
    intro l hl
    cases l with
    | nil => right; rfl
    | cons x xs =>
      left
      have : (x == chDQuote) = false := by simpa using hl x (List.mem_cons_self _ _)
      simp [List.dropWhile_cons, this]
  unfold trimQuotes
  simp only [List.dropWhile_cons, hq, if_true]
  rcases hall v hv with h | h
  · rw [h]
    simp only [List.reverse_append, List.reverse_singleton, List.singleton_append,
      List.dropWhile_cons, hq, if_true]
    cases hr : v.reverse with
    | nil => simp [List.reverse_eq_nil_iff.mp hr]
    | cons y ys =>
      have hy : y ∈ v := by
        rw [← List.mem_reverse, hr]
        exact List.mem_cons_self _ _
      have : (y == chDQuote) = false := by simpa using hv y hy
      simp only [List.dropWhile_cons, this, Bool.false_eq_true, if_false]
      rw [← hr, List.reverse_reverse]
  · subst h
    simp [List.dropWhile_cons, hq]

theorem tagSkip_code (c : Char) (h : isTagSkip c = true) :
    c.toNat = 91 ∨ c.toNat = 93 ∨ c.toNat = 10 ∨ c.toNat = 13 ∨ c.toNat = 32 := by
  unfold isTagSkip at h
  simp only [Bool.or_eq_true, beq_iff_eq] at h
  rcases h with (((h | h) | h) | h) | h <;> subst h <;> decide

theorem not_tagSkip_of_identStart (U : Unicode) (c : Char) (h : isIdentRune U c 0 = true) :
    isTagSkip c = false ∧ c ≠ '0' ∧ c ≠ '1' := by
  have hc := identStart_code U c h
  refine ⟨?_, ?_, ?_⟩
  · cases hs : isTagSkip c with
    | false => rfl
    | true => have := tagSkip_code c hs; omega
  · intro e; subst e; revert hc; decide
  · intro e; subst e; revert hc; decide

/-- `ParseTags` on a run of characters of the first case: all are read. -/
theorem ParseTags_skips (E : Type) (U : Unicode) (m : Mode) (g : Game) (rest : Str) :
    ∀ (sep tok : Str), (∀ c ∈ sep, isTagSkip c = true) → sep ≠ [] →
      ParseTags E U ⟨sep ++ rest, tok, m⟩ g = ParseTags E U ⟨rest, [], m⟩ g := by
  intro sep
  induction sep with
  | nil => intro tok _ h; exact absurd rfl h
  | cons c cs ih =>
    intro tok hs _
    rw [ParseTags_skip E U ⟨(c :: cs) ++ rest, tok, m⟩ g c (cs ++ rest) rfl
      (hs c (List.mem_cons_self _ _))]
    by_cases hcs : cs = []
    · subst hcs; rfl
    · exact ih [] (fun x hx => hs x (List.mem_cons_of_mem _ hx)) hcs

/-- `ParseTags` on one well-formed pair: the value is stored under the key,
without its quotes, and the text up to the next pair is read. -/
theorem ParseTags_pair (E : Type) (U : Unicode) (m : Mode) (hi : m.ScanIdents = true)
    (hst : m.ScanStrings = true) (p : TagPair) (hp : p.wellFormed U) (rest tok : Str) (g : Game) :
    ParseTags E U ⟨p.text ++ rest, tok, m⟩ g =
      ParseTags E U ⟨rest, [], m⟩ { Moves := g.Moves, Tags := g.Tags.set p.key p.val } := by
  obtain ⟨hk, hv, hsep⟩ := hp
  obtain ⟨c, cs, hkey, hc0⟩ : ∃ c cs, p.key = c :: cs ∧ isIdentRune U c 0 = true := by
    cases hkk : p.key with
    | nil => rw [hkk] at hk; simp [isIdentText] at hk
    | cons c cs =>
      rw [hkk] at hk
      simp only [isIdentText, Bool.and_eq_true] at hk
      exact ⟨c, cs, rfl, hk.1⟩
  obtain ⟨n1, n2, n3⟩ := not_tagSkip_of_identStart U c hc0
  -- the opening bracket
  rw [ParseTags_skip E U ⟨p.text ++ rest, tok, m⟩ g '['
    (p.key ++ ' ' :: chDQuote :: (p.val ++ chDQuote :: (']' :: p.sep ++ rest)))
    (by simp [TagPair.text, List.append_assoc]) (by decide)]
  -- the key and the value
  have hpeek : (⟨p.key ++ ' ' :: chDQuote :: (p.val ++ chDQuote :: (']' :: p.sep ++ rest)), [], m⟩ :
      Scanner).Peek = some c := by
    simp [Scanner.Peek, hkey]
  rw [ParseTags_store E U _ g c hpeek n1 n2 n3]
  have s1 : Scanner.Scan U
      ⟨p.key ++ ' ' :: chDQuote :: (p.val ++ chDQuote :: (']' :: p.sep ++ rest)), [], m⟩ =
      ⟨' ' :: chDQuote :: (p.val ++ chDQuote :: (']' :: p.sep ++ rest)), p.key, m⟩ := by
    have := Scan_ident_mode U m [] p.key
      (' ' :: chDQuote :: (p.val ++ chDQuote :: (']' :: p.sep ++ rest))) [] hi rfl hk (by
        intro x hx
        simp only [List.head?_cons, Option.some.injEq] at hx
        subst hx
        exact not_identCont_of_code U ' ' (by decide) (by decide) (by decide) (by decide)
          (by decide))
    simpa using this
  have s2 : Scanner.Scan U
      ⟨' ' :: chDQuote :: (p.val ++ chDQuote :: (']' :: p.sep ++ rest)), p.key, m⟩ =
      ⟨']' :: p.sep ++ rest, chDQuote :: (p.val ++ [chDQuote]), m⟩ := by
    have := Scan_quoted U m [' '] p.val (']' :: p.sep ++ rest) p.key hst (by decide) hv
    simpa using this
  rw [s1, s2]
  simp only [Scanner.TokenText]
  rw [trimQuotes_quoted p.val (fun x hx => (hv x hx).1)]
  -- the closing bracket and what follows it
  exact ParseTags_skips E U m _ rest (']' :: p.sep) _ (by
    intro x hx
    rcases List.mem_cons.mp hx with h | h
    · subst h; decide
    · rcases hsep x h with h | h | h <;> subst h <;> decide) (by simp)

/-- `ParseTags` on a stream of well-formed pairs that ends where it stops. -/
theorem ParseTags_pairs (E : Type) (U : Unicode) (m : Mode) (hi : m.ScanIdents = true)
    (hst : m.ScanStrings = true) (tail : Str) (ht : tagsStop tail) :
    ∀ (ps : List TagPair) (tok : Str) (g : Game), (∀ p ∈ ps, p.wellFormed U) →
      ParseTags E U ⟨tagsText ps ++ tail, tok, m⟩ g =
        some (none, ⟨tail, if ps.isEmpty then tok else [], m⟩,
          { Moves := g.Moves, Tags := storeAll g.Tags ps }) := by
  intro ps
  induction ps with
  | nil =>
    intro tok g _
    exact ParseTags_stop E U ⟨tail, tok, m⟩ g ht
  | cons p ps ih =>
    intro tok g hwf
    simp only [tagsText, List.append_assoc]
    rw [ParseTags_pair E U m hi hst p (hwf p (List.mem_cons_self _ _)) _ tok g,
      ih [] _ (fun q hq => hwf q (List.mem_cons_of_mem _ hq))]
    simp [storeAll]

/-! ### What the stored mapping holds -/

theorem lookup_filter_ne (m : Tags) (k k1 : Str) (h : k1 ≠ k) :
    (m.filter (fun kv => kv.1 != k)).lookup k1 = m.lookup k1 := by
  induction m with
  | nil => rfl
  | cons kv rest ih =>
    obtain ⟨a, b⟩ := kv
    by_cases ha : a = k
    · subst ha
      have : (k1 == a) = false := by simpa using h
      simp [List.filter_cons, List.lookup_cons, this, ih]
    · have hne : (a != k) = true := by simpa using ha
      simp only [List.filter_cons, hne, if_true, List.lookup_cons, ih]

theorem lookup_set (m : Tags) (k v k1 : Str) :
    (m.set k v).lookup k1 = if k1 = k then some v else m.lookup k1 := by
  unfold Tags.set
  by_cases h : k1 = k
  · subst h
    simp [List.lookup_cons]
  · have : (k1 == k) = false := by simpa using h
    rw [if_neg h, List.lookup_cons, this]
    exact lookup_filter_ne m k k1 h

theorem lookup_storeAll (ps : List TagPair) : ∀ (t : Tags) (k : Str),
    (storeAll t ps).lookup k =
      match lastValue ps k with
      | some v => some v
      | none => t.lookup k := by
  induction ps with
  | nil => intro t k; rfl
  | cons p ps ih =>
    intro t k
    simp only [storeAll, lastValue]
    rw [ih]
    cases hl : lastValue ps k with
    | some v => rfl
    | none =>
      simp only
      rw [lookup_set]
      by_cases hk : p.key = k
      · rw [if_pos hk, if_pos hk.symm]
      · rw [if_neg hk, if_neg (fun e => hk e.symm)]

theorem lastValue_mem (ps : List TagPair) (k v : Str) (h : lastValue ps k = some v) :
    ∃ p ∈ ps, p.key = k ∧ p.val = v := by
  induction ps with
  | nil => simp [lastValue] at h
  | cons p ps ih =>
    simp only [lastValue] at h
    cases hl : lastValue ps k with
    | some w =>
      rw [hl] at h
      simp only [Option.some.injEq] at h
      subst h
      obtain ⟨q, hq, h1, h2⟩ := ih hl
      exact ⟨q, List.mem_cons_of_mem _ hq, h1, h2⟩
    | none =>
      rw [hl] at h
      simp only at h
      by_cases hk : p.key = k
      · rw [if_pos hk] at h
        simp only [Option.some.injEq] at h
        exact ⟨p, List.mem_cons_self _ _, hk, h⟩
      · rw [if_neg hk] at h
        cases h


/-- C11, as amended: on a stream of well-formed tag pairs `[K "V"]` (the key an
identifier, the value free of quotes, backslashes and newlines, the pairs
separated by newlines, carriage returns and spaces) that ends at the end of
input or at the character `0` or `1`, in a mode that scans identifiers and
strings (the mode `Init` sets and the mode `ParseMoves` sets do), `ParseTags`
returns `nil` with that end unread and the moves untouched; the tag mapping is
the one it had with the pairs stored in turn: every key of a pair maps to the
value of the last pair with that key, which has no quote at either end, and
the entry of every other key is as it was. -/
theorem ParseTags_stores_pairs (E : Type) (U : Unicode) (s : Scanner) (g : Game)
    (ps : List TagPair) (tail : Str)
    (hi : s.mode.ScanIdents = true) (hst : s.mode.ScanStrings = true)
    (hwf : ∀ p ∈ ps, p.wellFormed U) (ht : tagsStop tail) (hs : s.rest = tagsText ps ++ tail) :
    ∃ s1 g1, ParseTags E U s g = some (none, s1, g1) ∧ s1.rest = tail ∧ g1.Moves = g.Moves ∧
      g1.Tags = storeAll g.Tags ps ∧
      (∀ k v, lastValue ps k = some v →
        g1.Tags.lookup k = some v ∧ v.head? ≠ some chDQuote ∧ v.getLast? ≠ some chDQuote) ∧
      (∀ k, lastValue ps k = none → g1.Tags.lookup k = g.Tags.lookup k) := by
  obtain ⟨rest, tok, m⟩ := s
  simp only at hi hst hs
  subst hs
  refine ⟨_, _, ParseTags_pairs E U m hi hst tail ht ps tok g hwf, rfl, rfl, rfl, ?_, ?_⟩
  · intro k v hl
    refine ⟨by simp only [lookup_storeAll, hl], ?_, ?_⟩
    · obtain ⟨p, hp, _, hv⟩ := lastValue_mem ps k v hl
      intro hh
      have hm : chDQuote ∈ v := List.mem_of_mem_head? hh
      rw [← hv] at hm
      exact ((hwf p hp).2.1 _ hm).1 rfl
    · obtain ⟨p, hp, _, hv⟩ := lastValue_mem ps k v hl
      intro hh
      have hm : chDQuote ∈ v := List.mem_of_mem_getLast? hh
      rw [← hv] at hm
      exact ((hwf p hp).2.1 _ hm).1 rfl
  · intro k hl
    simp only [lookup_storeAll, hl]

/-- The witness of C11: two pairs with the same key and one with another,
before the movetext `1. e4`. -/
theorem ParseTags_stores_pairs_witness :
    ∃ s1 g1, ParseTags BoardError Unicode.ascii
        (Scanner.Init "[Event \"a\"]\n[Site \"b c\"]\n[Event \"d\"]\n\n1. e4".toList) emptyGame =
        some (none, s1, g1) ∧ s1.rest = "1. e4".toList ∧ g1.Moves = emptyGame.Moves ∧
      g1.Tags = storeAll emptyGame.Tags
        [⟨"Event".toList, "a".toList, [chNL]⟩, ⟨"Site".toList, "b c".toList, [chNL]⟩,
          ⟨"Event".toList, "d".toList, [chNL, chNL]⟩] ∧
      (∀ k v, lastValue [⟨"Event".toList, "a".toList, [chNL]⟩, ⟨"Site".toList, "b c".toList, [chNL]⟩,
          ⟨"Event".toList, "d".toList, [chNL, chNL]⟩] k = some v →
        g1.Tags.lookup k = some v ∧ v.head? ≠ some chDQuote ∧ v.getLast? ≠ some chDQuote) ∧
      (∀ k, lastValue [⟨"Event".toList, "a".toList, [chNL]⟩, ⟨"Site".toList, "b c".toList, [chNL]⟩,
          ⟨"Event".toList, "d".toList, [chNL, chNL]⟩] k = none →
        g1.Tags.lookup k = emptyGame.Tags.lookup k) :=
  ParseTags_stores_pairs BoardError Unicode.ascii
    (Scanner.Init "[Event \"a\"]\n[Site \"b c\"]\n[Event \"d\"]\n\n1. e4".toList) emptyGame
    [⟨"Event".toList, "a".toList, [chNL]⟩, ⟨"Site".toList, "b c".toList, [chNL]⟩,
      ⟨"Event".toList, "d".toList, [chNL, chNL]⟩] "1. e4".toList rfl rfl
    (by
      intro p hp
      simp only [List.mem_cons, List.mem_singleton, List.not_mem_nil, or_false] at hp
      rcases hp with h | h | h <;> subst h <;> exact ⟨rfl, by decide, by decide⟩)
    (Or.inr (Or.inr rfl)) rfl

/-- The counterexample to C11 as stated: the stream `[Event "x"]` followed by
the movetext `2. d4 d5`, which starts with a move number, is a stream of one
well-formed pair ending at a move number; `ParseTags` reads the movetext as
tag pairs and adds the keys `2.` and `d5`. -/
theorem tags_before_move_two_counterexample :
    tagsReport (ParseTags BoardError Unicode.ascii
        (Scanner.Init "[Event \"x\"]\n2. d4 d5".toList) emptyGame) =
      some ([("d5".toList, []), ("2.".toList, "d4".toList), ("Event".toList, "x".toList)], []) :=
  rfl

/-! ## Where `ParseTags` stops -/

/-- C12, as amended: when the next unread character, once the `[`, `]`,
newline, carriage return and space characters before it are read, is `0` or
`1`, `ParseTags` returns `nil` with that character unread and the game as it
was. -/
theorem ParseTags_stops_at_zero_or_one (E : Type) (U : Unicode) (s : Scanner) (g : Game)
    (sk : Str) (d : Char) (rest : Str) (hsk : ∀ c ∈ sk, isTagSkip c = true)
    (hd : d = '0' ∨ d = '1') (hs : s.rest = sk ++ d :: rest) :
    ∃ s1, ParseTags E U s g = some (none, s1, g) ∧ s1.rest = d :: rest ∧ s1.mode = s.mode := by
  obtain ⟨r0, tok, m⟩ := s
  simp only at hs
  subst hs
  have hstop : tagsStop (d :: rest) := by
    rcases hd with h | h <;> subst h
    · exact Or.inr (Or.inl rfl)
    · exact Or.inr (Or.inr rfl)
  by_cases he : sk = []
  · subst he
    exact ⟨_, ParseTags_stop E U _ g hstop, rfl, rfl⟩
  · refine ⟨⟨d :: rest, [], m⟩, ?_, rfl, rfl⟩
    rw [ParseTags_skips E U m g (d :: rest) sk tok hsk he]
    exact ParseTags_stop E U _ g hstop

/-- The witness of C12: a blank line, then `1. e4`. -/
theorem ParseTags_stops_at_zero_or_one_witness :
    ∃ s1, ParseTags BoardError Unicode.ascii (Scanner.Init "]\n\n1. e4".toList) emptyGame =
        some (none, s1, emptyGame) ∧
      s1.rest = '1' :: ". e4".toList ∧ s1.mode = (Scanner.Init "]\n\n1. e4".toList).mode :=
  ParseTags_stops_at_zero_or_one BoardError Unicode.ascii (Scanner.Init "]\n\n1. e4".toList)
    emptyGame "]\n\n".toList '1' ". e4".toList (by decide) (Or.inr rfl) rfl

/-- The counterexample to C12 as stated: the next unread character after the
newline is the digit `2`; `ParseTags` reads it, stores `23.` as a key with the
value `Nf3`, and goes on to the end of input. -/
theorem digit_two_is_read_counterexample :
    tagsReport (ParseTags BoardError Unicode.ascii (Scanner.Init "\n23. Nf3 *".toList)
        emptyGame) =
      some ([("*".toList, []), ("23.".toList, "Nf3".toList)], []) :=
  rfl


/-! ## What the parsers leave untouched -/

theorem tagsLoop_moves (E : Type) (U : Unicode) : ∀ (f : Nat) (s : Scanner) (g : Game)
    (r : Option E × Scanner × Game), tagsLoop E U f s g = some r → r.2.2.Moves = g.Moves := by
  intro f
  induction f with
  | zero => intro s g r h; simp [tagsLoop] at h
  | succ f ih =>
    intro s g r h
    unfold tagsLoop at h
    cases hp : s.Peek with
    | none =>
      rw [hp] at h
      simp only [Option.some.injEq] at h
      subst h
      rfl
    | some run =>
      rw [hp] at h
      simp only at h
      split at h
      · exact ih _ _ _ h
      · split at h
        · simp only [Option.some.injEq] at h
          subst h
          rfl
        · split at h
          · simp only [Option.some.injEq] at h
            subst h
            rfl
          · have := ih _ _ _ h
            simpa using this

/-- C13: `ParseMoves` has an outcome on every input, and in it, whether it
returned an error or not, the move list the game had before the call is a
prefix of the move list it has after, and the tag mapping is the same;
`ParseTags` returns on every input with the move list as it was. -/
theorem parsers_frame {B E : Type} (U : Unicode) (api : BoardAPI B E) (s : Scanner) (g : Game) :
    (∃ out, ParseMoves U api s g = some out ∧ g.Moves <+: out.state.g.Moves ∧
      out.state.g.Tags = g.Tags) ∧
    (∃ s1 g1, ParseTags E U s g = some (none, s1, g1) ∧ g1.Moves = g.Moves) := by
  constructor
  · obtain ⟨out, h⟩ := ParseMoves_total U api s g
    refine ⟨out, h, ?_⟩
    rcases ParseMoves_cases U api s g out h with ⟨e, _, he⟩ | ⟨b0, hb, _⟩
    · subst he
      exact ⟨List.prefix_refl _, rfl⟩
    · have hp := ParseMoves_post U api s g b0 out hb h
      cases out with
      | hangs st =>
        obtain ⟨ms, _, hm, ht⟩ := hp
        exact ⟨⟨ms, hm.symm⟩, ht⟩
      | returned err st =>
        cases err with
        | none =>
          obtain ⟨ms, _, hm, ht⟩ := hp
          exact ⟨⟨ms, hm.symm⟩, ht⟩
        | some e =>
          obtain ⟨pre, ms, t, c, _, _, _, hm, ht⟩ := hp
          exact ⟨⟨ms, hm.symm⟩, ht⟩
  · obtain ⟨s1, g1, h⟩ := ParseTags_total E U s g
    exact ⟨s1, g1, h, tagsLoop_moves E U _ s g _ h⟩

/-! ## `isEnd` -/

/-- C14: `isEnd(str)` is true exactly when `str` is `1-0`, `0-1`, `1/2-1/2`
or `*`. -/
theorem isEnd_exactly_markers (str : Str) :
    isEnd str = true ↔
      (str = "1-0".toList ∨ str = "0-1".toList ∨ str = "1/2-1/2".toList ∨ str = "*".toList) := by
  constructor
  · intro h
    by_contra hne
    simp only [not_or] at hne
    unfold isEnd at h
    rw [if_neg hne.2.2.1, if_neg hne.2.1, if_neg hne.1, if_neg hne.2.2.2] at h
    cases h
  · rintro (h | h | h | h) <;> subst h <;> rfl

/-! ## `Move.String` -/

/-- C15: `Move.String` is the text of the origin, then the text of the
destination, and nothing else when `Promote` is `NoPiece`; otherwise the text
of `Promote` follows.  With the square and piece texts of the board, the
promotion from e7 to e8 into a white queen is `e7e8Q` and the move from e2 to
e4 is `e2e4`. -/
theorem Move_String_parts (fp : Position → Str) (fq : Piece → Str) (m : Move) :
    (m.Promote = .NoPiece → m.String fp fq = fp m.From ++ fp m.To) ∧
    (m.Promote ≠ .NoPiece → m.String fp fq = fp m.From ++ fp m.To ++ fq m.Promote) ∧
    m.String fp fq = fp m.From ++ fp m.To ++ (if m.Promote = .NoPiece then [] else fq m.Promote) ∧
    Move.String Position.text Piece.text ⟨.sq 52, .sq 60, .WhiteQueen⟩ = "e7e8Q".toList ∧
    Move.String Position.text Piece.text ⟨.sq 12, .sq 28, .NoPiece⟩ = "e2e4".toList := by
  refine ⟨?_, ?_, ?_, rfl, rfl⟩
  · intro h
    simp [Move.String, h]
  · intro h
    simp [Move.String, h]
  · by_cases h : m.Promote = .NoPiece <;> simp [Move.String, h]

/-! ## Castling text -/

/-- C16: on the standard start `O-O` for White resolves to e1 to g1 and
`O-O-O` to e1 to b1, and on the position after White's `e4`, `O-O` for Black
resolves to e8 to g8 and `O-O-O` to e8 to b8, each with a `nil` error, though
the squares next to the king on either side are occupied. -/
theorem castling_resolves_to_fixed_squares :
    NewBoard.MoveFromAlgebraic "O-O".toList .White = (⟨.sq 4, .sq 6, .NoPiece⟩, none) ∧
    NewBoard.MoveFromAlgebraic "O-O-O".toList .White = (⟨.sq 4, .sq 1, .NoPiece⟩, none) ∧
    (NewBoard.MoveFromAlgebraic "e4".toList .White).2 = none ∧
    (NewBoard.MakeMove (NewBoard.MoveFromAlgebraic "e4".toList .White).1).MoveFromAlgebraic
      "O-O".toList .Black = (⟨.sq 60, .sq 62, .NoPiece⟩, none) ∧
    (NewBoard.MakeMove (NewBoard.MoveFromAlgebraic "e4".toList .White).1).MoveFromAlgebraic
      "O-O-O".toList .Black = (⟨.sq 60, .sq 57, .NoPiece⟩, none) ∧
    Position.text (.sq 4) = "e1".toList ∧ Position.text (.sq 6) = "g1".toList ∧
    Position.text (.sq 1) = "b1".toList ∧ Position.text (.sq 60) = "e8".toList ∧
    Position.text (.sq 62) = "g8".toList ∧ Position.text (.sq 57) = "b8".toList ∧
    NewBoard.containsPieceAt (.sq 5) = true ∧ NewBoard.containsPieceAt (.sq 3) = true ∧
    (NewBoard.MakeMove (NewBoard.MoveFromAlgebraic "e4".toList .White).1).containsPieceAt
      (.sq 61) = true ∧
    (NewBoard.MakeMove (NewBoard.MoveFromAlgebraic "e4".toList .White).1).containsPieceAt
      (.sq 59) = true := by
  refine ⟨rfl, rfl, rfl, rfl, rfl, rfl, rfl, rfl, rfl, rfl, rfl, rfl, rfl, rfl, rfl⟩

/-! ## The comment that is never closed -/

/-- C17 at the failing input: on `1. e4 {x` the loop that looks for the closing
brace after White's move is at the end of input with no brace read, where
`s.Peek() != '}'` holds for ever: `ParseMoves` never returns; `e4` has not been
passed to the resolver. -/
theorem unclosed_comment_never_returns :
    (ParseMoves Unicode.ascii boardAPI (Scanner.Init "1. e4 \x7bx".toList) emptyGame).map
      (fun out => (out.err, out.state.g.Moves, calls out.state.log)) = some (none, [], []) ∧
    (ParseMoves Unicode.ascii boardAPI (Scanner.Init "1. e4 \x7bx".toList) emptyGame).map
      (fun out => match out with | .hangs _ => true | .returned _ _ => false) = some true :=
  ⟨rfl, rfl⟩


/-! ## The colour comes from the slot -/

theorem slotOrder_append {B E : Type} (l1 l2 : List (Event B E)) : ∀ a : Bool,
    slotOrder a (l1 ++ l2) = (slotOrder a l1).bind (fun a1 => slotOrder a1 l2) := by
  induction l1 with
  | nil => intro a; rfl
  | cons ev rest ih =>
    intro a
    cases ev with
    | resolve b t c m err =>
      cases c with
      | White =>
        simp only [List.cons_append, slotOrder]
        exact ih _
      | Black =>
        simp only [List.cons_append, slotOrder]
        cases a with
        | false => rfl
        | true =>
          simp only [if_true]
          exact ih _
    | make b m =>
      simp only [List.cons_append, slotOrder]
      exact ih _
    | print b =>
      simp only [List.cons_append, slotOrder]
      exact ih _

theorem SlotInv.same_log {B E : Type} {st st1 : MovesState B E} (h : SlotInv st)
    (hl : st1.log = st.log) (hw : st1.white = st.white) : SlotInv st1 := by
  obtain ⟨a, h1, h2⟩ := h
  exact ⟨a, by rw [hl]; exact h1, by rw [hw]; exact h2⟩

theorem SlotInv.order {B E : Type} {st : MovesState B E} (h : SlotInv st) :
    ∃ a, slotOrder false st.log = some a := by
  obtain ⟨a, h1, _⟩ := h
  exact ⟨a, h1⟩

/-- After a call for White, whatever it returned. -/
theorem slotOrder_white {B E : Type} (log : List (Event B E)) (a : Bool)
    (h : slotOrder false log = some a) (b : B) (t : Str) (m : Move) (err : Option E)
    (ev : Event B E) (hev : ev.call = none) :
    slotOrder false (log ++ [.resolve b t .White m err, ev]) = some (a || err.isNone) := by
  rw [slotOrder_append, h]
  cases ev with
  | resolve b1 t1 c1 m1 e1 => simp [Event.call] at hev
  | make b1 m1 => cases a <;> cases err <;> rfl
  | print b1 => cases a <;> cases err <;> rfl

/-- After a call for Black, made when the flag is set. -/
theorem slotOrder_black {B E : Type} (log : List (Event B E))
    (h : slotOrder false log = some true) (b : B) (t : Str) (m : Move) (err : Option E)
    (ev : Event B E) (hev : ev.call = none) :
    slotOrder false (log ++ [.resolve b t .Black m err, ev]) = some false := by
  rw [slotOrder_append, h]
  cases ev with
  | resolve b1 t1 c1 m1 e1 => simp [Event.call] at hev
  | make b1 m1 => rfl
  | print b1 => rfl

theorem movesStep_slots {B E : Type} (U : Unicode) (api : BoardAPI B E) (st : MovesState B E)
    (h : SlotInv st) : SlotPost (movesStep U api st) := by
  unfold movesStep
  cases hrun : st.run with
  | none => exact h.order
  | some run =>
    simp only
    by_cases hp1 : run = '('
    · rw [if_pos hp1]; exact h.same_log rfl rfl
    rw [if_neg hp1]
    by_cases hp2 : run = chLBrace
    · rw [if_pos hp2]; exact h.same_log rfl rfl
    rw [if_neg hp2]
    by_cases hp3 : isGlyph run = true
    · rw [if_pos hp3]; exact h.same_log rfl rfl
    rw [if_neg hp3]
    by_cases hp4 : (st.s.Scan U).TokenText = [chLBrace]
    · rw [if_pos hp4]; exact h.same_log rfl rfl
    rw [if_neg hp4]
    by_cases hp5 : st.num = []
    · rw [if_pos hp5]
      unfold numSlot
      simp only
      split
      · exact h.order
      · exact h.same_log rfl rfl
    rw [if_neg hp5]
    obtain ⟨a, ha, hw⟩ := h
    by_cases hp6 : st.white = []
    · rw [if_pos hp6]
      unfold whiteSlot
      simp only
      split
      · exact ⟨a, ha⟩
      · split
        · exact ⟨a, ha⟩
        · split
          · exact ⟨_, slotOrder_white st.log a ha _ _ _ _ _ rfl⟩
          · rename_i he
            have hlog := slotOrder_white st.log a ha st.board
              (ParseMoveOrResult U (st.s.Scan U)).1
              (api.MoveFromAlgebraic st.board (ParseMoveOrResult U (st.s.Scan U)).1 .White).1
              (api.MoveFromAlgebraic st.board (ParseMoveOrResult U (st.s.Scan U)).1 .White).2
              (.make st.board
                (api.MoveFromAlgebraic st.board (ParseMoveOrResult U (st.s.Scan U)).1 .White).1) rfl
            have hflag : (a || (api.MoveFromAlgebraic st.board
                (ParseMoveOrResult U (st.s.Scan U)).1 .White).2.isNone) = true := by
              rw [he]
              simp
            rw [hflag] at hlog
            split
            · split
              · exact ⟨true, hlog⟩
              · exact ⟨true, hlog, fun _ => rfl⟩
            · exact ⟨true, hlog, fun _ => rfl⟩
    rw [if_neg hp6]
    have hat : a = true := hw hp6
    subst hat
    by_cases hp7 : st.black = []
    · rw [if_pos hp7]
      unfold blackSlot
      simp only
      split
      · exact ⟨true, ha⟩
      · split
        · exact ⟨_, slotOrder_black st.log ha _ _ _ _ _ rfl⟩
        · exact ⟨false, slotOrder_black st.log ha _ _ _ _ _ rfl, fun hne => absurd rfl hne⟩
    rw [if_neg hp7]
    exact ⟨true, ha, fun _ => rfl⟩

theorem Runs_slots {B E : Type} (U : Unicode) (api : BoardAPI B E) (st : MovesState B E)
    (out : Outcome B E) (h : SlotInv st) (hr : Runs U api st out) :
    ∃ a, slotOrder false out.state.log = some a := by
  obtain ⟨f, hf⟩ := hr
  induction f generalizing st with
  | zero => simp [movesLoop] at hf
  | succ f ih =>
    simp only [movesLoop] at hf
    have hs := movesStep_slots U api st h
    cases hstep : movesStep U api st with
    | next st1 =>
      rw [hstep] at hf hs
      exact ih st1 hs hf
    | ret err st1 =>
      rw [hstep] at hf hs
      simp only [Option.some.injEq] at hf
      subst hf
      exact hs
    | hang st1 =>
      rw [hstep] at hf hs
      simp only [Option.some.injEq] at hf
      subst hf
      exact hs

theorem ParseMoves_slots {B E : Type} (U : Unicode) (api : BoardAPI B E) (s : Scanner) (g : Game)
    (out : Outcome B E) (h : ParseMoves U api s g = some out) :
    ∃ a, slotOrder false out.state.log = some a := by
  rcases ParseMoves_cases U api s g out h with ⟨e, _, he⟩ | ⟨b0, _, hr⟩
  · subst he
    exact ⟨false, rfl⟩
  · have hinit : SlotInv (movesInit (E := E) s g b0) :=
      ⟨false, rfl, fun hne => absurd rfl hne⟩
    exact Runs_slots U api _ out hinit hr

theorem slotOrder_first {B E : Type} (log : List (Event B E)) : ∀ a : Bool,
    slotOrder false log = some a → ∀ t c, (calls log).head? = some (t, c) → c = Color.White := by
  induction log with
  | nil => intro a _ t c h; simp [calls] at h
  | cons ev rest ih =>
    intro a h t c hc
    cases ev with
    | resolve b t1 c1 m err =>
      cases c1 with
      | White =>
        simp only [calls, List.filterMap_cons, Event.call, List.head?_cons, Option.some.injEq,
          Prod.mk.injEq] at hc
        exact hc.2.symm
      | Black => simp [slotOrder] at h
    | make b m =>
      simp only [slotOrder] at h
      exact ih a h t c (by simpa [calls, Event.call] using hc)
    | print b =>
      simp only [slotOrder] at h
      exact ih a h t c (by simpa [calls, Event.call] using hc)

theorem slotOrder_armed {B E : Type} (pre : List (Event B E)) : ∀ a0 : Bool,
    slotOrder a0 pre = some true →
      (a0 = true ∧ ∀ ev ∈ pre, ev.isBlackCall = false) ∨
      ∃ p1 b1 t1 m1 p2, pre = p1 ++ Event.resolve b1 t1 .White m1 none :: p2 ∧
        ∀ ev ∈ p2, ev.isBlackCall = false := by
  induction pre with
  | nil =>
    intro a0 h
    simp only [slotOrder, Option.some.injEq] at h
    exact Or.inl ⟨h, by simp⟩
  | cons ev rest ih =>
    intro a0 h
    have lift : (∃ p1 b1 t1 m1 p2, rest = p1 ++ Event.resolve b1 t1 .White m1 none :: p2 ∧
        ∀ x ∈ p2, x.isBlackCall = false) →
        ∃ p1 b1 t1 m1 p2, ev :: rest = p1 ++ Event.resolve b1 t1 .White m1 none :: p2 ∧
          ∀ x ∈ p2, x.isBlackCall = false := by
      rintro ⟨p1, b1, t1, m1, p2, hr, hp⟩
      exact ⟨ev :: p1, b1, t1, m1, p2, by rw [hr]; rfl, hp⟩
    cases ev with
    | resolve b t c m err =>
      cases c with
      | White =>
        simp only [slotOrder] at h
        rcases ih _ h with ⟨hflag, hno⟩ | hsplit
        · cases a0 with
          | true =>
            refine Or.inl ⟨rfl, ?_⟩
            intro x hx
            rcases List.mem_cons.mp hx with hx | hx
            · subst hx; rfl
            · exact hno x hx
          | false =>
            cases err with
            | none => exact Or.inr ⟨[], b, t, m, rest, rfl, hno⟩
            | some e => simp at hflag
        · exact Or.inr (lift hsplit)
      | Black =>
        simp only [slotOrder] at h
        cases a0 with
        | false => simp at h
        | true =>
          simp only [if_true] at h
          rcases ih _ h with ⟨hflag, _⟩ | hsplit
          · cases hflag
          · exact Or.inr (lift hsplit)
    | make b m =>
      simp only [slotOrder] at h
      rcases ih _ h with ⟨hflag, hno⟩ | hsplit
      · refine Or.inl ⟨hflag, ?_⟩
        intro x hx
        rcases List.mem_cons.mp hx with hx | hx
        · subst hx; rfl
        · exact hno x hx
      · exact Or.inr (lift hsplit)
    | print b =>
      simp only [slotOrder] at h
      rcases ih _ h with ⟨hflag, hno⟩ | hsplit
      · refine Or.inl ⟨hflag, ?_⟩
        intro x hx
        rcases List.mem_cons.mp hx with hx | hx
        · subst hx; rfl
        · exact hno x hx
      · exact Or.inr (lift hsplit)

theorem slotOrder_before_black {B E : Type} (pre post : List (Event B E)) (b : B) (t : Str)
    (m : Move) (e : Option E) (a : Bool)
    (h : slotOrder false (pre ++ Event.resolve b t .Black m e :: post) = some a) :
    slotOrder false pre = some true := by
  rw [slotOrder_append] at h
  cases hp : slotOrder false pre with
  | none => rw [hp] at h; simp at h
  | some a1 =>
    rw [hp] at h
    cases a1 with
    | true => rfl
    | false => simp [slotOrder] at h

/-- C18: in the outcome of `ParseMoves`, on every input and whatever the seed
board, the first call of `MoveFromAlgebraic` is for White, and before every call
for Black there is a call for White that returned no error, with no call for
Black between the two.  So it is with the position of a `"FEN"` entry whose
side to move is Black: the first token, `d6`, is resolved for White. -/
theorem colour_from_slot {B E : Type} (U : Unicode) (api : BoardAPI B E) (s : Scanner)
    (g : Game) :
    (∃ out, ParseMoves U api s g = some out ∧
      (∀ t c, (calls out.state.log).head? = some (t, c) → c = Color.White) ∧
      (∀ pre b t m e post, out.state.log = pre ++ Event.resolve b t .Black m e :: post →
        ∃ p1 b1 t1 m1 p2, pre = p1 ++ Event.resolve b1 t1 .White m1 none :: p2 ∧
          ∀ ev ∈ p2, ev.isBlackCall = false)) ∧
    (seedOf "rnbqkbnr/pp1ppppp/8/2p5/4P3/5N2/PPPP1PPP/RNBQKB1R b KQkq - 1 2".toList).side
      = Color.Black ∧
    (ParseMoves Unicode.ascii boardAPI (Scanner.Init "2... d6 3. d4 *".toList)
        { Moves := [], Tags := [(fenKey,
          "rnbqkbnr/pp1ppppp/8/2p5/4P3/5N2/PPPP1PPP/RNBQKB1R b KQkq - 1 2".toList)] }).map
      (fun out => calls out.state.log) = some [("d6".toList, Color.White)] := by
  refine ⟨?_, rfl, rfl⟩
  obtain ⟨out, h⟩ := ParseMoves_total U api s g
  obtain ⟨a, ha⟩ := ParseMoves_slots U api s g out h
  refine ⟨out, h, slotOrder_first _ a ha, ?_⟩
  intro pre b t m e post hlog
  rw [hlog] at ha
  have hpre := slotOrder_before_black pre post b t m e a ha
  rcases slotOrder_armed pre false hpre with ⟨hf, _⟩ | hsplit
  · cases hf
  · exact hsplit


/-! ## `PGNScanner` -/

/-- `ParseMoves` at the end of input, with no `"FEN"` entry. -/
theorem ParseMoves_eof {B E : Type} (U : Unicode) (api : BoardAPI B E) (s : Scanner)
    (hs : s.rest = []) :
    ParseMoves U api s { Tags := [], Moves := [] } =
      some (.returned none (movesInit s { Tags := [], Moves := [] } api.NewBoard)) := by
  have hrun : (movesInit (E := E) s { Tags := [], Moves := [] } api.NewBoard).run = none := by
    simp [movesInit, Scanner.Peek, hs]
  have hidx : (Tags.index [] fenKey).length = 0 := rfl
  unfold ParseMoves
  simp only [hidx, Nat.lt_irrefl, if_false, movesFuel, hs, List.length_nil]
  simp only [movesLoop, movesStep, hrun]

/-- C19: when the unread input is not empty and has only newlines, carriage
returns and spaces, `PGNScanner.Next` returns true and `PGNScanner.Scan` returns
a game with no tag and no move, and a `nil` error, leaving nothing unread. -/
theorem blank_input_gives_empty_game {B E : Type} (U : Unicode) (api : BoardAPI B E)
    (ps : Scanner) (hne : ps.rest ≠ [])
    (hb : ∀ c ∈ ps.rest, c = chNL ∨ c = chCR ∨ c = ' ') :
    PGNScanner.Next ps = true ∧
    ∃ s1, PGNScanner.Scan U api ps =
        some (.returned (some { Tags := [], Moves := [] }) none s1) ∧ s1.rest = [] := by
  constructor
  · unfold PGNScanner.Next
    cases hr : ps.rest with
    | nil => exact absurd hr hne
    | cons c cs => simp [Scanner.Peek, hr]
  · obtain ⟨rest, tok, m⟩ := ps
    simp only at hne hb
    have ht : ParseTags E U ⟨rest, tok, m⟩ { Tags := [], Moves := [] } =
        some (none, ⟨[], [], m⟩, { Tags := [], Moves := [] }) := by
      have := ParseTags_skips E U m { Tags := [], Moves := [] } [] rest tok (by
        intro c hc
        rcases hb c hc with h | h | h <;> subst h <;> decide) hne
      rw [List.append_nil] at this
      rw [this]
      exact ParseTags_eof E U _ _ rfl
    refine ⟨(movesInit (B := B) (E := E) ⟨[], [], m⟩ { Tags := [], Moves := [] } api.NewBoard).s,
      ?_, rfl⟩
    unfold PGNScanner.Scan ParseGame
    simp only [ht, ParseMoves_eof U api ⟨[], [], m⟩ rfl]
    rfl

/-- The witness of C19: a newline, a carriage return and a space left after the
last game. -/
theorem blank_input_gives_empty_game_witness :
    PGNScanner.Next (NewPGNScanner [chNL, chCR, ' ']) = true ∧
    ∃ s1, PGNScanner.Scan Unicode.ascii boardAPI (NewPGNScanner [chNL, chCR, ' ']) =
        some (.returned (some { Tags := [], Moves := [] }) none s1) ∧ s1.rest = [] :=
  blank_input_gives_empty_game Unicode.ascii boardAPI (NewPGNScanner [chNL, chCR, ' '])
    (by decide) (by decide)

/-- `Peek` leaves the unread characters, the token text and the mode as they
are, and returns the first unread character. -/
theorem RawScanner.Peek_view (s : RawScanner) :
    s.Peek.2.view = s.view ∧ s.Peek.1 = s.view.Peek := by
  obtain ⟨src, ch, tok, mode⟩ := s
  cases ch with
  | some c =>
    cases c with
    | none => exact ⟨rfl, rfl⟩
    | some c => exact ⟨rfl, rfl⟩
  | none =>
    cases src with
    | nil => exact ⟨rfl, rfl⟩
    | cons c cs =>
      by_cases hbom : c.toNat = 0xFEFF
      · cases cs with
        | nil => simp [RawScanner.Peek, RawScanner.next, RawScanner.view, Scanner.Init,
            Scanner.Peek, hbom]
        | cons d ds => simp [RawScanner.Peek, RawScanner.next, RawScanner.view, Scanner.Init,
            Scanner.Peek, hbom]
      · simp [RawScanner.Peek, RawScanner.next, RawScanner.view, Scanner.Init, Scanner.Peek, hbom]

theorem NextRaw_iterate_view (n : Nat) : ∀ ps : RawScanner,
    ((fun p => (PGNScanner.NextRaw p).2)^[n] ps).view = ps.view := by
  induction n with
  | zero => intro ps; rfl
  | succ n ih =>
    intro ps
    rw [Function.iterate_succ, Function.comp_apply, ih]
    exact (RawScanner.Peek_view ps).1

/-- C20: `PGNScanner.Next` returns false exactly when no unread character
remains, it is the test of the look-ahead that `PGNScanner.Next` of this file
makes, and it leaves the unread characters as they are, though `Peek` reads the
first character when nothing has been read: after any number of calls,
`PGNScanner.Scan` returns the game and the error it returns without them. -/
theorem PGNScanner_Next_pure {B E : Type} (U : Unicode) (api : BoardAPI B E)
    (ps : RawScanner) (n : Nat) :
    ((PGNScanner.NextRaw ps).1 = false ↔ ps.view.rest = []) ∧
    (PGNScanner.NextRaw ps).1 = PGNScanner.Next ps.view ∧
    (PGNScanner.NextRaw ps).2.view = ps.view ∧
    PGNScanner.Scan U api ((fun p => (PGNScanner.NextRaw p).2)^[n] ps).view =
      PGNScanner.Scan U api ps.view := by
  obtain ⟨h1, h2⟩ := RawScanner.Peek_view ps
  refine ⟨?_, ?_, h1, by rw [NextRaw_iterate_view]⟩
  · simp only [PGNScanner.NextRaw, h2, Scanner.Peek]
    cases ps.view.rest <;> simp
  · simp only [PGNScanner.NextRaw, h2, PGNScanner.Next]

end PGN
